import Mathlib

/-!
Shallow embedding of `config/configtest/configtest.go` from the
`abursavich/common` repository, and proofs about the three reflective
walkers it defines (`setFile`, `assertFile`, `setDirectory`), their
exported wrappers, and the field-classification options
(`IncludeField`/`ExcludeField`, built on `structField`).

Modelling conventions, fixed once for the whole file:

* Go values are modelled by the inductive `GoVal` below.  A value carries
  its declared (static) type information where the walkers consult it:
  `str plain s` is a value of string kind, where `plain = true` means the
  declared type is exactly `string` (the source's `stringTyp`) and
  `plain = false` a named type of string kind such as `config.Secret`;
  `strSlice es` is a value of the exact type `[]string` (the source's
  `stringSliceTyp`); `sliceV` is any other slice (the walkers treat
  arrays identically, and a nil slice or map behaves identically to an
  empty one in every walker, so they are conflated).
* Pointers are addresses into an arena `Heap := Nat → GoVal`; `ptr none`
  is the nil pointer.  Pointers point at whole cells; interior pointers
  (`&s.Field`) do not occur in the modelled graphs.  A graph is
  well-formed (`wfV N`) when every pointer address is below the arena
  size `N`.
* Named struct types are identified by name (Go type identity for named
  types).  `strukt name hasSetter fields` has `hasSetter = true` when the
  pointer type `*T` implements `config.DirectorySetter` with a pointer
  receiver; every implementation on a struct type in the repository is of
  this form.  Methods on named map/slice types, value receivers, and
  implementations that reach through pointers to other cells are outside
  the grammar: a capability is a per-struct-type function from the
  receiver's fields to updated fields.
* Mutation is modelled by state passing: each walker takes and returns a
  state `St` holding the arena, the visited set `seen` (the source's
  `set{}` map), and instrumentation lists: `visits` records each address
  whose pointee the walker descended into, `calls` records each address
  on which `setDirectory` invoked the capability through a pointer, and
  `errs` collects `assertFile`'s reported failures (the source reports
  them through `testing.TB.Errorf`; the repository's own tests collect
  them into a slice exactly like this).
* The walkers recurse through the arena, so they take a fuel parameter
  and return `none` on exhaustion; termination is the theorem that an
  explicit fuel bound always suffices (claim C4).
* Addressability is threaded as a boolean `adr`: `reflect.Value.CanSet`
  is `adr && exported`.  The root of each walk is not addressable, a
  pointer's `Elem` and a slice's elements are addressable, an
  interface's `Elem` and map keys/values are not.
-/

inductive GoVal : Type where
  | str (plain : Bool) (s : String)
  | boolV (b : Bool)
  | strSlice (es : List String)
  | ptr (a : Option Nat)
  | strukt (name : String) (hasSetter : Bool) (fields : List (String × Bool × GoVal))
  | sliceV (es : List GoVal)
  | mapV (entries : List (GoVal × GoVal))
  | iface (w : Option GoVal)
  deriving Repr, Inhabited

abbrev Heap := Nat → GoVal

/-- The source's `field` struct: a struct type (identified by name) and a
field name; the key type of the include/exclude maps. -/
structure Fld where
  strukt : String
  name : String
  deriving DecidableEq, Repr

/-- The source's `fields` struct.  The Go maps hold only `true` entries, so
they are finite sets of descriptors. -/
structure Fields where
  incl : Finset Fld
  excl : Finset Fld

/-- The source's `FieldOption` closures, reified: each option either adds a
descriptor to the include map or to the exclude map. -/
inductive FieldOption where
  | includeF (f : Fld)
  | excludeF (f : Fld)
  deriving DecidableEq, Repr

def applyOption (o : Fields) : FieldOption → Fields
  | .includeF f => { o with incl := insert f o.incl }
  | .excludeF f => { o with excl := insert f o.excl }

/-- `AssertFile`/`SetFile` build the option record by running each option in
order over an empty `fields{}`. -/
def mkFields (l : List FieldOption) : Fields :=
  l.foldl applyOption ⟨∅, ∅⟩

def Fields.excludes (o : Fields) (f : Fld) : Bool := decide (f ∈ o.excl)

def Fields.includes (o : Fields) (f : Fld) : Bool := decide (f ∈ o.incl)

/-- Go types as seen by `structField`/`ptrType`: only the pointer structure,
whether the underlying type is a struct, and the struct's field names
matter there.  `other k` stands for any non-struct non-pointer kind, with
`k` the kind's name as printed in the panic message. -/
inductive OTy where
  | str
  | strukt (name : String) (fieldNames : List String)
  | other (name : String) (kind : String)
  | ptrT (t : OTy)

/-- The source's `ptrType`: strip any pointer indirection. -/
def ptrType : OTy → OTy
  | .ptrT t => ptrType t
  | .str => .str
  | .strukt n fs => .strukt n fs
  | .other n k => .other n k

def otyName : OTy → String
  | .str => "string"
  | .strukt n _ => n
  | .other n _ => n
  | .ptrT t => "*" ++ otyName t

def otyKind : OTy → String
  | .str => "string"
  | .strukt _ _ => "struct"
  | .other _ k => k
  | .ptrT _ => "ptr"

/-- The source's `structField`: resolve the sample's type through pointers,
panic (modelled as `Except.error` with the panic message) unless it is a
struct type containing the named field. -/
def structField (sample : OTy) (name : String) : Except String Fld :=
  let typ := ptrType sample
  match typ with
  | .strukt n fns =>
      if name ∈ fns then .ok ⟨n, name⟩
      else .error ("invalid field: \x22" ++ name ++ "\x22 not found in " ++ n)
  | t => .error ("invalid struct: " ++ otyName t ++ " is a " ++ otyKind t)

/-- The source's `IncludeField` option constructor (the error, if any,
happens here, before any walk). -/
def IncludeField (sample : OTy) (name : String) : Except String FieldOption :=
  (structField sample name).map .includeF

/-- The source's `ExcludeField` option constructor. -/
def ExcludeField (sample : OTy) (name : String) : Except String FieldOption :=
  (structField sample name).map .excludeF

/-- The source's `isNil`.  Nil maps and slices are conflated with empty
ones (every walker treats them identically), so only pointers and
interfaces have a nil form in the grammar. -/
def isNilV : GoVal → Bool
  | .ptr none => true
  | .iface none => true
  | _ => false

/-- `tf.Type == stringTyp`: the declared type is exactly `string`. -/
def GoVal.isPlainStr : GoVal → Bool
  | .str true _ => true
  | _ => false

/-- `tf.Type == stringSliceTyp`: the declared type is exactly `[]string`. -/
def GoVal.isStrSlice : GoVal → Bool
  | .strSlice _ => true
  | _ => false

/-- `reflect.Value.String()` on a value of string kind. -/
def GoVal.strContent : GoVal → String
  | .str _ s => s
  | _ => ""

/-- `strings.HasSuffix`: `s` ends with `suff`.  (Spelled over the
character list so that closed instances reduce in the kernel.) -/
def hasSuffixStr (s suff : String) : Bool :=
  decide (List.drop (s.toList.length - suff.toList.length) s.toList = suff.toList)

/-- `strings.TrimSuffix`: drop the suffix if present, else return `s`. -/
def trimSuffixStr (s suff : String) : String :=
  if hasSuffixStr s suff then ⟨s.toList.take (s.toList.length - suff.toList.length)⟩ else s

/-- The sibling-clearing step of `setFile`'s singular case:
`sf := val.FieldByName(t); if sf.IsValid() && sf.Type().Kind() == reflect.String
{ sf.SetString("") }`.  `FieldByName` finds the first field with the given
name; the check is on the field's KIND, so a named string type such as
`config.Secret` is cleared as well (the source comments: "NB: Check Kind
because Type may be Secret"). -/
def clearStrField : List (String × Bool × GoVal) → String → List (String × Bool × GoVal)
  | [], _ => []
  | (n, e, v) :: r, t =>
      if n = t then
        match v with
        | .str p _ => (n, e, .str p "") :: r
        | _ => (n, e, v) :: r
      else (n, e, v) :: clearStrField r t

/-- One failure reported through `t.Errorf` by `assertFile`: the structural
path (already including the field name), the element index for the plural
case, the observed value and the expected value. -/
structure Err where
  path : String
  idx : Option Nat
  got : String
  want : String
  deriving DecidableEq, Repr

/-- The state threaded through a walk: the arena, the visited set, and the
instrumentation described in the header comment. -/
structure St where
  heap : Heap
  seen : Finset Nat
  visits : List Nat
  calls : List Nat
  errs : List Err

def initSt (h : Heap) : St := ⟨h, ∅, [], [], []⟩

/-- The source's `ifaceType`: unwrap interface layers and name the concrete
type.  Only struct and string-kind names are significant for the claims;
the remaining renderings are diagnostic. -/
def goTypeName : GoVal → String
  | .str true _ => "string"
  | .str false _ => "Secret"
  | .boolV _ => "bool"
  | .strSlice _ => "[]string"
  | .ptr _ => "ptr"
  | .strukt n _ _ => n
  | .sliceV _ => "slice"
  | .mapV _ => "map"
  | .iface none => "nil"
  | .iface (some w) => goTypeName w

/-- `fmt`'s `%v` rendering of a map key, used only inside diagnostic path
strings. -/
def goValRepr : GoVal → String
  | .str _ s => s
  | .boolV b => toString b
  | _ => "?"

mutual

/-- The source's `setFile`.  Case order follows the source: nil check, then
kind switch over Ptr, Struct, Map, Slice, Interface; all other kinds fall
through with no effect. -/
def setFile (opts : Fields) (file : String) :
    Nat → St → Bool → GoVal → Option (St × GoVal)
  | 0, _, _, _ => none
  | fuel + 1, st, adr, v =>
    if isNilV v then some (st, v) else
    match v with
    | .ptr (some a) =>
        if a ∈ st.seen then some (st, v)
        else
          match setFile opts file fuel
              { st with seen := insert a st.seen, visits := st.visits ++ [a] }
              true (st.heap a) with
          | none => none
          | some (st', c) => some ({ st' with heap := Function.update st'.heap a c }, v)
    | .strukt n hs flds =>
        match setFileFields opts file fuel st adr n flds 0 with
        | none => none
        | some (st', flds') => some (st', .strukt n hs flds')
    | .mapV entries =>
        match setFileEntries opts file fuel st entries with
        | none => none
        | some (st', entries') => some (st', .mapV entries')
    | .sliceV es =>
        match setFileList opts file fuel st es with
        | none => none
        | some (st', es') => some (st', .sliceV es')
    | .iface (some w) =>
        match setFile opts file fuel st false w with
        | none => none
        | some (st', w') => some (st', .iface (some w'))
    | w => some (st, w)

/-- The field loop of `setFile`'s struct case.  The loop index is explicit
because the singular case writes to a sibling field of the same struct
(`val.FieldByName`), so the whole field list is in play at every step. -/
def setFileFields (opts : Fields) (file : String) :
    Nat → St → Bool → String → List (String × Bool × GoVal) → Nat →
    Option (St × List (String × Bool × GoVal))
  | 0, _, _, _, _, _ => none
  | fuel + 1, st, adr, n, flds, i =>
    match flds[i]? with
    | none => some (st, flds)
    | some (fname, fexp, fval) =>
      if !(adr && fexp) || opts.excludes ⟨n, fname⟩ then
        -- Field is unexported (or the struct is not addressable) or excluded.
        setFileFields opts file fuel st adr n flds (i + 1)
      else if fval.isPlainStr && (hasSuffixStr fname "File" || opts.includes ⟨n, fname⟩) then
        -- Clear the string sibling, if present, then set the file field.
        let flds1 := clearStrField flds (trimSuffixStr fname "File")
        setFileFields opts file fuel st adr n (flds1.set i (fname, fexp, .str true file)) (i + 1)
      else if fval.isStrSlice && (hasSuffixStr fname "Files" || opts.includes ⟨n, fname⟩) then
        setFileFields opts file fuel st adr n (flds.set i (fname, fexp, .strSlice [file])) (i + 1)
      else
        match setFile opts file fuel st adr fval with
        | none => none
        | some (st', fval') =>
            setFileFields opts file fuel st' adr n (flds.set i (fname, fexp, fval')) (i + 1)

/-- The slice loop of `setFile`.  Slice elements are always addressable. -/
def setFileList (opts : Fields) (file : String) :
    Nat → St → List GoVal → Option (St × List GoVal)
  | 0, _, _ => none
  | _ + 1, st, [] => some (st, [])
  | fuel + 1, st, v :: r =>
      match setFile opts file fuel st true v with
      | none => none
      | some (st', v') =>
          match setFileList opts file fuel st' r with
          | none => none
          | some (st'', r') => some (st'', v' :: r')

/-- The map loop of `setFile`.  Keys and values are not addressable; the
key cannot change in the map (mutation under a key can only go through a
pointer, hence through the arena), and the updated value term is kept,
which models mutation through the element's backing store (possible only
through pointers or slice elements, both of which persist in Go). -/
def setFileEntries (opts : Fields) (file : String) :
    Nat → St → List (GoVal × GoVal) → Option (St × List (GoVal × GoVal))
  | 0, _, _ => none
  | _ + 1, st, [] => some (st, [])
  | fuel + 1, st, (k, v) :: r =>
      match setFile opts file fuel st false k with
      | none => none
      | some (st1, _) =>
          match setFile opts file fuel st1 false v with
          | none => none
          | some (st2, v') =>
              match setFileEntries opts file fuel st2 r with
              | none => none
              | some (st3, r') => some (st3, (k, v') :: r')

end

/-- The inner loop of `assertFile`'s plural case: one failure per
mismatching element, by index; the walk never stops early. -/
def assertElems (path want : String) : Nat → List String → List Err
  | _, [] => []
  | j, g :: r =>
      (if g ≠ want then [⟨path, some j, g, want⟩] else []) ++ assertElems path want (j + 1) r

/-- `vf.Index j |>.String()` for the plural case. -/
def GoVal.strSliceContent : GoVal → List String
  | .strSlice es => es
  | _ => []

mutual

/-- The source's `assertFile`.  It reports mismatches through `t.Errorf`
(collected in `St.errs`) and returns whether the subtree was clean; it
never writes to the graph. -/
def assertFile (want : String) (opts : Fields) :
    Nat → St → String → Bool → GoVal → Option (St × Bool)
  | 0, _, _, _, _ => none
  | fuel + 1, st, path, adr, v =>
    if isNilV v then some (st, true) else
    match v with
    | .ptr (some a) =>
        if a ∈ st.seen then some (st, true)
        else assertFile want opts fuel
            { st with seen := insert a st.seen, visits := st.visits ++ [a] }
            path true (st.heap a)
    | .strukt n _ flds => assertFileFields want opts fuel st path adr n flds 0
    | .mapV entries => assertFileEntries want opts fuel st path entries
    | .sliceV es => assertFileList want opts fuel st path 0 es
    | .iface (some w) =>
        assertFile want opts fuel st (path ++ ".(" ++ goTypeName w ++ ")") false w
    | _ => some (st, true)

/-- The field loop of `assertFile`'s struct case. -/
def assertFileFields (want : String) (opts : Fields) :
    Nat → St → String → Bool → String → List (String × Bool × GoVal) → Nat →
    Option (St × Bool)
  | 0, _, _, _, _, _, _ => none
  | fuel + 1, st, path, adr, n, flds, i =>
    match flds[i]? with
    | none => some (st, true)
    | some (fname, fexp, fval) =>
      if !(adr && fexp) || opts.excludes ⟨n, fname⟩ then
        assertFileFields want opts fuel st path adr n flds (i + 1)
      else if fval.isPlainStr && (hasSuffixStr fname "File" || opts.includes ⟨n, fname⟩) then
        let got := fval.strContent
        let st1 :=
          if got ≠ want then
            { st with errs := st.errs ++ [⟨path ++ "." ++ fname, none, got, want⟩] }
          else st
        match assertFileFields want opts fuel st1 path adr n flds (i + 1) with
        | none => none
        | some (st2, ok2) => some (st2, (got == want) && ok2)
      else if fval.isStrSlice && (hasSuffixStr fname "Files" || opts.includes ⟨n, fname⟩) then
        let newErrs := assertElems (path ++ "." ++ fname) want 0 fval.strSliceContent
        match assertFileFields want opts fuel
            { st with errs := st.errs ++ newErrs } path adr n flds (i + 1) with
        | none => none
        | some (st2, ok2) => some (st2, newErrs.isEmpty && ok2)
      else
        match assertFile want opts fuel st (path ++ "." ++ fname) adr fval with
        | none => none
        | some (st1, ok1) =>
            match assertFileFields want opts fuel st1 path adr n flds (i + 1) with
            | none => none
            | some (st2, ok2) => some (st2, ok1 && ok2)

/-- The slice loop of `assertFile`. -/
def assertFileList (want : String) (opts : Fields) :
    Nat → St → String → Nat → List GoVal → Option (St × Bool)
  | 0, _, _, _, _ => none
  | _ + 1, st, _, _, [] => some (st, true)
  | fuel + 1, st, path, i, v :: r =>
      match assertFile want opts fuel st (path ++ "[" ++ toString i ++ "]") true v with
      | none => none
      | some (st1, ok1) =>
          match assertFileList want opts fuel st1 path (i + 1) r with
          | none => none
          | some (st2, ok2) => some (st2, ok1 && ok2)

/-- The map loop of `assertFile`.  As in the source, a key's failures are
reported under the path `(keyType)` alone, not under the map's path. -/
def assertFileEntries (want : String) (opts : Fields) :
    Nat → St → String → List (GoVal × GoVal) → Option (St × Bool)
  | 0, _, _, _ => none
  | _ + 1, st, _, [] => some (st, true)
  | fuel + 1, st, path, (k, v) :: r =>
      match assertFile want opts fuel st ("(" ++ goTypeName k ++ ")") false k with
      | none => none
      | some (st1, ok1) =>
          match assertFile want opts fuel st1
              (path ++ "[" ++ goValRepr k ++ "]") false v with
          | none => none
          | some (st2, ok2) =>
              match assertFileEntries want opts fuel st2 path r with
              | none => none
              | some (st3, ok3) => some (st3, ok1 && ok2 && ok3)

end

/-- The capability-invocation prelude of `setDirectory` for a non-nil
pointer value: `v.Interface().(config.DirectorySetter)` succeeds exactly
when the pointee's struct type has the setter (the method set of `*T`),
and the invocation runs the type's `SetDirectory` on the pointee cell and
is logged in `calls`. -/
def dirCapPtr (dir : String)
    (cap : String → String → List (String × Bool × GoVal) → List (String × Bool × GoVal))
    (st : St) (a : Nat) : St :=
  match st.heap a with
  | .strukt n true flds =>
      { st with heap := Function.update st.heap a (.strukt n true (cap n dir flds)),
                calls := st.calls ++ [a] }
  | _ => st

mutual

/-- The source's `setDirectory`.  The capability is checked and invoked
before the visited-set test: the visited set guards only the descent into
a pointee, never the invocation itself.  In the grammar only named struct
types carry the capability (pointer receiver), so the check fires when
the value is a non-nil pointer whose pointee is a struct with the setter,
or an addressable struct with the setter (taken by address, as the source
does for every addressable non-pointer value). -/
def setDirectory (dir : String) (cap : String → String → List (String × Bool × GoVal) → List (String × Bool × GoVal)) :
    Nat → St → Bool → GoVal → Option (St × GoVal)
  | 0, _, _, _ => none
  | fuel + 1, st, adr, v =>
    if isNilV v then some (st, v) else
    match v with
    | .ptr (some a) =>
        let st1 := dirCapPtr dir cap st a
        if a ∈ st1.seen then some (st1, v)
        else
          match setDirectory dir cap fuel
              { st1 with seen := insert a st1.seen, visits := st1.visits ++ [a] }
              true (st1.heap a) with
          | none => none
          | some (st', c) => some ({ st' with heap := Function.update st'.heap a c }, v)
    | .strukt n hs flds =>
        let flds1 := if adr && hs then cap n dir flds else flds
        match setDirFields dir cap fuel st adr n flds1 0 with
        | none => none
        | some (st', flds') => some (st', .strukt n hs flds')
    | .mapV entries =>
        match setDirEntries dir cap fuel st entries with
        | none => none
        | some (st', entries') => some (st', .mapV entries')
    | .sliceV es =>
        match setDirList dir cap fuel st es with
        | none => none
        | some (st', es') => some (st', .sliceV es')
    | .iface (some w) =>
        match setDirectory dir cap fuel st false w with
        | none => none
        | some (st', w') => some (st', .iface (some w'))
    | w => some (st, w)

/-- The field loop of `setDirectory`'s struct case: unexported (or
non-settable) fields are skipped, every other field is recursed into with
no file-like classification. -/
def setDirFields (dir : String) (cap : String → String → List (String × Bool × GoVal) → List (String × Bool × GoVal)) :
    Nat → St → Bool → String → List (String × Bool × GoVal) → Nat →
    Option (St × List (String × Bool × GoVal))
  | 0, _, _, _, _, _ => none
  | fuel + 1, st, adr, n, flds, i =>
    match flds[i]? with
    | none => some (st, flds)
    | some (fname, fexp, fval) =>
      if !(adr && fexp) then
        -- Field is unexported.
        setDirFields dir cap fuel st adr n flds (i + 1)
      else
        match setDirectory dir cap fuel st adr fval with
        | none => none
        | some (st', fval') =>
            setDirFields dir cap fuel st' adr n (flds.set i (fname, fexp, fval')) (i + 1)

/-- The slice loop of `setDirectory`. -/
def setDirList (dir : String) (cap : String → String → List (String × Bool × GoVal) → List (String × Bool × GoVal)) :
    Nat → St → List GoVal → Option (St × List GoVal)
  | 0, _, _ => none
  | _ + 1, st, [] => some (st, [])
  | fuel + 1, st, v :: r =>
      match setDirectory dir cap fuel st true v with
      | none => none
      | some (st', v') =>
          match setDirList dir cap fuel st' r with
          | none => none
          | some (st'', r') => some (st'', v' :: r')

/-- The map loop of `setDirectory`. -/
def setDirEntries (dir : String) (cap : String → String → List (String × Bool × GoVal) → List (String × Bool × GoVal)) :
    Nat → St → List (GoVal × GoVal) → Option (St × List (GoVal × GoVal))
  | 0, _, _ => none
  | _ + 1, st, [] => some (st, [])
  | fuel + 1, st, (k, v) :: r =>
      match setDirectory dir cap fuel st false k with
      | none => none
      | some (st1, _) =>
          match setDirectory dir cap fuel st1 false v with
          | none => none
          | some (st2, v') =>
              match setDirEntries dir cap fuel st2 r with
              | none => none
              | some (st3, r') => some (st3, (k, v') :: r')

end

mutual

/-- Traversal weight of a value: the structural size the walkers recurse
on, insensitive to string contents and to the elements of a `[]string`
value (no walker recurses into those, so `setFile`'s mutations never
change any weight). -/
def weight : GoVal → Nat
  | .str _ _ => 1
  | .boolV _ => 1
  | .strSlice _ => 1
  | .ptr _ => 1
  | .strukt _ _ flds => 2 + weightFields flds
  | .sliceV es => 2 + weightList es
  | .mapV es => 2 + weightEntries es
  | .iface none => 1
  | .iface (some w) => 1 + weight w

def weightFields : List (String × Bool × GoVal) → Nat
  | [] => 0
  | (_, _, v) :: r => 1 + weight v + weightFields r

def weightList : List GoVal → Nat
  | [] => 0
  | v :: r => 1 + weight v + weightList r

def weightEntries : List (GoVal × GoVal) → Nat
  | [] => 0
  | (k, v) :: r => 1 + weight k + weight v + weightEntries r

end

mutual

/-- Well-formedness of a value over an arena of size `N`: every pointer
address is a valid cell, and a struct's field names are distinct (as Go's
type system guarantees). -/
def wfV (N : Nat) : GoVal → Bool
  | .str _ _ => true
  | .boolV _ => true
  | .strSlice _ => true
  | .ptr none => true
  | .ptr (some a) => a < N
  | .strukt _ _ flds => wfFields N flds && ((flds.map fun f => f.1).Nodup : Bool)
  | .sliceV es => wfList N es
  | .mapV es => wfEntries N es
  | .iface none => true
  | .iface (some w) => wfV N w

def wfFields (N : Nat) : List (String × Bool × GoVal) → Bool
  | [] => true
  | (_, _, v) :: r => wfV N v && wfFields N r

def wfList (N : Nat) : List GoVal → Bool
  | [] => true
  | v :: r => wfV N v && wfList N r

def wfEntries (N : Nat) : List (GoVal × GoVal) → Bool
  | [] => true
  | (k, v) :: r => wfV N k && wfV N v && wfEntries N r

end

/-- Well-formedness of an arena: every cell is well-formed. -/
def wfHeap (N : Nat) (h : Heap) : Prop := ∀ a, a < N → wfV N (h a)

/-- Every cell's weight is bounded by `W` (the bound used by the explicit
fuel computation). -/
def heapBound (N W : Nat) (h : Heap) : Prop := ∀ a, a < N → weight (h a) ≤ W

/-- The name/exported signature of a struct's field list (what the loops
preserve: only field values ever change). -/
def fldSig (l : List (String × Bool × GoVal)) : List (String × Bool) :=
  l.map fun f => (f.1, f.2.1)

/-- The invariant carried through a walk: the visited set stays inside the
arena, and every cell stays well-formed with weight at most `W`. -/
def InvSt (N W : Nat) (st : St) : Prop :=
  st.seen ⊆ Finset.range N ∧ ∀ a, a < N → wfV N (st.heap a) = true ∧ weight (st.heap a) ≤ W

/-- The exported `SetFile`: build the option record, walk from the root
with a fresh visited set.  `reflect.ValueOf(config)` is not addressable. -/
def SetFileT (options : List FieldOption) (file : String) (fuel : Nat) (h : Heap)
    (root : GoVal) : Option (St × GoVal) :=
  setFile (mkFields options) file fuel (initSt h) false root

/-- The exported `AssertFile`: the root path is `(RootTypeName)` and the
call fails the test (returns `false`) when any mismatch was reported. -/
def AssertFileT (options : List FieldOption) (path : String) (fuel : Nat) (h : Heap)
    (root : GoVal) : Option (St × Bool) :=
  assertFile path (mkFields options) fuel (initSt h)
    ("(" ++ goTypeName root ++ ")") false root

/-- The exported `SetDirectory`. -/
def SetDirectoryT
    (cap : String → String → List (String × Bool × GoVal) → List (String × Bool × GoVal))
    (dir : String) (fuel : Nat) (h : Heap) (root : GoVal) : Option (St × GoVal) :=
  setDirectory dir cap fuel (initSt h) false root

/-! ## State evolution of `setFile`

`StExt st st'` captures how any `setFile` call may move the state: the
visited set only grows, the capability log and the failure log are
untouched, and the descent log grows by a block of addresses that were
unvisited at entry and are visited at exit.  The block form makes the
relation compose, and it yields claim C4's "each distinct reference node
is descended into at most once": a duplicate in `visits` would need an
address that is both unvisited at its own descent and already in the
visited set. -/

def StExt (st st' : St) : Prop :=
  st.seen ⊆ st'.seen ∧ st'.calls = st.calls ∧ st'.errs = st.errs ∧
  ∃ δ : List Nat, st'.visits = st.visits ++ δ ∧ δ.Nodup ∧
    ∀ a ∈ δ, a ∈ st'.seen ∧ a ∉ st.seen

/-! ## State evolution of `assertFile`

As `StExt`, but additionally: the heap is untouched (the source contains
no write operation), and the failure log grows by appending. -/

def AExt (st st' : St) : Prop :=
  st'.heap = st.heap ∧ st.seen ⊆ st'.seen ∧ st'.calls = st.calls ∧
  (∃ δ : List Nat, st'.visits = st.visits ++ δ ∧ δ.Nodup ∧
    ∀ a ∈ δ, a ∈ st'.seen ∧ a ∉ st.seen) ∧
  ∃ ε : List Err, st'.errs = st.errs ++ ε

/-! ## State evolution of `setDirectory`

As `StExt`, but the capability log may grow (by appending). -/

def DExt (st st' : St) : Prop :=
  st.seen ⊆ st'.seen ∧ st'.errs = st.errs ∧
  (∃ δ : List Nat, st'.visits = st.visits ++ δ ∧ δ.Nodup ∧
    ∀ a ∈ δ, a ∈ st'.seen ∧ a ∉ st.seen) ∧
  ∃ γ : List Nat, st'.calls = st.calls ++ γ

/-! ## Replay bookkeeping for the idempotence proof

Running `setFile` a second time replays the first run's traversal in
lockstep: the visited-set decisions, branch choices and constant writes
repeat exactly.  The definitions below record what the replay argument
tracks: the string/alias/`[]string` classification of a value (which
determines every branch decision and is preserved by the walk), the
per-position relation between the first run's entry list, its exit list
and the second run's current list, and the heap agreement condition on
freshly visited addresses. -/

/-- The string-KIND classification of a value: `some plain` for a string
(`plain` tells plain `string` from an alias), `none` otherwise.  Together
with `isStrSlice` this is all the loop's branch conditions read from a
field value. -/
def strFlag : GoVal → Option Bool
  | .str p _ => some p
  | _ => none

/-- A value `setFile` treats as a pure scalar write target: string kind or
exactly `[]string`. -/
def isStrish : GoVal → Bool
  | .str _ _ => true
  | .strSlice _ => true
  | _ => false

/-- The branch-deciding data of a field value. -/
def bdV (v : GoVal) : Option Bool × Bool := (strFlag v, v.isStrSlice)

/-- The write `clearStrField` performs at the found position. -/
def clearVal : GoVal → GoVal
  | .str p _ => .str p ""
  | w => w

/-- The position `val.FieldByName` finds: the first field with the given
name. -/
def fldIdx : List (String × Bool × GoVal) → String → Option Nat
  | [], _ => none
  | f :: r, t => if f.1 = t then some 0 else (fldIdx r t).map (· + 1)

/-- Heap agreement on the addresses a (sub)walk visits freshly: `g` holds
the walk's exit value for every address first visited by this walk.  At
the top level (`st.seen = ∅`) this says `g` is the run's final heap. -/
def HFresh (st st' : St) (g : Heap) : Prop :=
  ∀ a, a ∈ st'.seen → a ∉ st.seen → st'.heap a = g a

/-- The second run's field value against the first run's entry (`w`) and
exit (`wf`) values at the same position: it is one of the two, and at
positions the loop never writes (no string kind, not `[]string`) it is the
exit value. -/
def RelP (w wf m : GoVal) : Prop :=
  (m = w ∨ m = wf) ∧ (isStrish w = false → m = wf)

/-- The replay relation for the struct loop of a second run over the first
run's output: signatures agree and every position satisfies `RelP`. -/
def RelF (L Lf M : List (String × Bool × GoVal)) : Prop :=
  fldSig M = fldSig L ∧
  ∀ (j : Nat) (n : String) (e : Bool) (w wf m : GoVal),
    L[j]? = some (n, e, w) → Lf[j]? = some (n, e, wf) →
    M[j]? = some (n, e, m) → RelP w wf m

/-- The replay relation for re-walking the SAME value (map keys are walked
again on the original key term): the second run's list agrees with the
first run's at every string-kind or `[]string` position and at every
position the loop has not yet passed. -/
def Rel2F (i : Nat) (L M : List (String × Bool × GoVal)) : Prop :=
  fldSig M = fldSig L ∧
  ∀ (j : Nat) (n : String) (e : Bool) (w m : GoVal),
    L[j]? = some (n, e, w) → M[j]? = some (n, e, m) →
    (isStrish w = true ∨ i ≤ j) → m = w

/-! ## Proofs -/


theorem stExt_refl (st : St) : StExt st st :=
  ⟨Finset.Subset.refl _, rfl, rfl, [], by simp, List.nodup_nil, by simp⟩

theorem stExt_trans {s t u : St} (h1 : StExt s t) (h2 : StExt t u) : StExt s u := by
  obtain ⟨hs1, hc1, he1, δ1, hv1, hn1, hm1⟩ := h1
  obtain ⟨hs2, hc2, he2, δ2, hv2, hn2, hm2⟩ := h2
  refine ⟨hs1.trans hs2, hc2.trans hc1, he2.trans he1, δ1 ++ δ2, by simp [hv2, hv1], ?_, ?_⟩
  · refine List.Nodup.append hn1 hn2 ?_
    intro a ha1 ha2
    exact (hm2 a ha2).2 ((hm1 a ha1).1)
  · intro a ha
    rcases List.mem_append.1 ha with ha | ha
    · exact ⟨hs2 ((hm1 a ha).1), (hm1 a ha).2⟩
    · exact ⟨(hm2 a ha).1, fun hc => (hm2 a ha).2 (hs1 hc)⟩

/-- A heap change alone never disturbs `StExt`. -/
theorem stExt_heapSet {st st' : St} (h : StExt st st') (f : Heap) :
    StExt st { st' with heap := f } := h

/-- Descending into a fresh pointee: the state first gains the address in
both `seen` and `visits`, then evolves by `StExt`. -/
theorem stExt_ptrStep {st st2 : St} {a : Nat} (ha : a ∉ st.seen)
    (h : StExt { st with seen := insert a st.seen, visits := st.visits ++ [a] } st2) :
    StExt st st2 := by
  obtain ⟨hs, hc, he, δ, hv, hn, hm⟩ := h
  refine ⟨?_, hc, he, a :: δ, by simpa using hv, ?_, ?_⟩
  · exact fun x hx => hs (Finset.mem_insert_of_mem hx)
  · exact List.nodup_cons.2 ⟨fun hmem => (hm a hmem).2 (Finset.mem_insert_self a _), hn⟩
  · intro x hx
    rcases List.mem_cons.1 hx with rfl | hx
    · exact ⟨hs (Finset.mem_insert_self x _), ha⟩
    · refine ⟨(hm x hx).1, fun hc => (hm x hx).2 (Finset.mem_insert_of_mem hc)⟩

theorem setFile_state (opts : Fields) (file : String) : ∀ fuel : Nat,
    (∀ st adr v st' v', setFile opts file fuel st adr v = some (st', v') → StExt st st') ∧
    (∀ st adr n flds i st' flds',
      setFileFields opts file fuel st adr n flds i = some (st', flds') → StExt st st') ∧
    (∀ st es st' es', setFileList opts file fuel st es = some (st', es') → StExt st st') ∧
    (∀ st es st' es', setFileEntries opts file fuel st es = some (st', es') → StExt st st') := by
  intro fuel
  induction fuel with
  | zero =>
      refine ⟨?_, ?_, ?_, ?_⟩ <;> intro st <;> intros <;> simp_all [setFile, setFileFields,
        setFileList, setFileEntries]
  | succ n ih =>
      obtain ⟨ihGo, ihF, ihL, ihE⟩ := ih
      refine ⟨?_, ?_, ?_, ?_⟩
      · intro st adr v st' v' h
        simp only [setFile] at h
        split at h
        · cases h; exact stExt_refl _
        · split at h
          · rename_i a _
            split at h
            · cases h; exact stExt_refl _
            · split at h
              · exact absurd h (by simp)
              · rename_i heq
                cases h
                exact stExt_heapSet (stExt_ptrStep (by assumption) (ihGo _ _ _ _ _ heq)) _
          · split at h
            · exact absurd h (by simp)
            · rename_i heq
              cases h; exact ihF _ _ _ _ _ _ _ heq
          · split at h
            · exact absurd h (by simp)
            · rename_i heq
              cases h; exact ihE _ _ _ _ heq
          · split at h
            · exact absurd h (by simp)
            · rename_i heq
              cases h; exact ihL _ _ _ _ heq
          · split at h
            · exact absurd h (by simp)
            · rename_i heq
              cases h; exact ihGo _ _ _ _ _ heq
          · cases h; exact stExt_refl _
      · intro st adr n' flds i st' flds' h
        simp only [setFileFields] at h
        split at h
        · cases h; exact stExt_refl _
        · split at h
          · exact ihF _ _ _ _ _ _ _ h
          · split at h
            · exact ihF _ _ _ _ _ _ _ h
            · split at h
              · exact ihF _ _ _ _ _ _ _ h
              · split at h
                · exact absurd h (by simp)
                · rename_i heq
                  exact stExt_trans (ihGo _ _ _ _ _ heq) (ihF _ _ _ _ _ _ _ h)
      · intro st es st' es' h
        cases es with
        | nil => simp only [setFileList] at h; cases h; exact stExt_refl _
        | cons v r =>
            simp only [setFileList] at h
            split at h
            · exact absurd h (by simp)
            · rename_i heq
              split at h
              · exact absurd h (by simp)
              · rename_i heq2
                cases h
                exact stExt_trans (ihGo _ _ _ _ _ heq) (ihL _ _ _ _ heq2)
      · intro st es st' es' h
        cases es with
        | nil => simp only [setFileEntries] at h; cases h; exact stExt_refl _
        | cons kv r =>
            obtain ⟨k, v⟩ := kv
            simp only [setFileEntries] at h
            split at h
            · exact absurd h (by simp)
            · rename_i heq
              split at h
              · exact absurd h (by simp)
              · rename_i heq2
                split at h
                · exact absurd h (by simp)
                · rename_i heq3
                  cases h
                  exact stExt_trans (stExt_trans (ihGo _ _ _ _ _ heq) (ihGo _ _ _ _ _ heq2))
                    (ihE _ _ _ _ heq3)


theorem aExt_refl (st : St) : AExt st st :=
  ⟨rfl, Finset.Subset.refl _, rfl, ⟨[], by simp, List.nodup_nil, by simp⟩, [], by simp⟩

theorem aExt_trans {s t u : St} (h1 : AExt s t) (h2 : AExt t u) : AExt s u := by
  obtain ⟨hh1, hs1, hc1, ⟨δ1, hv1, hn1, hm1⟩, ε1, he1⟩ := h1
  obtain ⟨hh2, hs2, hc2, ⟨δ2, hv2, hn2, hm2⟩, ε2, he2⟩ := h2
  refine ⟨hh2.trans hh1, hs1.trans hs2, hc2.trans hc1,
    ⟨δ1 ++ δ2, by simp [hv2, hv1], ?_, ?_⟩, ε1 ++ ε2, by simp [he2, he1]⟩
  · refine List.Nodup.append hn1 hn2 ?_
    intro a ha1 ha2
    exact (hm2 a ha2).2 ((hm1 a ha1).1)
  · intro a ha
    rcases List.mem_append.1 ha with ha | ha
    · exact ⟨hs2 ((hm1 a ha).1), (hm1 a ha).2⟩
    · exact ⟨(hm2 a ha).1, fun hc => (hm2 a ha).2 (hs1 hc)⟩

theorem aExt_ptrStep {st st2 : St} {a : Nat} (ha : a ∉ st.seen)
    (h : AExt { st with seen := insert a st.seen, visits := st.visits ++ [a] } st2) :
    AExt st st2 := by
  obtain ⟨hh, hs, hc, ⟨δ, hv, hn, hm⟩, ε, he⟩ := h
  refine ⟨hh, fun x hx => hs (Finset.mem_insert_of_mem hx), hc,
    ⟨a :: δ, by simpa using hv, ?_, ?_⟩, ε, he⟩
  · exact List.nodup_cons.2 ⟨fun hmem => (hm a hmem).2 (Finset.mem_insert_self a _), hn⟩
  · intro x hx
    rcases List.mem_cons.1 hx with rfl | hx
    · exact ⟨hs (Finset.mem_insert_self x _), ha⟩
    · exact ⟨(hm x hx).1, fun hc => (hm x hx).2 (Finset.mem_insert_of_mem hc)⟩

/-- Appending failures is an `AExt` step. -/
theorem aExt_errStep (st : St) (ε : List Err) :
    AExt st { st with errs := st.errs ++ ε } :=
  ⟨rfl, Finset.Subset.refl _, rfl, ⟨[], by simp, List.nodup_nil, by simp⟩, ε, rfl⟩

theorem append_eq_self {α : Type} {l ε : List α} : l ++ ε = l ↔ ε = [] := by
  constructor
  · intro h
    have hl : l.length + ε.length = l.length := by simpa using congrArg List.length h
    have : ε.length = 0 := by omega
    exact List.length_eq_zero.mp this
  · rintro rfl; simp

theorem assertFile_state (opts : Fields) (want : String) : ∀ fuel : Nat,
    (∀ st path adr v st' ok, assertFile want opts fuel st path adr v = some (st', ok) →
      AExt st st' ∧ (ok = true ↔ st'.errs = st.errs)) ∧
    (∀ st path adr n flds i st' ok,
      assertFileFields want opts fuel st path adr n flds i = some (st', ok) →
      AExt st st' ∧ (ok = true ↔ st'.errs = st.errs)) ∧
    (∀ st path i es st' ok, assertFileList want opts fuel st path i es = some (st', ok) →
      AExt st st' ∧ (ok = true ↔ st'.errs = st.errs)) ∧
    (∀ st path es st' ok, assertFileEntries want opts fuel st path es = some (st', ok) →
      AExt st st' ∧ (ok = true ↔ st'.errs = st.errs)) := by
  intro fuel
  induction fuel with
  | zero =>
      refine ⟨?_, ?_, ?_, ?_⟩ <;> intro st <;> intros <;> simp_all [assertFile,
        assertFileFields, assertFileList, assertFileEntries]
  | succ n ih =>
      obtain ⟨ihGo, ihF, ihL, ihE⟩ := ih
      have compose : ∀ {s t u : St} {o1 o2 : Bool},
          AExt s t ∧ (o1 = true ↔ t.errs = s.errs) →
          AExt t u ∧ (o2 = true ↔ u.errs = t.errs) →
          AExt s u ∧ ((o1 && o2) = true ↔ u.errs = s.errs) := by
        intro s t u o1 o2 ⟨x1, y1⟩ ⟨x2, y2⟩
        refine ⟨aExt_trans x1 x2, ?_⟩
        obtain ⟨_, _, _, _, ε1, he1⟩ := x1
        obtain ⟨_, _, _, _, ε2, he2⟩ := x2
        have y1' : o1 = true ↔ ε1 = [] := by rw [y1, he1, append_eq_self]
        have y2' : o2 = true ↔ ε2 = [] := by rw [y2, he2, append_eq_self]
        rw [Bool.and_eq_true, y1', y2', he2, he1, List.append_assoc, append_eq_self,
          List.append_eq_nil]
      refine ⟨?_, ?_, ?_, ?_⟩
      · intro st path adr v st' ok h
        simp only [assertFile] at h
        split at h
        · cases h; exact ⟨aExt_refl _, by simp⟩
        · split at h
          · rename_i a _
            split at h
            · cases h; exact ⟨aExt_refl _, by simp⟩
            · rename_i ha
              obtain ⟨hext, hok⟩ := ihGo _ _ _ _ _ _ h
              exact ⟨aExt_ptrStep ha hext, hok⟩
          · exact ihF _ _ _ _ _ _ _ _ h
          · exact ihE _ _ _ _ _ h
          · exact ihL _ _ _ _ _ _ h
          · exact ihGo _ _ _ _ _ _ h
          · cases h; exact ⟨aExt_refl _, by simp⟩
      · intro st path adr n' flds i st' ok h
        simp only [assertFileFields] at h
        split at h
        · cases h; exact ⟨aExt_refl _, by simp⟩
        · rename_i fname fexp fval _
          split at h
          · exact ihF _ _ _ _ _ _ _ _ h
          · split at h
            · -- singular file field: maybe record one failure, then continue
              split at h
              · exact absurd h (by simp)
              · rename_i st2 ok2 heq
                cases h
                by_cases hgw : fval.strContent = want
                · rw [if_neg (by simp [hgw])] at heq
                  obtain ⟨hext, hok⟩ := ihF _ _ _ _ _ _ _ _ heq
                  refine ⟨hext, ?_⟩
                  rw [Bool.and_eq_true, beq_iff_eq, hok]
                  simp [hgw]
                · rw [if_pos hgw] at heq
                  obtain ⟨hext, hok⟩ := ihF _ _ _ _ _ _ _ _ heq
                  refine ⟨aExt_trans (aExt_errStep st _) hext, ?_⟩
                  obtain ⟨_, _, _, _, ε2, he2⟩ := hext
                  rw [Bool.and_eq_true, beq_iff_eq, he2]
                  simp only [St.errs] at *
                  rw [List.append_assoc, append_eq_self]
                  simp [hgw]
            · split at h
              · -- plural file field
                split at h
                · exact absurd h (by simp)
                · rename_i st2 ok2 heq
                  cases h
                  obtain ⟨hext, hok⟩ := ihF _ _ _ _ _ _ _ _ heq
                  refine ⟨aExt_trans (aExt_errStep st _) hext, ?_⟩
                  obtain ⟨_, _, _, _, ε2, he2⟩ := hext
                  rw [Bool.and_eq_true, List.isEmpty_iff, hok, he2]
                  simp only [St.errs] at *
                  simp [append_eq_self, List.append_eq_nil, List.append_assoc,
                    List.append_cancel_left_eq, and_comm]
              · -- default: recurse, then continue the loop
                split at h
                · exact absurd h (by simp)
                · rename_i heq
                  split at h
                  · exact absurd h (by simp)
                  · rename_i heq2
                    cases h
                    exact compose (ihGo _ _ _ _ _ _ heq) (ihF _ _ _ _ _ _ _ _ heq2)
      · intro st path i es st' ok h
        cases es with
        | nil => simp only [assertFileList] at h; cases h; exact ⟨aExt_refl _, by simp⟩
        | cons v r =>
            simp only [assertFileList] at h
            split at h
            · exact absurd h (by simp)
            · rename_i heq
              split at h
              · exact absurd h (by simp)
              · rename_i heq2
                cases h
                exact compose (ihGo _ _ _ _ _ _ heq) (ihL _ _ _ _ _ _ heq2)
      · intro st path es st' ok h
        cases es with
        | nil => simp only [assertFileEntries] at h; cases h; exact ⟨aExt_refl _, by simp⟩
        | cons kv r =>
            obtain ⟨k, v⟩ := kv
            simp only [assertFileEntries] at h
            split at h
            · exact absurd h (by simp)
            · rename_i heq
              split at h
              · exact absurd h (by simp)
              · rename_i heq2
                split at h
                · exact absurd h (by simp)
                · rename_i heq3
                  cases h
                  exact compose (compose (ihGo _ _ _ _ _ _ heq) (ihGo _ _ _ _ _ _ heq2))
                    (ihE _ _ _ _ _ heq3)


theorem dExt_refl (st : St) : DExt st st :=
  ⟨Finset.Subset.refl _, rfl, ⟨[], by simp, List.nodup_nil, by simp⟩, [], by simp⟩

theorem dExt_trans {s t u : St} (h1 : DExt s t) (h2 : DExt t u) : DExt s u := by
  obtain ⟨hs1, he1, ⟨δ1, hv1, hn1, hm1⟩, γ1, hc1⟩ := h1
  obtain ⟨hs2, he2, ⟨δ2, hv2, hn2, hm2⟩, γ2, hc2⟩ := h2
  refine ⟨hs1.trans hs2, he2.trans he1,
    ⟨δ1 ++ δ2, by simp [hv2, hv1], ?_, ?_⟩, γ1 ++ γ2, by simp [hc2, hc1]⟩
  · refine List.Nodup.append hn1 hn2 ?_
    intro a ha1 ha2
    exact (hm2 a ha2).2 ((hm1 a ha1).1)
  · intro a ha
    rcases List.mem_append.1 ha with ha | ha
    · exact ⟨hs2 ((hm1 a ha).1), (hm1 a ha).2⟩
    · exact ⟨(hm2 a ha).1, fun hc => (hm2 a ha).2 (hs1 hc)⟩

theorem dExt_heapSet {st st' : St} (h : DExt st st') (f : Heap) :
    DExt st { st' with heap := f } := h

theorem dExt_ptrStep {st st2 : St} {a : Nat} (ha : a ∉ st.seen)
    (h : DExt { st with seen := insert a st.seen, visits := st.visits ++ [a] } st2) :
    DExt st st2 := by
  obtain ⟨hs, he, ⟨δ, hv, hn, hm⟩, γ, hc⟩ := h
  refine ⟨fun x hx => hs (Finset.mem_insert_of_mem hx), he,
    ⟨a :: δ, by simpa using hv, ?_, ?_⟩, γ, hc⟩
  · exact List.nodup_cons.2 ⟨fun hmem => (hm a hmem).2 (Finset.mem_insert_self a _), hn⟩
  · intro x hx
    rcases List.mem_cons.1 hx with rfl | hx
    · exact ⟨hs (Finset.mem_insert_self x _), ha⟩
    · exact ⟨(hm x hx).1, fun hc => (hm x hx).2 (Finset.mem_insert_of_mem hc)⟩

/-- Invoking the capability through a pointer appends one call and touches
only the heap. -/
theorem dExt_capStep (st : St) (f : Heap) (a : Nat) :
    DExt st { st with heap := f, calls := st.calls ++ [a] } :=
  ⟨Finset.Subset.refl _, rfl, ⟨[], by simp, List.nodup_nil, by simp⟩, [a], rfl⟩

theorem dExt_capPtrStep (dir : String)
    (cap : String → String → List (String × Bool × GoVal) → List (String × Bool × GoVal))
    (st : St) (a : Nat) : DExt st (dirCapPtr dir cap st a) := by
  unfold dirCapPtr
  split
  · exact dExt_capStep st _ a
  · exact dExt_refl st

theorem dirCapPtr_seen (dir : String)
    (cap : String → String → List (String × Bool × GoVal) → List (String × Bool × GoVal))
    (st : St) (a : Nat) : (dirCapPtr dir cap st a).seen = st.seen := by
  unfold dirCapPtr
  split <;> rfl

theorem setDirectory_state (dir : String)
    (cap : String → String → List (String × Bool × GoVal) → List (String × Bool × GoVal)) :
    ∀ fuel : Nat,
    (∀ st adr v st' v', setDirectory dir cap fuel st adr v = some (st', v') → DExt st st') ∧
    (∀ st adr n flds i st' flds',
      setDirFields dir cap fuel st adr n flds i = some (st', flds') → DExt st st') ∧
    (∀ st es st' es', setDirList dir cap fuel st es = some (st', es') → DExt st st') ∧
    (∀ st es st' es', setDirEntries dir cap fuel st es = some (st', es') → DExt st st') := by
  intro fuel
  induction fuel with
  | zero =>
      refine ⟨?_, ?_, ?_, ?_⟩ <;> intro st <;> intros <;> simp_all [setDirectory,
        setDirFields, setDirList, setDirEntries]
  | succ n ih =>
      obtain ⟨ihGo, ihF, ihL, ihE⟩ := ih
      refine ⟨?_, ?_, ?_, ?_⟩
      · intro st adr v st' v' h
        simp only [setDirectory] at h
        split at h
        · cases h; exact dExt_refl _
        · split at h
          · rename_i a _
            -- the capability invocation happens first, unconditionally
            split at h
            · cases h; exact dExt_capPtrStep dir cap st a
            · rename_i hns
              split at h
              · exact absurd h (by simp)
              · rename_i heq
                cases h
                exact dExt_trans (dExt_capPtrStep dir cap st a)
                  (dExt_heapSet (dExt_ptrStep hns (ihGo _ _ _ _ _ heq)) _)
          · split at h
            · exact absurd h (by simp)
            · rename_i heq
              cases h; exact ihF _ _ _ _ _ _ _ heq
          · split at h
            · exact absurd h (by simp)
            · rename_i heq
              cases h; exact ihE _ _ _ _ heq
          · split at h
            · exact absurd h (by simp)
            · rename_i heq
              cases h; exact ihL _ _ _ _ heq
          · split at h
            · exact absurd h (by simp)
            · rename_i heq
              cases h; exact ihGo _ _ _ _ _ heq
          · cases h; exact dExt_refl _
      · intro st adr n' flds i st' flds' h
        simp only [setDirFields] at h
        split at h
        · cases h; exact dExt_refl _
        · split at h
          · exact ihF _ _ _ _ _ _ _ h
          · split at h
            · exact absurd h (by simp)
            · rename_i heq
              exact dExt_trans (ihGo _ _ _ _ _ heq) (ihF _ _ _ _ _ _ _ h)
      · intro st es st' es' h
        cases es with
        | nil => simp only [setDirList] at h; cases h; exact dExt_refl _
        | cons v r =>
            simp only [setDirList] at h
            split at h
            · exact absurd h (by simp)
            · rename_i heq
              split at h
              · exact absurd h (by simp)
              · rename_i heq2
                cases h
                exact dExt_trans (ihGo _ _ _ _ _ heq) (ihL _ _ _ _ heq2)
      · intro st es st' es' h
        cases es with
        | nil => simp only [setDirEntries] at h; cases h; exact dExt_refl _
        | cons kv r =>
            obtain ⟨k, v⟩ := kv
            simp only [setDirEntries] at h
            split at h
            · exact absurd h (by simp)
            · rename_i heq
              split at h
              · exact absurd h (by simp)
              · rename_i heq2
                split at h
                · exact absurd h (by simp)
                · rename_i heq3
                  cases h
                  exact dExt_trans (dExt_trans (ihGo _ _ _ _ _ heq) (ihGo _ _ _ _ _ heq2))
                    (ihE _ _ _ _ heq3)


/-! ## Weight and field-list bookkeeping for the fuel bounds -/

theorem weightFields_drop_succ {l : List (String × Bool × GoVal)} {i : Nat}
    {n : String} {e : Bool} {v : GoVal} (h : l[i]? = some (n, e, v)) :
    weightFields (l.drop i) = 1 + weight v + weightFields (l.drop (i + 1)) := by
  obtain ⟨hlt, hv⟩ := List.getElem?_eq_some.1 h
  rw [List.drop_eq_getElem_cons hlt, hv]
  rfl

theorem weightList_cons (v : GoVal) (r : List GoVal) :
    weightList (v :: r) = 1 + weight v + weightList r := rfl

theorem weightEntries_cons (k v : GoVal) (r : List (GoVal × GoVal)) :
    weightEntries ((k, v) :: r) = 1 + weight k + weight v + weightEntries r := rfl

theorem weightFields_set {l : List (String × Bool × GoVal)} {j : Nat}
    (e : String × Bool × GoVal) (h : j < l.length) :
    weightFields (l.set j e) + weight l[j].2.2 = weightFields l + weight e.2.2 := by
  induction l generalizing j with
  | nil => simp at h
  | cons x r ih =>
      cases j with
      | zero =>
          obtain ⟨a, b, c⟩ := x
          obtain ⟨a', b', c'⟩ := e
          simp [weightFields]
          omega
      | succ j =>
          obtain ⟨a, b, c⟩ := x
          simp only [List.set_cons_succ, weightFields, List.getElem_cons_succ]
          have := ih (j := j) (by simpa using h)
          omega

theorem weightFields_set_eq {l : List (String × Bool × GoVal)} {j : Nat}
    {e : String × Bool × GoVal} (h : j < l.length)
    (hw : weight e.2.2 = weight l[j].2.2) :
    weightFields (l.set j e) = weightFields l := by
  have := weightFields_set e h
  omega

theorem weightFields_drop_set_eq {l : List (String × Bool × GoVal)} {j : Nat}
    {e : String × Bool × GoVal} (h : j < l.length)
    (hw : weight e.2.2 = weight l[j].2.2) (k : Nat) :
    weightFields ((l.set j e).drop k) = weightFields (l.drop k) := by
  rcases Nat.lt_or_ge j k with hjk | hjk
  · rw [List.drop_set, if_pos hjk]
  · rw [List.drop_set, if_neg (by omega)]
    refine weightFields_set_eq (by rw [List.length_drop]; omega) ?_
    rw [List.getElem_drop]
    have hkj : k + (j - k) = j := by omega
    simp only [hkj]
    exact hw

theorem set_get_self {α : Type} (l : List α) (j : Nat) (h : j < l.length) :
    l.set j l[j] = l := by
  induction l generalizing j with
  | nil => simp at h
  | cons x r ih =>
      cases j with
      | zero => rfl
      | succ j => simpa [List.set_cons_succ] using ih j (by simpa using h)

theorem fldSig_set_eq {l : List (String × Bool × GoVal)} {j : Nat}
    {e : String × Bool × GoVal} (h : j < l.length)
    (h1 : e.1 = l[j].1) (h2 : e.2.1 = l[j].2.1) :
    fldSig (l.set j e) = fldSig l := by
  unfold fldSig
  rw [List.map_set]
  have hlen : j < (l.map fun f : String × Bool × GoVal => (f.1, f.2.1)).length := by
    simpa using h
  have hval : (e.1, e.2.1) = (l.map fun f : String × Bool × GoVal => (f.1, f.2.1))[j] := by
    simp only [List.getElem_map]
    rw [h1, h2]
  rw [hval, set_get_self _ _ hlen]

theorem wfFields_set {N : Nat} {l : List (String × Bool × GoVal)} {j : Nat}
    {e : String × Bool × GoVal} (he : wfV N e.2.2 = true) (hl : wfFields N l = true) :
    wfFields N (l.set j e) = true := by
  induction l generalizing j with
  | nil => simpa using hl
  | cons x r ih =>
      obtain ⟨a, b, c⟩ := x
      obtain ⟨a', b', c'⟩ := e
      simp only [wfFields, Bool.and_eq_true] at hl
      cases j with
      | zero => simp [wfFields, he, hl.2]
      | succ j =>
          simp only [List.set_cons_succ, wfFields, Bool.and_eq_true]
          exact ⟨hl.1, ih hl.2⟩

/-- What `clearStrField` can do: nothing, or replace the first field named
`t` (which has string kind) by the same field with content cleared. -/
theorem clearStrField_char (l : List (String × Bool × GoVal)) (t : String) :
    clearStrField l t = l ∨
    ∃ (j : Nat) (p : Bool) (s : String) (h : j < l.length), l[j].1 = t ∧
      l[j].2.2 = .str p s ∧
      clearStrField l t = l.set j (l[j].1, l[j].2.1, .str p "") := by
  induction l with
  | nil => left; rfl
  | cons x r ih =>
      obtain ⟨n, e, v⟩ := x
      by_cases hn : n = t
      · cases v with
        | str p s =>
            right
            exact ⟨0, p, s, by simp, hn, rfl, by simp [clearStrField, hn]⟩
        | boolV b => left; simp [clearStrField, hn]
        | strSlice es => left; simp [clearStrField, hn]
        | ptr a => left; simp [clearStrField, hn]
        | strukt n2 hs2 f2 => left; simp [clearStrField, hn]
        | sliceV es => left; simp [clearStrField, hn]
        | mapV es => left; simp [clearStrField, hn]
        | iface w => left; simp [clearStrField, hn]
      · rcases ih with h | ⟨j, p, s, hj, h1, h2, h3⟩
        · left; simp [clearStrField, hn, h]
        · right
          refine ⟨j + 1, p, s, by simp; omega, by simpa using h1, by simpa using h2, ?_⟩
          simp [clearStrField, hn, h3, List.set_cons_succ]

/-- Writing one field with a same-weight, well-formed value of the same
name/exported signature preserves all loop bookkeeping. -/
theorem setUpdate {N : Nat} {flds : List (String × Bool × GoVal)} {i : Nat}
    {fname : String} {fexp : Bool} {fval : GoVal} (e' : String × Bool × GoVal)
    (hget : flds[i]? = some (fname, fexp, fval)) (hw : weight e'.2.2 = weight fval)
    (hn : e'.1 = fname) (hx : e'.2.1 = fexp)
    (hwfe : wfV N e'.2.2 = true) (hwf : wfFields N flds = true) :
    weightFields (flds.set i e') = weightFields flds ∧
    (flds.set i e').drop (i + 1) = flds.drop (i + 1) ∧
    fldSig (flds.set i e') = fldSig flds ∧
    wfFields N (flds.set i e') = true := by
  obtain ⟨hi, hv⟩ := List.getElem?_eq_some.1 hget
  refine ⟨weightFields_set_eq hi (by rw [hv]; exact hw), ?_, ?_, wfFields_set hwfe hwf⟩
  · rw [List.drop_set, if_pos (by omega)]
  · exact fldSig_set_eq hi (by rw [hv]; exact hn) (by rw [hv]; exact hx)

/-- Combined facts about `setFile`'s singular-case update: the sibling
clear followed by writing the file field preserves weights (in total and
past the loop index), the name/exported signature, and well-formedness. -/
theorem singularUpdate {N : Nat} {flds : List (String × Bool × GoVal)} {i : Nat}
    {fname : String} {fexp : Bool} {fval : GoVal} (t file : String)
    (hget : flds[i]? = some (fname, fexp, fval)) (hp : fval.isPlainStr = true)
    (hwf : wfFields N flds = true) :
    weightFields ((clearStrField flds t).set i (fname, fexp, .str true file)) =
      weightFields flds ∧
    weightFields (((clearStrField flds t).set i (fname, fexp, .str true file)).drop (i + 1)) =
      weightFields (flds.drop (i + 1)) ∧
    fldSig ((clearStrField flds t).set i (fname, fexp, .str true file)) = fldSig flds ∧
    wfFields N ((clearStrField flds t).set i (fname, fexp, .str true file)) = true := by
  obtain ⟨hi, hv⟩ := List.getElem?_eq_some.1 hget
  have hfval : weight fval = 1 := by
    cases fval <;> first | rfl | simp [GoVal.isPlainStr] at hp
  rcases clearStrField_char flds t with hc | ⟨j, p, s, hj, hn1, hv2, hc⟩
  · rw [hc]
    obtain ⟨w1, w2, w3, w4⟩ := setUpdate (N := N) (fname, fexp, .str true file) hget
      (by simpa [weight] using hfval.symm) rfl rfl (by simp [wfV]) hwf
    exact ⟨w1, by rw [w2], w3, w4⟩
  · rw [hc]
    have hgetj : flds[j]? = some (flds[j].1, flds[j].2.1, flds[j].2.2) :=
      List.getElem?_eq_some.2 ⟨hj, rfl⟩
    obtain ⟨u1, _, u3, u4⟩ := setUpdate (N := N) (flds[j].1, flds[j].2.1, GoVal.str p "")
      hgetj (by rw [hv2]; rfl) rfl rfl (by simp [wfV]) hwf
    have hlen2 : i < (flds.set j (flds[j].1, flds[j].2.1, GoVal.str p "")).length := by
      rw [List.length_set]; exact hi
    have hget2 : (flds.set j (flds[j].1, flds[j].2.1, GoVal.str p ""))[i]? =
        some ((flds.set j (flds[j].1, flds[j].2.1, GoVal.str p ""))[i].1,
          (flds.set j (flds[j].1, flds[j].2.1, GoVal.str p ""))[i].2.1,
          (flds.set j (flds[j].1, flds[j].2.1, GoVal.str p ""))[i].2.2) :=
      List.getElem?_eq_some.2 ⟨hlen2, rfl⟩
    have hgi : (flds.set j (flds[j].1, flds[j].2.1, GoVal.str p ""))[i] =
        if j = i then (flds[j].1, flds[j].2.1, GoVal.str p "") else flds[i] :=
      List.getElem_set hlen2
    have hgname : (flds.set j (flds[j].1, flds[j].2.1, GoVal.str p ""))[i].1 = fname := by
      rw [hgi]
      by_cases hji : j = i
      · subst hji; rw [if_pos rfl, hv]
      · rw [if_neg hji, hv]
    have hgexp : (flds.set j (flds[j].1, flds[j].2.1, GoVal.str p ""))[i].2.1 = fexp := by
      rw [hgi]
      by_cases hji : j = i
      · subst hji; rw [if_pos rfl, hv]
      · rw [if_neg hji, hv]
    have hgw : weight (flds.set j (flds[j].1, flds[j].2.1, GoVal.str p ""))[i].2.2 = 1 := by
      rw [hgi]
      by_cases hji : j = i
      · subst hji; rw [if_pos rfl]; rfl
      · rw [if_neg hji, hv]; exact hfval
    obtain ⟨w1, w2, w3, w4⟩ := setUpdate (N := N) (fname, fexp, .str true file) hget2
      (by rw [hgw]; rfl) (by rw [hgname]) (by rw [hgexp]) (by simp [wfV]) u4
    refine ⟨by rw [w1, u1], ?_, by rw [w3, u3], w4⟩
    rw [w2]
    exact weightFields_drop_set_eq hj (by rw [hv2]; rfl) (i + 1)

theorem weight_pos (v : GoVal) : 1 ≤ weight v := by
  cases v with
  | str p s => exact Nat.le.refl
  | boolV b => exact Nat.le.refl
  | strSlice es => exact Nat.le.refl
  | ptr a => exact Nat.le.refl
  | strukt n hs flds => show 1 ≤ 2 + weightFields flds; omega
  | sliceV es => show 1 ≤ 2 + weightList es; omega
  | mapV es => show 1 ≤ 2 + weightEntries es; omega
  | iface w =>
      cases w with
      | none => exact Nat.le.refl
      | some w => show 1 ≤ 1 + weight w; omega

theorem wfFields_get {N : Nat} {l : List (String × Bool × GoVal)} {i : Nat}
    {n : String} {e : Bool} {v : GoVal} (h : wfFields N l = true)
    (hg : l[i]? = some (n, e, v)) : wfV N v = true := by
  induction l generalizing i with
  | nil => simp at hg
  | cons x r ih =>
      obtain ⟨a, b, c⟩ := x
      simp only [wfFields, Bool.and_eq_true] at h
      cases i with
      | zero =>
          simp only [List.getElem?_cons_zero] at hg
          cases hg
          exact h.1
      | succ i => exact ih h.2 (by simpa using hg)

theorem fldSig_names {l l' : List (String × Bool × GoVal)} (h : fldSig l = fldSig l') :
    (l.map fun f => f.1) = l'.map fun f => f.1 := by
  have := congrArg (List.map Prod.fst) h
  simpa [fldSig, List.map_map, Function.comp] using this

theorem seen_card_lt {N : Nat} {s : Finset Nat} {a : Nat}
    (hs : s ⊆ Finset.range N) (ha : a < N) (hmem : a ∉ s) : s.card < N := by
  rcases Nat.lt_or_ge s.card N with h | h
  · exact h
  · have hcard : (Finset.range N).card ≤ s.card := by simpa [Finset.card_range] using h
    have heq : s = Finset.range N := Finset.eq_of_subset_of_card_le hs hcard
    rw [heq] at hmem
    exact absurd (Finset.mem_range.2 ha) hmem

theorem fuel_deref {N W c fuel wv wc : Nat} (hc : c < N) (hwc : wc ≤ W)
    (h : (N - c) * (W + 1) + wv ≤ fuel + 1) (hv : 1 ≤ wv) :
    (N - (c + 1)) * (W + 1) + wc ≤ fuel := by
  have hNc : N - c = (N - (c + 1)) + 1 := by omega
  rw [hNc, Nat.add_mul, one_mul] at h
  omega

theorem fuel_mono {N W c c' x y fuel : Nat} (hcc : c ≤ c')
    (h : (N - c) * (W + 1) + x ≤ fuel) (hxy : y ≤ x) :
    (N - c') * (W + 1) + y ≤ fuel := by
  have := Nat.mul_le_mul_right (W + 1) (Nat.sub_le_sub_left hcc N)
  omega

/-- Claim C4's heart for `setFile`: with the visited set inside the arena,
all cells well-formed and of weight at most `W`, and enough fuel as
measured by the unvisited count and the value's weight, the walk
completes, preserves the invariant and all weights, and only grows the
visited set.  Since no hypothesis excludes cycles, this is termination on
arbitrary (cyclic) well-formed graphs. -/
theorem setFile_suff (N W : Nat) (opts : Fields) (file : String) : ∀ fuel : Nat,
    (∀ st adr v, InvSt N W st → wfV N v = true →
      (N - st.seen.card) * (W + 1) + weight v ≤ fuel →
      ∃ st' v', setFile opts file fuel st adr v = some (st', v') ∧ InvSt N W st' ∧
        st.seen ⊆ st'.seen ∧ weight v' = weight v ∧ wfV N v' = true) ∧
    (∀ st adr n flds i, InvSt N W st → wfFields N flds = true →
      (N - st.seen.card) * (W + 1) + 1 + weightFields (flds.drop i) ≤ fuel →
      ∃ st' flds', setFileFields opts file fuel st adr n flds i = some (st', flds') ∧
        InvSt N W st' ∧ st.seen ⊆ st'.seen ∧ weightFields flds' = weightFields flds ∧
        fldSig flds' = fldSig flds ∧ wfFields N flds' = true) ∧
    (∀ st es, InvSt N W st → wfList N es = true →
      (N - st.seen.card) * (W + 1) + 1 + weightList es ≤ fuel →
      ∃ st' es', setFileList opts file fuel st es = some (st', es') ∧ InvSt N W st' ∧
        st.seen ⊆ st'.seen ∧ weightList es' = weightList es ∧ wfList N es' = true) ∧
    (∀ st es, InvSt N W st → wfEntries N es = true →
      (N - st.seen.card) * (W + 1) + 1 + weightEntries es ≤ fuel →
      ∃ st' es', setFileEntries opts file fuel st es = some (st', es') ∧ InvSt N W st' ∧
        st.seen ⊆ st'.seen ∧ weightEntries es' = weightEntries es ∧
        wfEntries N es' = true) := by
  intro fuel
  induction fuel with
  | zero =>
      refine ⟨?_, ?_, ?_, ?_⟩
      · intro st adr v _ _ hb
        have := weight_pos v
        omega
      · intro st adr n flds i _ _ hb
        omega
      · intro st es _ _ hb
        omega
      · intro st es _ _ hb
        omega
  | succ n ih =>
      obtain ⟨ihGo, ihF, ihL, ihE⟩ := ih
      refine ⟨?_, ?_, ?_, ?_⟩
      · intro st adr v hInv hwf hb
        cases v with
        | str p s =>
            exact ⟨st, _, by simp [setFile, isNilV], hInv, Finset.Subset.refl _, rfl, hwf⟩
        | boolV b =>
            exact ⟨st, _, by simp [setFile, isNilV], hInv, Finset.Subset.refl _, rfl, hwf⟩
        | strSlice es =>
            exact ⟨st, _, by simp [setFile, isNilV], hInv, Finset.Subset.refl _, rfl, hwf⟩
        | ptr a =>
            cases a with
            | none =>
                exact ⟨st, _, by simp [setFile, isNilV], hInv, Finset.Subset.refl _, rfl, hwf⟩
            | some a =>
                have haN : a < N := by simpa [wfV] using hwf
                by_cases hmem : a ∈ st.seen
                · exact ⟨st, _, by simp [setFile, isNilV, hmem], hInv,
                    Finset.Subset.refl _, rfl, hwf⟩
                · obtain ⟨hseen, hcells⟩ := hInv
                  have hc : st.seen.card < N := seen_card_lt hseen haN hmem
                  have hcell := hcells a haN
                  have hInv2 : InvSt N W
                      { st with seen := insert a st.seen, visits := st.visits ++ [a] } :=
                    ⟨Finset.insert_subset_iff.2 ⟨Finset.mem_range.2 haN, hseen⟩, hcells⟩
                  have hbound2 : (N - (insert a st.seen).card) * (W + 1) +
                      weight (st.heap a) ≤ n := by
                    rw [Finset.card_insert_of_not_mem hmem]
                    exact fuel_deref hc hcell.2 (by simpa [weight] using hb) Nat.le.refl
                  obtain ⟨st2, c, heq, hInv3, hmono, hwc, hwfc⟩ :=
                    ihGo _ true (st.heap a) hInv2 hcell.1 hbound2
                  refine ⟨{ st2 with heap := Function.update st2.heap a c }, .ptr (some a),
                    ?_, ?_, ?_, rfl, hwf⟩
                  · simp only [setFile, isNilV]
                    rw [if_neg (by simp), if_neg hmem, heq]
                  · obtain ⟨hseen3, hcells3⟩ := hInv3
                    refine ⟨hseen3, ?_⟩
                    intro b hbN
                    show wfV N (Function.update st2.heap a c b) = true ∧
                      weight (Function.update st2.heap a c b) ≤ W
                    by_cases hba : b = a
                    · subst hba
                      rw [Function.update_same]
                      exact ⟨hwfc, by rw [hwc]; exact hcell.2⟩
                    · rw [Function.update_noteq hba]
                      exact hcells3 b hbN
                  · exact fun x hx => hmono (Finset.mem_insert_of_mem hx)
        | strukt n1 hs1 flds =>
            have hwf' : wfFields N flds = true ∧ (flds.map fun f => f.1).Nodup := by
              simpa [wfV, Bool.and_eq_true] using hwf
            have hbound : (N - st.seen.card) * (W + 1) + 1 +
                weightFields (flds.drop 0) ≤ n := by
              simp only [List.drop_zero]
              have : weight (GoVal.strukt n1 hs1 flds) = 2 + weightFields flds := rfl
              omega
            obtain ⟨st2, flds', heq, hInv2, hmono, hwF, hsig, hwfF'⟩ :=
              ihF st adr n1 flds 0 hInv hwf'.1 hbound
            refine ⟨st2, .strukt n1 hs1 flds', ?_, hInv2, hmono, ?_, ?_⟩
            · simp only [setFile, isNilV]
              rw [if_neg (by simp), heq]
            · show 2 + weightFields flds' = 2 + weightFields flds
              omega
            · have hnames := fldSig_names hsig
              simp [wfV, Bool.and_eq_true, hwfF', hnames, hwf'.2]
        | sliceV es =>
            have hwfL : wfList N es = true := by simpa [wfV] using hwf
            have hbound : (N - st.seen.card) * (W + 1) + 1 + weightList es ≤ n := by
              have : weight (GoVal.sliceV es) = 2 + weightList es := rfl
              omega
            obtain ⟨st2, es', heq, hInv2, hmono, hwL, hwfL'⟩ :=
              ihL st es hInv hwfL hbound
            refine ⟨st2, .sliceV es', ?_, hInv2, hmono, ?_, by simpa [wfV] using hwfL'⟩
            · simp only [setFile, isNilV]
              rw [if_neg (by simp), heq]
            · show 2 + weightList es' = 2 + weightList es
              omega
        | mapV es =>
            have hwfE : wfEntries N es = true := by simpa [wfV] using hwf
            have hbound : (N - st.seen.card) * (W + 1) + 1 + weightEntries es ≤ n := by
              have : weight (GoVal.mapV es) = 2 + weightEntries es := rfl
              omega
            obtain ⟨st2, es', heq, hInv2, hmono, hwE, hwfE'⟩ :=
              ihE st es hInv hwfE hbound
            refine ⟨st2, .mapV es', ?_, hInv2, hmono, ?_, by simpa [wfV] using hwfE'⟩
            · simp only [setFile, isNilV]
              rw [if_neg (by simp), heq]
            · show 2 + weightEntries es' = 2 + weightEntries es
              omega
        | iface w =>
            cases w with
            | none =>
                exact ⟨st, _, by simp [setFile, isNilV], hInv, Finset.Subset.refl _, rfl, hwf⟩
            | some w =>
                have hwfw : wfV N w = true := by simpa [wfV] using hwf
                have hbound : (N - st.seen.card) * (W + 1) + weight w ≤ n := by
                  have : weight (GoVal.iface (some w)) = 1 + weight w := rfl
                  omega
                obtain ⟨st2, w', heq, hInv2, hmono, hww, hwfw'⟩ :=
                  ihGo st false w hInv hwfw hbound
                refine ⟨st2, .iface (some w'), ?_, hInv2, hmono, ?_,
                  by simpa [wfV] using hwfw'⟩
                · simp only [setFile, isNilV]
                  rw [if_neg (by simp), heq]
                · show 1 + weight w' = 1 + weight w
                  omega
      · intro st adr n1 flds i hInv hwfF hb
        cases hgi : flds[i]? with
        | none =>
            refine ⟨st, flds, ?_, hInv, Finset.Subset.refl _, rfl, rfl, hwfF⟩
            simp only [setFileFields]
            rw [hgi]
        | some f =>
            obtain ⟨fname, fexp, fval⟩ := f
            have hdrop := weightFields_drop_succ hgi
            by_cases hskip : (!(adr && fexp) || opts.excludes ⟨n1, fname⟩) = true
            · have hbound : (N - st.seen.card) * (W + 1) + 1 +
                  weightFields (flds.drop (i + 1)) ≤ n := by omega
              obtain ⟨st2, flds', heq, hInv2, hmono, hwF, hsig, hwfF'⟩ :=
                ihF st adr n1 flds (i + 1) hInv hwfF hbound
              refine ⟨st2, flds', ?_, hInv2, hmono, hwF, hsig, hwfF'⟩
              simp only [setFileFields, hgi]
              rw [if_pos hskip]
              exact heq
            · by_cases hsing : (fval.isPlainStr &&
                  (hasSuffixStr fname "File" || opts.includes ⟨n1, fname⟩)) = true
              · have hp : fval.isPlainStr = true := by
                  simp only [Bool.and_eq_true] at hsing
                  exact hsing.1
                obtain ⟨q1, q2, q3, q4⟩ :=
                  singularUpdate (N := N) (trimSuffixStr fname "File") file hgi hp hwfF
                have hbound : (N - st.seen.card) * (W + 1) + 1 +
                    weightFields (((clearStrField flds (trimSuffixStr fname "File")).set i
                      (fname, fexp, .str true file)).drop (i + 1)) ≤ n := by
                  rw [q2]; omega
                obtain ⟨st2, flds', heq, hInv2, hmono, hwF, hsig, hwfF'⟩ :=
                  ihF st adr n1 _ (i + 1) hInv q4 hbound
                refine ⟨st2, flds', ?_, hInv2, hmono, by rw [hwF, q1], hsig.trans q3, hwfF'⟩
                simp only [setFileFields, hgi]
                rw [if_neg hskip, if_pos hsing]
                exact heq
              · by_cases hplur : (fval.isStrSlice &&
                    (hasSuffixStr fname "Files" || opts.includes ⟨n1, fname⟩)) = true
                · have hps : fval.isStrSlice = true := by
                    simp only [Bool.and_eq_true] at hplur
                    exact hplur.1
                  have hw1 : weight fval = 1 := by
                    cases fval <;> first | rfl | simp [GoVal.isStrSlice] at hps
                  obtain ⟨q1, q2, q3, q4⟩ := setUpdate (N := N)
                    (fname, fexp, .strSlice [file]) hgi
                    (by simpa [weight] using hw1.symm) rfl rfl (by simp [wfV]) hwfF
                  have hbound : (N - st.seen.card) * (W + 1) + 1 +
                      weightFields ((flds.set i (fname, fexp, GoVal.strSlice [file])).drop
                        (i + 1)) ≤ n := by
                    rw [q2]; omega
                  obtain ⟨st2, flds', heq, hInv2, hmono, hwF, hsig, hwfF'⟩ :=
                    ihF st adr n1 _ (i + 1) hInv q4 hbound
                  refine ⟨st2, flds', ?_, hInv2, hmono, by rw [hwF, q1], hsig.trans q3, hwfF'⟩
                  simp only [setFileFields, hgi]
                  rw [if_neg hskip, if_neg hsing, if_pos hplur]
                  exact heq
                · have hwfv := wfFields_get hwfF hgi
                  have hboundgo : (N - st.seen.card) * (W + 1) + weight fval ≤ n := by
                    omega
                  obtain ⟨st2, fval', heqgo, hInv2, hmono2, hwv', hwfv'⟩ :=
                    ihGo st adr fval hInv hwfv hboundgo
                  obtain ⟨q1, q2, q3, q4⟩ := setUpdate (N := N) (fname, fexp, fval') hgi
                    hwv' rfl rfl hwfv' hwfF
                  have hbound2 : (N - st2.seen.card) * (W + 1) + 1 +
                      weightFields ((flds.set i (fname, fexp, fval')).drop (i + 1)) ≤ n := by
                    rw [q2]
                    have hmul := Nat.mul_le_mul_right (W + 1)
                      (Nat.sub_le_sub_left (Finset.card_le_card hmono2) N)
                    omega
                  obtain ⟨st3, flds', heqF, hInv3, hmono3, hwF', hsig', hwf'⟩ :=
                    ihF st2 adr n1 _ (i + 1) hInv2 q4 hbound2
                  refine ⟨st3, flds', ?_, hInv3, hmono2.trans hmono3,
                    by rw [hwF', q1], hsig'.trans q3, hwf'⟩
                  simp only [setFileFields, hgi]
                  rw [if_neg hskip, if_neg hsing, if_neg hplur, heqgo]
                  exact heqF
      · intro st es hInv hwfL hb
        cases es with
        | nil =>
            exact ⟨st, [], by simp [setFileList], hInv, Finset.Subset.refl _, rfl, rfl⟩
        | cons v r =>
            have hwf2 : wfV N v = true ∧ wfList N r = true := by
              simpa [wfList, Bool.and_eq_true] using hwfL
            have hboundgo : (N - st.seen.card) * (W + 1) + weight v ≤ n := by
              rw [weightList_cons] at hb
              omega
            obtain ⟨st2, v', heqgo, hInv2, hmono2, hwv', hwfv'⟩ :=
              ihGo st true v hInv hwf2.1 hboundgo
            have hbound2 : (N - st2.seen.card) * (W + 1) + 1 + weightList r ≤ n := by
              rw [weightList_cons] at hb
              have hmul := Nat.mul_le_mul_right (W + 1)
                (Nat.sub_le_sub_left (Finset.card_le_card hmono2) N)
              omega
            obtain ⟨st3, r', heqL, hInv3, hmono3, hwr', hwfr'⟩ :=
              ihL st2 r hInv2 hwf2.2 hbound2
            refine ⟨st3, v' :: r', ?_, hInv3, hmono2.trans hmono3, ?_, ?_⟩
            · simp only [setFileList, heqgo, heqL]
            · rw [weightList_cons, weightList_cons, hwv', hwr']
            · simp [wfList, Bool.and_eq_true, hwfv', hwfr']
      · intro st es hInv hwfE hb
        cases es with
        | nil =>
            exact ⟨st, [], by simp [setFileEntries], hInv, Finset.Subset.refl _, rfl, rfl⟩
        | cons kv r =>
            obtain ⟨k, v⟩ := kv
            have hwf2 : wfV N k = true ∧ wfV N v = true ∧ wfEntries N r = true := by
              simpa [wfEntries, Bool.and_eq_true, and_assoc] using hwfE
            have hboundk : (N - st.seen.card) * (W + 1) + weight k ≤ n := by
              rw [weightEntries_cons] at hb
              omega
            obtain ⟨st1, k', heqk, hInv1, hmono1, hwk', hwfk'⟩ :=
              ihGo st false k hInv hwf2.1 hboundk
            have hboundv : (N - st1.seen.card) * (W + 1) + weight v ≤ n := by
              rw [weightEntries_cons] at hb
              have hmul := Nat.mul_le_mul_right (W + 1)
                (Nat.sub_le_sub_left (Finset.card_le_card hmono1) N)
              omega
            obtain ⟨st2, v', heqv, hInv2, hmono2, hwv', hwfv'⟩ :=
              ihGo st1 false v hInv1 hwf2.2.1 hboundv
            have hbound2 : (N - st2.seen.card) * (W + 1) + 1 + weightEntries r ≤ n := by
              rw [weightEntries_cons] at hb
              have hmul := Nat.mul_le_mul_right (W + 1)
                (Nat.sub_le_sub_left (Finset.card_le_card (hmono1.trans hmono2)) N)
              omega
            obtain ⟨st3, r', heqE, hInv3, hmono3, hwr', hwfr'⟩ :=
              ihE st2 r hInv2 hwf2.2.2 hbound2
            refine ⟨st3, (k, v') :: r', ?_, hInv3,
              (hmono1.trans hmono2).trans hmono3, ?_, ?_⟩
            · simp only [setFileEntries, heqk, heqv, heqE]
            · rw [weightEntries_cons, weightEntries_cons, hwv', hwr']
            · simp [wfEntries, Bool.and_eq_true, hwf2.1, hwfv', hwfr']

/-- Claim C4's heart for `assertFile`: same statement as for `setFile`.
The assertion walk never writes, so the invariant flows unchanged. -/
theorem assertFile_suff (N W : Nat) (opts : Fields) (want : String) : ∀ fuel : Nat,
    (∀ st path adr v, InvSt N W st → wfV N v = true →
      (N - st.seen.card) * (W + 1) + weight v ≤ fuel →
      ∃ st' ok, assertFile want opts fuel st path adr v = some (st', ok) ∧
        InvSt N W st' ∧ st.seen ⊆ st'.seen) ∧
    (∀ st path adr n flds i, InvSt N W st → wfFields N flds = true →
      (N - st.seen.card) * (W + 1) + 1 + weightFields (flds.drop i) ≤ fuel →
      ∃ st' ok, assertFileFields want opts fuel st path adr n flds i = some (st', ok) ∧
        InvSt N W st' ∧ st.seen ⊆ st'.seen) ∧
    (∀ st path i es, InvSt N W st → wfList N es = true →
      (N - st.seen.card) * (W + 1) + 1 + weightList es ≤ fuel →
      ∃ st' ok, assertFileList want opts fuel st path i es = some (st', ok) ∧
        InvSt N W st' ∧ st.seen ⊆ st'.seen) ∧
    (∀ st path es, InvSt N W st → wfEntries N es = true →
      (N - st.seen.card) * (W + 1) + 1 + weightEntries es ≤ fuel →
      ∃ st' ok, assertFileEntries want opts fuel st path es = some (st', ok) ∧
        InvSt N W st' ∧ st.seen ⊆ st'.seen) := by
  intro fuel
  induction fuel with
  | zero =>
      refine ⟨?_, ?_, ?_, ?_⟩
      · intro st path adr v _ _ hb
        have := weight_pos v
        omega
      · intro st path adr n flds i _ _ hb
        omega
      · intro st path i es _ _ hb
        omega
      · intro st path es _ _ hb
        omega
  | succ n ih =>
      obtain ⟨ihGo, ihF, ihL, ihE⟩ := ih
      refine ⟨?_, ?_, ?_, ?_⟩
      · intro st path adr v hInv hwf hb
        cases v with
        | str p s =>
            exact ⟨st, true, by simp [assertFile, isNilV], hInv, Finset.Subset.refl _⟩
        | boolV b =>
            exact ⟨st, true, by simp [assertFile, isNilV], hInv, Finset.Subset.refl _⟩
        | strSlice es =>
            exact ⟨st, true, by simp [assertFile, isNilV], hInv, Finset.Subset.refl _⟩
        | ptr a =>
            cases a with
            | none =>
                exact ⟨st, true, by simp [assertFile, isNilV], hInv, Finset.Subset.refl _⟩
            | some a =>
                have haN : a < N := by simpa [wfV] using hwf
                by_cases hmem : a ∈ st.seen
                · exact ⟨st, true, by simp [assertFile, isNilV, hmem], hInv,
                    Finset.Subset.refl _⟩
                · obtain ⟨hseen, hcells⟩ := hInv
                  have hc : st.seen.card < N := seen_card_lt hseen haN hmem
                  have hcell := hcells a haN
                  have hInv2 : InvSt N W
                      { st with seen := insert a st.seen, visits := st.visits ++ [a] } :=
                    ⟨Finset.insert_subset_iff.2 ⟨Finset.mem_range.2 haN, hseen⟩, hcells⟩
                  have hbound2 : (N - (insert a st.seen).card) * (W + 1) +
                      weight (st.heap a) ≤ n := by
                    rw [Finset.card_insert_of_not_mem hmem]
                    exact fuel_deref hc hcell.2 (by simpa [weight] using hb) Nat.le.refl
                  obtain ⟨st2, ok, heq, hInv3, hmono⟩ :=
                    ihGo _ path true (st.heap a) hInv2 hcell.1 hbound2
                  refine ⟨st2, ok, ?_, hInv3, ?_⟩
                  · simp only [assertFile, isNilV]
                    rw [if_neg (by simp), if_neg hmem]
                    exact heq
                  · exact fun x hx => hmono (Finset.mem_insert_of_mem hx)
        | strukt n1 hs1 flds =>
            have hwf' : wfFields N flds = true ∧ (flds.map fun f => f.1).Nodup := by
              simpa [wfV, Bool.and_eq_true] using hwf
            have hbound : (N - st.seen.card) * (W + 1) + 1 +
                weightFields (flds.drop 0) ≤ n := by
              simp only [List.drop_zero]
              have : weight (GoVal.strukt n1 hs1 flds) = 2 + weightFields flds := rfl
              omega
            obtain ⟨st2, ok, heq, hInv2, hmono⟩ :=
              ihF st path adr n1 flds 0 hInv hwf'.1 hbound
            refine ⟨st2, ok, ?_, hInv2, hmono⟩
            simp only [assertFile, isNilV]
            rw [if_neg (by simp)]
            exact heq
        | sliceV es =>
            have hwfL : wfList N es = true := by simpa [wfV] using hwf
            have hbound : (N - st.seen.card) * (W + 1) + 1 + weightList es ≤ n := by
              have : weight (GoVal.sliceV es) = 2 + weightList es := rfl
              omega
            obtain ⟨st2, ok, heq, hInv2, hmono⟩ := ihL st path 0 es hInv hwfL hbound
            refine ⟨st2, ok, ?_, hInv2, hmono⟩
            simp only [assertFile, isNilV]
            rw [if_neg (by simp)]
            exact heq
        | mapV es =>
            have hwfE : wfEntries N es = true := by simpa [wfV] using hwf
            have hbound : (N - st.seen.card) * (W + 1) + 1 + weightEntries es ≤ n := by
              have : weight (GoVal.mapV es) = 2 + weightEntries es := rfl
              omega
            obtain ⟨st2, ok, heq, hInv2, hmono⟩ := ihE st path es hInv hwfE hbound
            refine ⟨st2, ok, ?_, hInv2, hmono⟩
            simp only [assertFile, isNilV]
            rw [if_neg (by simp)]
            exact heq
        | iface w =>
            cases w with
            | none =>
                exact ⟨st, true, by simp [assertFile, isNilV], hInv, Finset.Subset.refl _⟩
            | some w =>
                have hwfw : wfV N w = true := by simpa [wfV] using hwf
                have hbound : (N - st.seen.card) * (W + 1) + weight w ≤ n := by
                  have : weight (GoVal.iface (some w)) = 1 + weight w := rfl
                  omega
                obtain ⟨st2, ok, heq, hInv2, hmono⟩ :=
                  ihGo st (path ++ ".(" ++ goTypeName w ++ ")") false w hInv hwfw hbound
                refine ⟨st2, ok, ?_, hInv2, hmono⟩
                simp only [assertFile, isNilV]
                rw [if_neg (by simp)]
                exact heq
      · intro st path adr n1 flds i hInv hwfF hb
        cases hgi : flds[i]? with
        | none =>
            refine ⟨st, true, ?_, hInv, Finset.Subset.refl _⟩
            simp only [assertFileFields]
            rw [hgi]
        | some f =>
            obtain ⟨fname, fexp, fval⟩ := f
            have hdrop := weightFields_drop_succ hgi
            by_cases hskip : (!(adr && fexp) || opts.excludes ⟨n1, fname⟩) = true
            · have hbound : (N - st.seen.card) * (W + 1) + 1 +
                  weightFields (flds.drop (i + 1)) ≤ n := by omega
              obtain ⟨st2, ok, heq, hInv2, hmono⟩ :=
                ihF st path adr n1 flds (i + 1) hInv hwfF hbound
              refine ⟨st2, ok, ?_, hInv2, hmono⟩
              simp only [assertFileFields, hgi]
              rw [if_pos hskip]
              exact heq
            · by_cases hsing : (fval.isPlainStr &&
                  (hasSuffixStr fname "File" || opts.includes ⟨n1, fname⟩)) = true
              · by_cases hgw : fval.strContent = want
                · have hbound : (N - st.seen.card) * (W + 1) + 1 +
                      weightFields (flds.drop (i + 1)) ≤ n := by omega
                  obtain ⟨st2, ok2, heq, hInv2, hmono⟩ :=
                    ihF st path adr n1 flds (i + 1) hInv hwfF hbound
                  refine ⟨st2, (fval.strContent == want) && ok2, ?_, hInv2, hmono⟩
                  simp only [assertFileFields, hgi]
                  rw [if_neg hskip, if_pos hsing, if_neg (by simp [hgw]), heq]
                · set st1 : St := { st with errs := st.errs ++
                    [⟨path ++ "." ++ fname, none, fval.strContent, want⟩] } with hst1
                  have hInv1 : InvSt N W st1 := ⟨hInv.1, hInv.2⟩
                  have hbound : (N - st1.seen.card) * (W + 1) + 1 +
                      weightFields (flds.drop (i + 1)) ≤ n := by
                    have : st1.seen = st.seen := rfl
                    rw [this]
                    omega
                  obtain ⟨st2, ok2, heq, hInv2, hmono⟩ :=
                    ihF st1 path adr n1 flds (i + 1) hInv1 hwfF hbound
                  refine ⟨st2, (fval.strContent == want) && ok2, ?_, hInv2, hmono⟩
                  simp only [assertFileFields, hgi]
                  rw [if_neg hskip, if_pos hsing, if_pos hgw, heq]
              · by_cases hplur : (fval.isStrSlice &&
                    (hasSuffixStr fname "Files" || opts.includes ⟨n1, fname⟩)) = true
                · set newErrs := assertElems (path ++ "." ++ fname) want 0
                    fval.strSliceContent with hnew
                  set st1 : St := { st with errs := st.errs ++ newErrs } with hst1
                  have hInv1 : InvSt N W st1 := ⟨hInv.1, hInv.2⟩
                  have hbound : (N - st1.seen.card) * (W + 1) + 1 +
                      weightFields (flds.drop (i + 1)) ≤ n := by
                    have : st1.seen = st.seen := rfl
                    rw [this]
                    omega
                  obtain ⟨st2, ok2, heq, hInv2, hmono⟩ :=
                    ihF st1 path adr n1 flds (i + 1) hInv1 hwfF hbound
                  refine ⟨st2, newErrs.isEmpty && ok2, ?_, hInv2, hmono⟩
                  simp only [assertFileFields, hgi]
                  rw [if_neg hskip, if_neg hsing, if_pos hplur, heq]
                · have hwfv := wfFields_get hwfF hgi
                  have hboundgo : (N - st.seen.card) * (W + 1) + weight fval ≤ n := by
                    omega
                  obtain ⟨st2, ok1, heqgo, hInv2, hmono2⟩ :=
                    ihGo st (path ++ "." ++ fname) adr fval hInv hwfv hboundgo
                  have hbound2 : (N - st2.seen.card) * (W + 1) + 1 +
                      weightFields (flds.drop (i + 1)) ≤ n := by
                    have hmul := Nat.mul_le_mul_right (W + 1)
                      (Nat.sub_le_sub_left (Finset.card_le_card hmono2) N)
                    omega
                  obtain ⟨st3, ok2, heqF, hInv3, hmono3⟩ :=
                    ihF st2 path adr n1 flds (i + 1) hInv2 hwfF hbound2
                  refine ⟨st3, ok1 && ok2, ?_, hInv3, hmono2.trans hmono3⟩
                  simp only [assertFileFields, hgi]
                  rw [if_neg hskip, if_neg hsing, if_neg hplur]
                  simp only [heqgo, heqF]
      · intro st path i es hInv hwfL hb
        cases es with
        | nil =>
            exact ⟨st, true, by simp [assertFileList], hInv, Finset.Subset.refl _⟩
        | cons v r =>
            have hwf2 : wfV N v = true ∧ wfList N r = true := by
              simpa [wfList, Bool.and_eq_true] using hwfL
            have hboundgo : (N - st.seen.card) * (W + 1) + weight v ≤ n := by
              rw [weightList_cons] at hb
              omega
            obtain ⟨st2, ok1, heqgo, hInv2, hmono2⟩ :=
              ihGo st (path ++ "[" ++ toString i ++ "]") true v hInv hwf2.1 hboundgo
            have hbound2 : (N - st2.seen.card) * (W + 1) + 1 + weightList r ≤ n := by
              rw [weightList_cons] at hb
              have hmul := Nat.mul_le_mul_right (W + 1)
                (Nat.sub_le_sub_left (Finset.card_le_card hmono2) N)
              omega
            obtain ⟨st3, ok2, heqL, hInv3, hmono3⟩ :=
              ihL st2 path (i + 1) r hInv2 hwf2.2 hbound2
            refine ⟨st3, ok1 && ok2, ?_, hInv3, hmono2.trans hmono3⟩
            simp only [assertFileList, heqgo, heqL]
      · intro st path es hInv hwfE hb
        cases es with
        | nil =>
            exact ⟨st, true, by simp [assertFileEntries], hInv, Finset.Subset.refl _⟩
        | cons kv r =>
            obtain ⟨k, v⟩ := kv
            have hwf2 : wfV N k = true ∧ wfV N v = true ∧ wfEntries N r = true := by
              simpa [wfEntries, Bool.and_eq_true, and_assoc] using hwfE
            have hboundk : (N - st.seen.card) * (W + 1) + weight k ≤ n := by
              rw [weightEntries_cons] at hb
              omega
            obtain ⟨st1, ok1, heqk, hInv1, hmono1⟩ :=
              ihGo st ("(" ++ goTypeName k ++ ")") false k hInv hwf2.1 hboundk
            have hboundv : (N - st1.seen.card) * (W + 1) + weight v ≤ n := by
              rw [weightEntries_cons] at hb
              have hmul := Nat.mul_le_mul_right (W + 1)
                (Nat.sub_le_sub_left (Finset.card_le_card hmono1) N)
              omega
            obtain ⟨st2, ok2, heqv, hInv2, hmono2⟩ :=
              ihGo st1 (path ++ "[" ++ goValRepr k ++ "]") false v hInv1 hwf2.2.1 hboundv
            have hbound2 : (N - st2.seen.card) * (W + 1) + 1 + weightEntries r ≤ n := by
              rw [weightEntries_cons] at hb
              have hmul := Nat.mul_le_mul_right (W + 1)
                (Nat.sub_le_sub_left (Finset.card_le_card (hmono1.trans hmono2)) N)
              omega
            obtain ⟨st3, ok3, heqE, hInv3, hmono3⟩ :=
              ihE st2 path r hInv2 hwf2.2.2 hbound2
            refine ⟨st3, ok1 && ok2 && ok3, ?_, hInv3,
              (hmono1.trans hmono2).trans hmono3⟩
            simp only [assertFileEntries, heqk, heqv, heqE]

/-- The capability prelude preserves the walk invariant whenever the
capability 	 preserves its receiver's shape (weights, names, pointers) —
true of every `SetDirectory` implementation in the repository, which only
rewrites string contents in place. -/
theorem dirCapPtr_inv {N W : Nat} {st : St} (dir : String)
    (cap : String → String → List (String × Bool × GoVal) → List (String × Bool × GoVal))
    (a : Nat) (haN : a < N)
    (Hw : ∀ nm d fl, weightFields (cap nm d fl) = weightFields fl)
    (Hwf : ∀ nm d fl, wfFields N fl = true → wfFields N (cap nm d fl) = true)
    (Hsig : ∀ nm d fl, fldSig (cap nm d fl) = fldSig fl)
    (hInv : InvSt N W st) : InvSt N W (dirCapPtr dir cap st a) := by
  unfold dirCapPtr
  split
  · rename_i nm fl heqc
    obtain ⟨hseen, hcells⟩ := hInv
    refine ⟨hseen, ?_⟩
    intro b hbN
    show wfV N (Function.update st.heap a (.strukt nm true (cap nm dir fl)) b) = true ∧
      weight (Function.update st.heap a (.strukt nm true (cap nm dir fl)) b) ≤ W
    have hcell := hcells a haN
    rw [heqc] at hcell
    have hfl : wfFields N fl = true ∧ (fl.map fun f => f.1).Nodup := by
      simpa [wfV, Bool.and_eq_true] using hcell.1
    by_cases hba : b = a
    · subst hba
      rw [Function.update_same]
      constructor
      · have hnames := fldSig_names (Hsig nm dir fl)
        simp [wfV, Bool.and_eq_true, Hwf nm dir fl hfl.1, hnames, hfl.2]
      · show 2 + weightFields (cap nm dir fl) ≤ W
        rw [Hw nm dir fl]
        have : weight (GoVal.strukt nm true fl) = 2 + weightFields fl := rfl
        omega
    · rw [Function.update_noteq hba]
      exact hcells b hbN
  · exact hInv

/-- Claim C4's heart for `setDirectory`, under the shape-preservation
hypotheses on the capability. -/
theorem setDirectory_suff (N W : Nat) (dir : String)
    (cap : String → String → List (String × Bool × GoVal) → List (String × Bool × GoVal))
    (Hw : ∀ nm d fl, weightFields (cap nm d fl) = weightFields fl)
    (Hwf : ∀ nm d fl, wfFields N fl = true → wfFields N (cap nm d fl) = true)
    (Hsig : ∀ nm d fl, fldSig (cap nm d fl) = fldSig fl) : ∀ fuel : Nat,
    (∀ st adr v, InvSt N W st → wfV N v = true →
      (N - st.seen.card) * (W + 1) + weight v ≤ fuel →
      ∃ st' v', setDirectory dir cap fuel st adr v = some (st', v') ∧ InvSt N W st' ∧
        st.seen ⊆ st'.seen ∧ weight v' = weight v ∧ wfV N v' = true) ∧
    (∀ st adr n flds i, InvSt N W st → wfFields N flds = true →
      (N - st.seen.card) * (W + 1) + 1 + weightFields (flds.drop i) ≤ fuel →
      ∃ st' flds', setDirFields dir cap fuel st adr n flds i = some (st', flds') ∧
        InvSt N W st' ∧ st.seen ⊆ st'.seen ∧ weightFields flds' = weightFields flds ∧
        fldSig flds' = fldSig flds ∧ wfFields N flds' = true) ∧
    (∀ st es, InvSt N W st → wfList N es = true →
      (N - st.seen.card) * (W + 1) + 1 + weightList es ≤ fuel →
      ∃ st' es', setDirList dir cap fuel st es = some (st', es') ∧ InvSt N W st' ∧
        st.seen ⊆ st'.seen ∧ weightList es' = weightList es ∧ wfList N es' = true) ∧
    (∀ st es, InvSt N W st → wfEntries N es = true →
      (N - st.seen.card) * (W + 1) + 1 + weightEntries es ≤ fuel →
      ∃ st' es', setDirEntries dir cap fuel st es = some (st', es') ∧ InvSt N W st' ∧
        st.seen ⊆ st'.seen ∧ weightEntries es' = weightEntries es ∧
        wfEntries N es' = true) := by
  intro fuel
  induction fuel with
  | zero =>
      refine ⟨?_, ?_, ?_, ?_⟩
      · intro st adr v _ _ hb
        have := weight_pos v
        omega
      · intro st adr n flds i _ _ hb
        omega
      · intro st es _ _ hb
        omega
      · intro st es _ _ hb
        omega
  | succ n ih =>
      obtain ⟨ihGo, ihF, ihL, ihE⟩ := ih
      refine ⟨?_, ?_, ?_, ?_⟩
      · intro st adr v hInv hwf hb
        cases v with
        | str p s =>
            exact ⟨st, _, by simp [setDirectory, isNilV], hInv, Finset.Subset.refl _, rfl, hwf⟩
        | boolV b =>
            exact ⟨st, _, by simp [setDirectory, isNilV], hInv, Finset.Subset.refl _, rfl, hwf⟩
        | strSlice es =>
            exact ⟨st, _, by simp [setDirectory, isNilV], hInv, Finset.Subset.refl _, rfl, hwf⟩
        | ptr a =>
            cases a with
            | none =>
                exact ⟨st, _, by simp [setDirectory, isNilV], hInv,
                  Finset.Subset.refl _, rfl, hwf⟩
            | some a =>
                have haN : a < N := by simpa [wfV] using hwf
                have hInvC : InvSt N W (dirCapPtr dir cap st a) :=
                  dirCapPtr_inv dir cap a haN Hw Hwf Hsig hInv
                have hseenC : (dirCapPtr dir cap st a).seen = st.seen :=
                  dirCapPtr_seen dir cap st a
                by_cases hmem : a ∈ st.seen
                · refine ⟨dirCapPtr dir cap st a, .ptr (some a), ?_, hInvC, ?_, rfl, hwf⟩
                  · simp only [setDirectory, isNilV]
                    rw [if_neg (by simp), if_pos (by rw [hseenC]; exact hmem)]
                  · rw [hseenC]
                · obtain ⟨hseen2, hcells2⟩ := hInvC
                  have hc : (dirCapPtr dir cap st a).seen.card < N := by
                    rw [hseenC]
                    exact seen_card_lt (hseenC ▸ hseen2) haN hmem
                  have hcell := hcells2 a haN
                  have hInv2 : InvSt N W
                      { dirCapPtr dir cap st a with
                        seen := insert a (dirCapPtr dir cap st a).seen,
                        visits := (dirCapPtr dir cap st a).visits ++ [a] } :=
                    ⟨Finset.insert_subset_iff.2 ⟨Finset.mem_range.2 haN, hseen2⟩, hcells2⟩
                  have hbound2 : (N - (insert a (dirCapPtr dir cap st a).seen).card) *
                      (W + 1) + weight ((dirCapPtr dir cap st a).heap a) ≤ n := by
                    rw [Finset.card_insert_of_not_mem (by rw [hseenC]; exact hmem), hseenC]
                    refine fuel_deref (hseenC ▸ hc) hcell.2 ?_ Nat.le.refl
                    simpa [weight] using hb
                  obtain ⟨st2, c, heq, hInv3, hmono, hwc, hwfc⟩ :=
                    ihGo _ true ((dirCapPtr dir cap st a).heap a) hInv2 hcell.1 hbound2
                  refine ⟨{ st2 with heap := Function.update st2.heap a c }, .ptr (some a),
                    ?_, ?_, ?_, rfl, hwf⟩
                  · simp only [setDirectory, isNilV]
                    rw [if_neg (by simp), if_neg (by rw [hseenC]; exact hmem), heq]
                  · obtain ⟨hseen3, hcells3⟩ := hInv3
                    refine ⟨hseen3, ?_⟩
                    intro b hbN
                    show wfV N (Function.update st2.heap a c b) = true ∧
                      weight (Function.update st2.heap a c b) ≤ W
                    by_cases hba : b = a
                    · subst hba
                      rw [Function.update_same]
                      exact ⟨hwfc, by rw [hwc]; exact hcell.2⟩
                    · rw [Function.update_noteq hba]
                      exact hcells3 b hbN
                  · rw [← hseenC]
                    exact fun x hx => hmono (Finset.mem_insert_of_mem hx)
        | strukt n1 hs1 flds =>
            have hwf' : wfFields N flds = true ∧ (flds.map fun f => f.1).Nodup := by
              simpa [wfV, Bool.and_eq_true] using hwf
            by_cases hcap : (adr && hs1) = true
            · have hwfc : wfFields N (cap n1 dir flds) = true := Hwf n1 dir flds hwf'.1
              have hbound : (N - st.seen.card) * (W + 1) + 1 +
                  weightFields ((cap n1 dir flds).drop 0) ≤ n := by
                simp only [List.drop_zero]
                rw [Hw n1 dir flds]
                have : weight (GoVal.strukt n1 hs1 flds) = 2 + weightFields flds := rfl
                omega
              obtain ⟨st2, flds', heqF, hInv2, hmono, hwF, hsigF, hwfF'⟩ :=
                ihF st adr n1 (cap n1 dir flds) 0 hInv hwfc hbound
              refine ⟨st2, .strukt n1 hs1 flds', ?_, hInv2, hmono, ?_, ?_⟩
              · simp only [setDirectory, isNilV]
                rw [if_neg (by simp), if_pos hcap, heqF]
              · show 2 + weightFields flds' = 2 + weightFields flds
                rw [hwF, Hw n1 dir flds]
              · have hnames := fldSig_names (hsigF.trans (Hsig n1 dir flds))
                simp [wfV, Bool.and_eq_true, hwfF', hnames, hwf'.2]
            · have hbound : (N - st.seen.card) * (W + 1) + 1 +
                  weightFields (flds.drop 0) ≤ n := by
                simp only [List.drop_zero]
                have : weight (GoVal.strukt n1 hs1 flds) = 2 + weightFields flds := rfl
                omega
              obtain ⟨st2, flds', heqF, hInv2, hmono, hwF, hsigF, hwfF'⟩ :=
                ihF st adr n1 flds 0 hInv hwf'.1 hbound
              refine ⟨st2, .strukt n1 hs1 flds', ?_, hInv2, hmono, ?_, ?_⟩
              · simp only [setDirectory, isNilV]
                rw [if_neg (by simp), if_neg hcap, heqF]
              · show 2 + weightFields flds' = 2 + weightFields flds
                rw [hwF]
              · have hnames := fldSig_names hsigF
                simp [wfV, Bool.and_eq_true, hwfF', hnames, hwf'.2]
        | sliceV es =>
            have hwfL : wfList N es = true := by simpa [wfV] using hwf
            have hbound : (N - st.seen.card) * (W + 1) + 1 + weightList es ≤ n := by
              have : weight (GoVal.sliceV es) = 2 + weightList es := rfl
              omega
            obtain ⟨st2, es', heq, hInv2, hmono, hwL, hwfL'⟩ := ihL st es hInv hwfL hbound
            refine ⟨st2, .sliceV es', ?_, hInv2, hmono, ?_, by simpa [wfV] using hwfL'⟩
            · simp only [setDirectory, isNilV]
              rw [if_neg (by simp), heq]
            · show 2 + weightList es' = 2 + weightList es
              omega
        | mapV es =>
            have hwfE : wfEntries N es = true := by simpa [wfV] using hwf
            have hbound : (N - st.seen.card) * (W + 1) + 1 + weightEntries es ≤ n := by
              have : weight (GoVal.mapV es) = 2 + weightEntries es := rfl
              omega
            obtain ⟨st2, es', heq, hInv2, hmono, hwE, hwfE'⟩ := ihE st es hInv hwfE hbound
            refine ⟨st2, .mapV es', ?_, hInv2, hmono, ?_, by simpa [wfV] using hwfE'⟩
            · simp only [setDirectory, isNilV]
              rw [if_neg (by simp), heq]
            · show 2 + weightEntries es' = 2 + weightEntries es
              omega
        | iface w =>
            cases w with
            | none =>
                exact ⟨st, _, by simp [setDirectory, isNilV], hInv,
                  Finset.Subset.refl _, rfl, hwf⟩
            | some w =>
                have hwfw : wfV N w = true := by simpa [wfV] using hwf
                have hbound : (N - st.seen.card) * (W + 1) + weight w ≤ n := by
                  have : weight (GoVal.iface (some w)) = 1 + weight w := rfl
                  omega
                obtain ⟨st2, w', heq, hInv2, hmono, hww, hwfw'⟩ :=
                  ihGo st false w hInv hwfw hbound
                refine ⟨st2, .iface (some w'), ?_, hInv2, hmono, ?_,
                  by simpa [wfV] using hwfw'⟩
                · simp only [setDirectory, isNilV]
                  rw [if_neg (by simp), heq]
                · show 1 + weight w' = 1 + weight w
                  omega
      · intro st adr n1 flds i hInv hwfF hb
        cases hgi : flds[i]? with
        | none =>
            refine ⟨st, flds, ?_, hInv, Finset.Subset.refl _, rfl, rfl, hwfF⟩
            simp only [setDirFields]
            rw [hgi]
        | some f =>
            obtain ⟨fname, fexp, fval⟩ := f
            have hdrop := weightFields_drop_succ hgi
            by_cases hskip : (!(adr && fexp)) = true
            · have hbound : (N - st.seen.card) * (W + 1) + 1 +
                  weightFields (flds.drop (i + 1)) ≤ n := by omega
              obtain ⟨st2, flds', heq, hInv2, hmono, hwF, hsig, hwfF'⟩ :=
                ihF st adr n1 flds (i + 1) hInv hwfF hbound
              refine ⟨st2, flds', ?_, hInv2, hmono, hwF, hsig, hwfF'⟩
              simp only [setDirFields, hgi]
              rw [if_pos hskip]
              exact heq
            · have hwfv := wfFields_get hwfF hgi
              have hboundgo : (N - st.seen.card) * (W + 1) + weight fval ≤ n := by
                omega
              obtain ⟨st2, fval', heqgo, hInv2, hmono2, hwv', hwfv'⟩ :=
                ihGo st adr fval hInv hwfv hboundgo
              obtain ⟨q1, q2, q3, q4⟩ := setUpdate (N := N) (fname, fexp, fval') hgi
                hwv' rfl rfl hwfv' hwfF
              have hbound2 : (N - st2.seen.card) * (W + 1) + 1 +
                  weightFields ((flds.set i (fname, fexp, fval')).drop (i + 1)) ≤ n := by
                rw [q2]
                have hmul := Nat.mul_le_mul_right (W + 1)
                  (Nat.sub_le_sub_left (Finset.card_le_card hmono2) N)
                omega
              obtain ⟨st3, flds', heqF, hInv3, hmono3, hwF', hsig', hwf'⟩ :=
                ihF st2 adr n1 _ (i + 1) hInv2 q4 hbound2
              refine ⟨st3, flds', ?_, hInv3, hmono2.trans hmono3,
                by rw [hwF', q1], hsig'.trans q3, hwf'⟩
              simp only [setDirFields, hgi]
              rw [if_neg hskip]
              simp only [heqgo]
              exact heqF
      · intro st es hInv hwfL hb
        cases es with
        | nil =>
            exact ⟨st, [], by simp [setDirList], hInv, Finset.Subset.refl _, rfl, rfl⟩
        | cons v r =>
            have hwf2 : wfV N v = true ∧ wfList N r = true := by
              simpa [wfList, Bool.and_eq_true] using hwfL
            have hboundgo : (N - st.seen.card) * (W + 1) + weight v ≤ n := by
              rw [weightList_cons] at hb
              omega
            obtain ⟨st2, v', heqgo, hInv2, hmono2, hwv', hwfv'⟩ :=
              ihGo st true v hInv hwf2.1 hboundgo
            have hbound2 : (N - st2.seen.card) * (W + 1) + 1 + weightList r ≤ n := by
              rw [weightList_cons] at hb
              have hmul := Nat.mul_le_mul_right (W + 1)
                (Nat.sub_le_sub_left (Finset.card_le_card hmono2) N)
              omega
            obtain ⟨st3, r', heqL, hInv3, hmono3, hwr', hwfr'⟩ :=
              ihL st2 r hInv2 hwf2.2 hbound2
            refine ⟨st3, v' :: r', ?_, hInv3, hmono2.trans hmono3, ?_, ?_⟩
            · simp only [setDirList, heqgo, heqL]
            · rw [weightList_cons, weightList_cons, hwv', hwr']
            · simp [wfList, Bool.and_eq_true, hwfv', hwfr']
      · intro st es hInv hwfE hb
        cases es with
        | nil =>
            exact ⟨st, [], by simp [setDirEntries], hInv, Finset.Subset.refl _, rfl, rfl⟩
        | cons kv r =>
            obtain ⟨k, v⟩ := kv
            have hwf2 : wfV N k = true ∧ wfV N v = true ∧ wfEntries N r = true := by
              simpa [wfEntries, Bool.and_eq_true, and_assoc] using hwfE
            have hboundk : (N - st.seen.card) * (W + 1) + weight k ≤ n := by
              rw [weightEntries_cons] at hb
              omega
            obtain ⟨st1, k', heqk, hInv1, hmono1, hwk', hwfk'⟩ :=
              ihGo st false k hInv hwf2.1 hboundk
            have hboundv : (N - st1.seen.card) * (W + 1) + weight v ≤ n := by
              rw [weightEntries_cons] at hb
              have hmul := Nat.mul_le_mul_right (W + 1)
                (Nat.sub_le_sub_left (Finset.card_le_card hmono1) N)
              omega
            obtain ⟨st2, v', heqv, hInv2, hmono2, hwv', hwfv'⟩ :=
              ihGo st1 false v hInv1 hwf2.2.1 hboundv
            have hbound2 : (N - st2.seen.card) * (W + 1) + 1 + weightEntries r ≤ n := by
              rw [weightEntries_cons] at hb
              have hmul := Nat.mul_le_mul_right (W + 1)
                (Nat.sub_le_sub_left (Finset.card_le_card (hmono1.trans hmono2)) N)
              omega
            obtain ⟨st3, r', heqE, hInv3, hmono3, hwr', hwfr'⟩ :=
              ihE st2 r hInv2 hwf2.2.2 hbound2
            refine ⟨st3, (k, v') :: r', ?_, hInv3,
              (hmono1.trans hmono2).trans hmono3, ?_, ?_⟩
            · simp only [setDirEntries, heqk, heqv, heqE]
            · rw [weightEntries_cons, weightEntries_cons, hwv', hwr']
            · simp [wfEntries, Bool.and_eq_true, hwf2.1, hwfv', hwfr']

/-! ## Claim theorems -/

theorem ptrType_not_ptrT (t : OTy) : ∀ u, ptrType t ≠ OTy.ptrT u := by
  induction t with
  | ptrT t ih => simpa [ptrType] using ih
  | str => simp [ptrType]
  | strukt n fns => simp [ptrType]
  | other n k => simp [ptrType]

/-- C9: constructing a field-classification override (`IncludeField` or
`ExcludeField`) fails at option-construction time exactly when the sample
value's type, resolved through any pointer indirection, is not a struct
type or lacks the named field; otherwise construction succeeds. -/
theorem fieldOption_construction_iff (sample : OTy) (nm : String) :
    ((∃ o, IncludeField sample nm = .ok o) ↔
      ∃ n fns, ptrType sample = .strukt n fns ∧ nm ∈ fns) ∧
    ((∃ o, ExcludeField sample nm = .ok o) ↔
      ∃ n fns, ptrType sample = .strukt n fns ∧ nm ∈ fns) ∧
    ((∃ e, IncludeField sample nm = .error e) ↔
      ¬∃ n fns, ptrType sample = .strukt n fns ∧ nm ∈ fns) ∧
    ((∃ e, ExcludeField sample nm = .error e) ↔
      ¬∃ n fns, ptrType sample = .strukt n fns ∧ nm ∈ fns) := by
  have hok : (∃ f, structField sample nm = .ok f) ↔
      ∃ n fns, ptrType sample = .strukt n fns ∧ nm ∈ fns := by
    unfold structField
    cases hpt : ptrType sample with
    | str => simp [hpt]
    | strukt n fns =>
        by_cases hmem : nm ∈ fns
        · simp only [hpt]
          simp only [hmem, if_pos]
          constructor
          · intro
            exact ⟨n, fns, rfl, hmem⟩
          · intro
            exact ⟨⟨n, nm⟩, by simp [hmem]⟩
        · simp [hpt, hmem]
    | other n k => simp [hpt]
    | ptrT t => exact absurd hpt (ptrType_not_ptrT sample t)
  have herr : (∃ e, structField sample nm = .error e) ↔
      ¬∃ n fns, ptrType sample = .strukt n fns ∧ nm ∈ fns := by
    rw [← hok]
    cases structField sample nm <;> simp
  have hmap : ∀ g : Fld → FieldOption,
      (∃ o, (structField sample nm).map g = .ok o) ↔
        ∃ f, structField sample nm = .ok f := by
    intro g
    cases structField sample nm <;> simp [Except.map]
  have hmape : ∀ g : Fld → FieldOption,
      (∃ e, (structField sample nm).map g = .error e) ↔
        ∃ e, structField sample nm = .error e := by
    intro g
    cases structField sample nm <;> simp [Except.map]
  exact ⟨(hmap _).trans hok, (hmap _).trans hok,
    (hmape _).trans herr, (hmape _).trans herr⟩

/-- C10: the assertion walk (`AssertFile`) leaves the graph completely
unchanged: whatever state it returns carries exactly the arena it was
given (and the walk holds no other mutable part of the graph — `assertFile`
contains no write operation, so the root term is not even returned). -/
theorem assertFile_preserves_graph (options : List FieldOption) (path : String)
    (fuel : Nat) (h : Heap) (root : GoVal) (st' : St) (ok : Bool)
    (heq : AssertFileT options path fuel h root = some (st', ok)) : st'.heap = h := by
  obtain ⟨hext, -⟩ := (assertFile_state (mkFields options) path fuel).1 _ _ _ _ _ _ heq
  exact hext.1

theorem assertFile_preserves_graph_witness :
    (AssertFileT [] "w" 3 (fun _ => GoVal.boolV true) (GoVal.boolV true) =
      some (initSt (fun _ => GoVal.boolV true), true)) ∧
    (initSt (fun _ => GoVal.boolV true)).heap = (fun _ => GoVal.boolV true) :=
  ⟨rfl, assertFile_preserves_graph [] "w" 3 (fun _ => GoVal.boolV true)
    (GoVal.boolV true) (initSt fun _ => GoVal.boolV true) true rfl⟩

/-- C7: for a field of declared type exactly `[]string` that is exported,
addressable, not excluded, and matches the plural convention (name ends in
"Files" or the field is included), the rewrite loop replaces the whole
sequence by the one-element sequence `[file]`, regardless of the previous
elements. -/
theorem setFile_plural_replacement (opts : Fields) (file : String) (fuel : Nat)
    (st : St) (n fname : String) (es : List String)
    (flds : List (String × Bool × GoVal)) (i : Nat)
    (hgi : flds[i]? = some (fname, true, GoVal.strSlice es))
    (hexc : opts.excludes ⟨n, fname⟩ = false)
    (hsuf : (hasSuffixStr fname "Files" || opts.includes ⟨n, fname⟩) = true) :
    setFileFields opts file (fuel + 1) st true n flds i =
      setFileFields opts file fuel st true n
        (flds.set i (fname, true, GoVal.strSlice [file])) (i + 1) := by
  simp only [setFileFields, hgi]
  rw [if_neg (by simp [hexc]), if_neg (by simp [GoVal.isPlainStr]),
    if_pos (by simp [GoVal.isStrSlice, hsuf])]

theorem setFile_plural_replacement_witness :
    setFileFields ⟨∅, ∅⟩ "f.yml" 3 (initSt fun _ => GoVal.boolV true) true "barSetter"
        [("BarFiles", true, GoVal.strSlice ["a", "b"])] 0 =
      setFileFields ⟨∅, ∅⟩ "f.yml" 2 (initSt fun _ => GoVal.boolV true) true "barSetter"
        [("BarFiles", true, GoVal.strSlice ["f.yml"])] 1 :=
  setFile_plural_replacement ⟨∅, ∅⟩ "f.yml" 2 _ "barSetter" "BarFiles" ["a", "b"] _ 0
    rfl (by decide) (by decide)

/-- C3 (counterexample): a struct whose only field is unexported, holding a
pointer to a setter struct.  `setDirectory` neither invokes the capability
below the unexported field nor descends into it (`visits` stays `[0]`,
`calls` stays empty), refuting "the Directory-Propagation operation still
recurses into it". -/
theorem setDirectory_unexported_counterexample :
    (SetDirectoryT (fun _ _ fl => fl) "d" 9
        (fun a => if a = 0
          then GoVal.strukt "outer" false [("inner", false, GoVal.ptr (some 1))]
          else GoVal.strukt "fooSetter" true [("FooFile", true, GoVal.str true "f")])
        (GoVal.ptr (some 0))).map (fun p => (p.1.calls, p.1.visits)) =
      some ([], [0]) := rfl

/-- C3 (amended): all three walkers skip unexported fields identically:
the field is not visited by the rewrite and assertion loops, and the
directory-propagation loop does not recurse into it either. -/
theorem unexported_fields_skipped_everywhere (opts : Fields) (file want dir path : String)
    (cap : String → String → List (String × Bool × GoVal) → List (String × Bool × GoVal))
    (fuel : Nat) (st : St) (adr : Bool) (n nm : String) (v : GoVal)
    (flds : List (String × Bool × GoVal)) (i : Nat)
    (hgi : flds[i]? = some (nm, false, v)) :
    setFileFields opts file (fuel + 1) st adr n flds i =
      setFileFields opts file fuel st adr n flds (i + 1) ∧
    assertFileFields want opts (fuel + 1) st path adr n flds i =
      assertFileFields want opts fuel st path adr n flds (i + 1) ∧
    setDirFields dir cap (fuel + 1) st adr n flds i =
      setDirFields dir cap fuel st adr n flds (i + 1) := by
  refine ⟨?_, ?_, ?_⟩
  · simp only [setFileFields, hgi]
    rw [if_pos (by simp)]
  · simp only [assertFileFields, hgi]
    rw [if_pos (by simp)]
  · simp only [setDirFields, hgi]
    rw [if_pos (by simp)]

theorem unexported_fields_skipped_everywhere_witness :
    (setFileFields ⟨∅, ∅⟩ "f" 3 (initSt fun _ => GoVal.boolV true) true "outer"
        [("inner", false, GoVal.ptr (some 1))] 0 =
      setFileFields ⟨∅, ∅⟩ "f" 2 (initSt fun _ => GoVal.boolV true) true "outer"
        [("inner", false, GoVal.ptr (some 1))] 1) ∧
    (assertFileFields "w" ⟨∅, ∅⟩ 3 (initSt fun _ => GoVal.boolV true) "p" true "outer"
        [("inner", false, GoVal.ptr (some 1))] 0 =
      assertFileFields "w" ⟨∅, ∅⟩ 2 (initSt fun _ => GoVal.boolV true) "p" true "outer"
        [("inner", false, GoVal.ptr (some 1))] 1) ∧
    (setDirFields "d" (fun _ _ fl => fl) 3 (initSt fun _ => GoVal.boolV true) true "outer"
        [("inner", false, GoVal.ptr (some 1))] 0 =
      setDirFields "d" (fun _ _ fl => fl) 2 (initSt fun _ => GoVal.boolV true) true "outer"
        [("inner", false, GoVal.ptr (some 1))] 1) :=
  unexported_fields_skipped_everywhere ⟨∅, ∅⟩ "f" "w" "d" "p" (fun _ _ fl => fl) 2 _
    true "outer" "inner" (GoVal.ptr (some 1)) _ 0 rfl

/-- C1 (counterexample): a single self-referential setter struct.  One
distinct reference node, yet the capability is invoked twice per
top-level `SetDirectory` call (`calls = [0, 0]`), while the visited set
prevents only the second descent (`visits = [0]`).  This refutes "invokes
the node's capability method exactly once per top-level call". -/
theorem setDirectory_duplicate_invocation_counterexample :
    (SetDirectoryT (fun _ _ fl => fl) "d" 9
        (fun _ => GoVal.strukt "cyclic" true
          [("Self", true, GoVal.ptr (some 0)), ("CyclicFile", true, GoVal.str true "c")])
        (GoVal.ptr (some 0))).map (fun p => (p.1.calls, p.1.visits)) =
      some ([0, 0], [0]) := rfl

/-- C1 (amended): `setDirectory` invokes the capability on every arrival
at a non-nil pointer whose pointee implements it, before consulting the
visited set; the visited set suppresses only the descent into the
pointee.  In particular an already-visited node's capability is invoked
again, exactly as the source's doc comment warns ("SetDirectory should be
called on inner and leaf values multiple times"). -/
theorem setDirectory_invokes_on_every_arrival (dir : String)
    (cap : String → String → List (String × Bool × GoVal) → List (String × Bool × GoVal))
    (fuel : Nat) (st : St) (adr : Bool) (a : Nat) (nm : String)
    (fl : List (String × Bool × GoVal))
    (hseen : a ∈ st.seen) (hcell : st.heap a = .strukt nm true fl) :
    setDirectory dir cap (fuel + 1) st adr (.ptr (some a)) =
      some ({ st with heap := Function.update st.heap a (.strukt nm true (cap nm dir fl)),
                      calls := st.calls ++ [a] }, .ptr (some a)) := by
  simp only [setDirectory, dirCapPtr, hcell]
  rw [if_neg (by simp [isNilV]), if_pos hseen]

theorem setDirectory_invokes_on_every_arrival_witness :
    (0 ∈ ({0} : Finset Nat)) ∧
    setDirectory "d" (fun _ _ fl => fl) 3
        ⟨fun _ => GoVal.strukt "cyclic" true [("Self", true, GoVal.ptr (some 0))],
          {0}, [0], [0], []⟩ true (GoVal.ptr (some 0)) =
      some (⟨Function.update
          (fun _ => GoVal.strukt "cyclic" true [("Self", true, GoVal.ptr (some 0))]) 0
          (GoVal.strukt "cyclic" true [("Self", true, GoVal.ptr (some 0))]),
        {0}, [0], [0] ++ [0], []⟩, GoVal.ptr (some 0)) :=
  ⟨by decide, setDirectory_invokes_on_every_arrival "d" (fun _ _ fl => fl) 2 _ true 0
    "cyclic" [("Self", true, GoVal.ptr (some 0))] (by decide) rfl⟩

/-- C2 (counterexample): a struct shaped like the repository's
`fooSetter`, with `Foo` a `Secret`-like string alias and `FooFile` a
plain string.  After `SetFile`, the alias sibling `Foo` HAS been cleared
to the empty string (the source checks the sibling's KIND, not its type
identity), refuting "not when the sibling is a string-kind type alias
used for secrets". -/
theorem setFile_clears_secret_sibling_counterexample :
    (SetFileT [] "f.yml" 9
        (fun _ => GoVal.strukt "fooSetter" true
          [("Foo", true, GoVal.str false "secret"), ("FooFile", true, GoVal.str true "old")])
        (GoVal.ptr (some 0))).map (fun p => p.1.heap 0) =
      some (GoVal.strukt "fooSetter" true
        [("Foo", true, GoVal.str false ""), ("FooFile", true, GoVal.str true "f.yml")]) := rfl

/-- C2 (amended): the rewrite's singular case clears the same-named
suffix-stripped sibling whenever the sibling's declared type has string
KIND — a plain `string` or a string alias such as `Secret` alike — and
then sets the file field.  The first conjunct is the loop step for any
exported, addressable, non-excluded plain-string field with the "File"
suffix; the second shows the clear hits a string-kind sibling for either
value of the alias flag `p`. -/
theorem setFile_sibling_clear_by_kind (opts : Fields) (file : String) (fuel : Nat)
    (st : St) (n sibFile old : String) (flds : List (String × Bool × GoVal)) (i : Nat)
    (hgi : flds[i]? = some (sibFile, true, GoVal.str true old))
    (hsuf : hasSuffixStr sibFile "File" = true)
    (hexc : opts.excludes ⟨n, sibFile⟩ = false) :
    (setFileFields opts file (fuel + 1) st true n flds i =
      setFileFields opts file fuel st true n
        ((clearStrField flds (trimSuffixStr sibFile "File")).set i
          (sibFile, true, GoVal.str true file)) (i + 1)) ∧
    (∀ (sib s : String) (e1 p : Bool) (rest : List (String × Bool × GoVal)),
      clearStrField ((sib, e1, GoVal.str p s) :: rest) sib =
        (sib, e1, GoVal.str p "") :: rest) := by
  constructor
  · simp only [setFileFields, hgi]
    rw [if_neg (by simp [hexc]), if_pos (by simp [GoVal.isPlainStr, hsuf])]
  · intro sib s e1 p rest
    simp [clearStrField]

theorem setFile_sibling_clear_by_kind_witness :
    (setFileFields ⟨∅, ∅⟩ "f.yml" 3 (initSt fun _ => GoVal.boolV true) true "fooSetter"
        [("Foo", true, GoVal.str false "secret"), ("FooFile", true, GoVal.str true "old")] 1 =
      setFileFields ⟨∅, ∅⟩ "f.yml" 2 (initSt fun _ => GoVal.boolV true) true "fooSetter"
        ((clearStrField
            [("Foo", true, GoVal.str false "secret"), ("FooFile", true, GoVal.str true "old")]
            (trimSuffixStr "FooFile" "File")).set 1
          ("FooFile", true, GoVal.str true "f.yml")) 2) ∧
    (∀ (sib s : String) (e1 p : Bool) (rest : List (String × Bool × GoVal)),
      clearStrField ((sib, e1, GoVal.str p s) :: rest) sib =
        (sib, e1, GoVal.str p "") :: rest) :=
  setFile_sibling_clear_by_kind ⟨∅, ∅⟩ "f.yml" 2 _ "fooSetter" "FooFile" "old" _ 1
    rfl (by decide) (by decide)

theorem foldl_applyOption_excl (l : List FieldOption) (o : Fields) (f : Fld) :
    f ∈ (l.foldl applyOption o).excl ↔ FieldOption.excludeF f ∈ l ∨ f ∈ o.excl := by
  induction l generalizing o with
  | nil => simp
  | cons a rest ih =>
      cases a with
      | includeF g =>
          simp only [List.foldl_cons, ih, applyOption, List.mem_cons]
          constructor
          · rintro (hr | hm)
            · exact Or.inl (Or.inr hr)
            · exact Or.inr hm
          · rintro ((hc | hr) | hm)
            · cases hc
            · exact Or.inl hr
            · exact Or.inr hm
      | excludeF g =>
          simp only [List.foldl_cons, ih, applyOption, List.mem_cons,
            Finset.mem_insert, FieldOption.excludeF.injEq]
          constructor
          · rintro (hr | hfg | hm)
            · exact Or.inl (Or.inr hr)
            · exact Or.inl (Or.inl hfg)
            · exact Or.inr hm
          · rintro ((hc | hr) | hm)
            · exact Or.inr (Or.inl hc)
            · exact Or.inl hr
            · exact Or.inr (Or.inr hm)

theorem applyOption_rightComm (o : Fields) (a b : FieldOption) :
    applyOption (applyOption o a) b = applyOption (applyOption o b) a := by
  cases a <;> cases b <;> simp [applyOption, Finset.Insert.comm]

/-- C5: exclusion dominates inclusion independently of option order:
an `ExcludeField` option anywhere in the list puts the descriptor in the
exclude set; an excluded descriptor makes both the rewrite loop and the
assertion loop skip the field (whatever the include set says); and the
option record is invariant under permuting the option list. -/
theorem exclusion_dominates_inclusion :
    (∀ (l : List FieldOption) (f : Fld),
      FieldOption.excludeF f ∈ l → f ∈ (mkFields l).excl) ∧
    (∀ (opts : Fields) (file : String) (fuel : Nat) (st : St) (adr : Bool)
      (n : String) (flds : List (String × Bool × GoVal)) (i : Nat)
      (fname : String) (fexp : Bool) (fval : GoVal),
      flds[i]? = some (fname, fexp, fval) → (⟨n, fname⟩ : Fld) ∈ opts.excl →
      setFileFields opts file (fuel + 1) st adr n flds i =
        setFileFields opts file fuel st adr n flds (i + 1)) ∧
    (∀ (opts : Fields) (want path : String) (fuel : Nat) (st : St) (adr : Bool)
      (n : String) (flds : List (String × Bool × GoVal)) (i : Nat)
      (fname : String) (fexp : Bool) (fval : GoVal),
      flds[i]? = some (fname, fexp, fval) → (⟨n, fname⟩ : Fld) ∈ opts.excl →
      assertFileFields want opts (fuel + 1) st path adr n flds i =
        assertFileFields want opts fuel st path adr n flds (i + 1)) ∧
    (∀ l₁ l₂ : List FieldOption, l₁.Perm l₂ → mkFields l₁ = mkFields l₂) := by
  refine ⟨?_, ?_, ?_, ?_⟩
  · intro l f hmem
    exact (foldl_applyOption_excl l ⟨∅, ∅⟩ f).2 (Or.inl hmem)
  · intro opts file fuel st adr n flds i fname fexp fval hgi hexcl
    simp only [setFileFields, hgi]
    rw [if_pos (by simp [Fields.excludes, hexcl])]
  · intro opts want path fuel st adr n flds i fname fexp fval hgi hexcl
    simp only [assertFileFields, hgi]
    rw [if_pos (by simp [Fields.excludes, hexcl])]
  · intro l₁ l₂ hperm
    exact @List.Perm.foldl_eq _ _ applyOption _ _ ⟨applyOption_rightComm⟩ hperm ⟨∅, ∅⟩

theorem exclusion_dominates_inclusion_witness :
    ({ strukt := "s", name := "AFile" } : Fld) ∈
      (mkFields [.includeF ⟨"s", "AFile"⟩, .excludeF ⟨"s", "AFile"⟩]).excl ∧
    mkFields [.includeF ⟨"s", "AFile"⟩, .excludeF ⟨"s", "AFile"⟩] =
      mkFields [.excludeF ⟨"s", "AFile"⟩, .includeF ⟨"s", "AFile"⟩] :=
  ⟨exclusion_dominates_inclusion.1 _ _ (by simp),
    exclusion_dominates_inclusion.2.2.2 _ _ (List.Perm.swap _ _ _)⟩

/-- C6: the assertion walk records one failure per mismatching file-like
value and never stops early: its boolean result is `true` exactly when no
failure was recorded, and on a four-element `[]string` field whose
entries 1 and 3 are wrong it reports exactly those two findings, with
their indices, and no others. -/
theorem assertFile_multiplicity :
    (∀ (options : List FieldOption) (want : String) (fuel : Nat) (h : Heap)
      (root : GoVal) (st' : St) (ok : Bool),
      AssertFileT options want fuel h root = some (st', ok) →
      (ok = true ↔ st'.errs = [])) ∧
    ((AssertFileT [] "w" 9
        (fun _ => GoVal.strukt "barSetter" true
          [("BarFiles", true, GoVal.strSlice ["w", "b", "w", "x"])])
        (GoVal.ptr (some 0))).map (fun p => (p.1.errs, p.2)) =
      some ([⟨"(ptr).BarFiles", some 1, "b", "w"⟩,
        ⟨"(ptr).BarFiles", some 3, "x", "w"⟩], false)) := by
  constructor
  · intro options want fuel h root st' ok heq
    obtain ⟨-, hok⟩ := (assertFile_state (mkFields options) want fuel).1 _ _ _ _ _ _ heq
    simpa [initSt] using hok
  · rfl

theorem assertFile_multiplicity_witness :
    (AssertFileT [] "w" 3 (fun _ => GoVal.boolV true) (GoVal.boolV true) =
      some (initSt (fun _ => GoVal.boolV true), true)) ∧
    (true = true ↔ (initSt (fun _ => GoVal.boolV true)).errs = ([] : List Err)) :=
  ⟨rfl, assertFile_multiplicity.1 [] "w" 3 (fun _ => GoVal.boolV true)
    (GoVal.boolV true) (initSt fun _ => GoVal.boolV true) true rfl⟩

/-- C4: on every well-formed arena — cyclic reference graphs included,
since nothing below restricts the cells' pointers — all three walkers
terminate (the explicit fuel `N * (W + 1) + weight root` suffices, where
`N` bounds the arena and `W` every cell's weight), and the per-call
visited set makes the descent log duplicate-free: each distinct reference
node's fields are descended into at most once, hence exactly once for
every node reached. -/
theorem walkers_terminate_and_visit_once (N W : Nat) (h : Heap) (root : GoVal)
    (options : List FieldOption) (file want dir : String)
    (cap : String → String → List (String × Bool × GoVal) → List (String × Bool × GoVal))
    (Hw : ∀ nm d fl, weightFields (cap nm d fl) = weightFields fl)
    (Hwf : ∀ nm d fl, wfFields N fl = true → wfFields N (cap nm d fl) = true)
    (Hsig : ∀ nm d fl, fldSig (cap nm d fl) = fldSig fl)
    (hwh : wfHeap N h) (hbd : heapBound N W h) (hroot : wfV N root = true) :
    (∃ st' v', SetFileT options file (N * (W + 1) + weight root) h root = some (st', v') ∧
      st'.visits.Nodup) ∧
    (∃ st' ok, AssertFileT options want (N * (W + 1) + weight root) h root = some (st', ok) ∧
      st'.visits.Nodup) ∧
    (∃ st' v', SetDirectoryT cap dir (N * (W + 1) + weight root) h root = some (st', v') ∧
      st'.visits.Nodup) := by
  have hInv : InvSt N W (initSt h) :=
    ⟨by simp [initSt], fun a ha => ⟨hwh a ha, hbd a ha⟩⟩
  have hfuel : (N - (initSt h).seen.card) * (W + 1) + weight root ≤
      N * (W + 1) + weight root := by
    simp [initSt]
  refine ⟨?_, ?_, ?_⟩
  · obtain ⟨st', v', heq, -, -, -, -⟩ :=
      (setFile_suff N W (mkFields options) file _).1 (initSt h) false root hInv hroot hfuel
    refine ⟨st', v', heq, ?_⟩
    obtain ⟨-, -, -, δ, hv, hn, -⟩ :=
      (setFile_state (mkFields options) file _).1 _ _ _ _ _ heq
    rw [hv]
    simpa [initSt] using hn
  · obtain ⟨st', ok, heq, -, -⟩ :=
      (assertFile_suff N W (mkFields options) want _).1 (initSt h)
        ("(" ++ goTypeName root ++ ")") false root hInv hroot hfuel
    refine ⟨st', ok, heq, ?_⟩
    obtain ⟨⟨-, -, -, ⟨δ, hv, hn, -⟩, -⟩, -⟩ :=
      (assertFile_state (mkFields options) want _).1 _ _ _ _ _ _ heq
    rw [hv]
    simpa [initSt] using hn
  · obtain ⟨st', v', heq, -, -, -, -⟩ :=
      (setDirectory_suff N W dir cap Hw Hwf Hsig _).1 (initSt h) false root hInv hroot hfuel
    refine ⟨st', v', heq, ?_⟩
    obtain ⟨-, -, ⟨δ, hv, hn, -⟩, -⟩ :=
      (setDirectory_state dir cap _).1 _ _ _ _ _ heq
    rw [hv]
    simpa [initSt] using hn

theorem walkers_terminate_and_visit_once_witness :
    (∃ st' v', SetFileT [] "f" (1 * (10 + 1) + weight (GoVal.ptr (some 0)))
        (fun _ => GoVal.strukt "cyclic" true
          [("Self", true, GoVal.ptr (some 0)), ("CyclicFile", true, GoVal.str true "c")])
        (GoVal.ptr (some 0)) = some (st', v') ∧ st'.visits.Nodup) ∧
    (∃ st' ok, AssertFileT [] "w" (1 * (10 + 1) + weight (GoVal.ptr (some 0)))
        (fun _ => GoVal.strukt "cyclic" true
          [("Self", true, GoVal.ptr (some 0)), ("CyclicFile", true, GoVal.str true "c")])
        (GoVal.ptr (some 0)) = some (st', ok) ∧ st'.visits.Nodup) ∧
    (∃ st' v', SetDirectoryT (fun _ _ fl => fl) "d" (1 * (10 + 1) + weight (GoVal.ptr (some 0)))
        (fun _ => GoVal.strukt "cyclic" true
          [("Self", true, GoVal.ptr (some 0)), ("CyclicFile", true, GoVal.str true "c")])
        (GoVal.ptr (some 0)) = some (st', v') ∧ st'.visits.Nodup) :=
  walkers_terminate_and_visit_once 1 10
    (fun _ => GoVal.strukt "cyclic" true
      [("Self", true, GoVal.ptr (some 0)), ("CyclicFile", true, GoVal.str true "c")])
    (GoVal.ptr (some 0)) [] "f" "w" "d" (fun _ _ fl => fl)
    (fun _ _ _ => rfl) (fun _ _ _ hh => hh) (fun _ _ _ => rfl)
    (fun a _ => rfl) (fun a _ => by norm_num [weight, weightFields]) (by decide)

theorem clearVal_strFlag (v : GoVal) : strFlag (clearVal v) = strFlag v := by
  cases v <;> rfl

theorem clearVal_isStrSlice (v : GoVal) : (clearVal v).isStrSlice = v.isStrSlice := by
  cases v <;> rfl

theorem clearVal_isStrish (v : GoVal) : isStrish (clearVal v) = isStrish v := by
  cases v <;> rfl

theorem clearVal_nonstr {v : GoVal} (h : strFlag v = none) : clearVal v = v := by
  cases v <;> first | rfl | simp [strFlag] at h

theorem isStrish_flag (v : GoVal) : isStrish v = ((strFlag v).isSome || v.isStrSlice) := by
  cases v <;> rfl

theorem isPlainStr_flag (v : GoVal) : v.isPlainStr = decide (strFlag v = some true) := by
  cases v with
  | str p s => cases p <;> rfl
  | _ => rfl

theorem isStrish_of_bd {v w : GoVal} (h : bdV v = bdV w) : isStrish v = isStrish w := by
  have h1 : strFlag v = strFlag w := congrArg Prod.fst h
  have h2 : v.isStrSlice = w.isStrSlice := congrArg Prod.snd h
  rw [isStrish_flag, isStrish_flag, h1, h2]

theorem isPlainStr_of_bd {v w : GoVal} (h : bdV v = bdV w) : v.isPlainStr = w.isPlainStr := by
  have h1 : strFlag v = strFlag w := congrArg Prod.fst h
  rw [isPlainStr_flag, isPlainStr_flag, h1]

theorem isStrSlice_of_bd {v w : GoVal} (h : bdV v = bdV w) : v.isStrSlice = w.isStrSlice :=
  congrArg Prod.snd h

theorem fldIdx_sig (t : String) : ∀ {L M : List (String × Bool × GoVal)},
    fldSig M = fldSig L → fldIdx M t = fldIdx L t := by
  intro L
  induction L with
  | nil =>
      intro M h
      cases M with
      | nil => rfl
      | cons m r => simp [fldSig] at h
  | cons l r ih =>
      intro M h
      cases M with
      | nil => simp [fldSig] at h
      | cons m s =>
          simp only [fldSig, List.map_cons, List.cons.injEq, Prod.mk.injEq] at h
          obtain ⟨⟨hn, -⟩, hr⟩ := h
          simp only [fldIdx, hn]
          rw [ih hr]

theorem clearStrField_head_eq {n : String} {e : Bool} {v : GoVal}
    {r : List (String × Bool × GoVal)} {t : String} (hn : n = t) :
    clearStrField ((n, e, v) :: r) t = (n, e, clearVal v) :: r := by
  cases v <;> simp [clearStrField, hn, clearVal]

theorem clear_get (t : String) : ∀ (L : List (String × Bool × GoVal)) (j : Nat),
    (clearStrField L t)[j]? =
      if fldIdx L t = some j then
        (L[j]?).map (fun f => (f.1, f.2.1, clearVal f.2.2)) else L[j]? := by
  intro L
  induction L with
  | nil => intro j; simp [clearStrField, fldIdx]
  | cons l r ih =>
      obtain ⟨n, e, v⟩ := l
      intro j
      by_cases hn : n = t
      · rw [clearStrField_head_eq hn]
        simp only [fldIdx, if_pos hn]
        cases j with
        | zero => simp
        | succ k => simp
      · have hcl : clearStrField ((n, e, v) :: r) t = (n, e, v) :: clearStrField r t := by
          simp [clearStrField, hn]
        rw [hcl]
        simp only [fldIdx, if_neg hn]
        cases j with
        | zero =>
            have : ((fldIdx r t).map (· + 1) = some 0) = False := by
              cases fldIdx r t <;> simp
            simp [this]
        | succ k =>
            simp only [List.getElem?_cons_succ]
            rw [ih k]
            have hiff : ((fldIdx r t).map (· + 1) = some (k + 1)) = (fldIdx r t = some k) := by
              cases fldIdx r t <;> simp
            simp only [hiff]

theorem fldSig_clear (t : String) : ∀ (L : List (String × Bool × GoVal)),
    fldSig (clearStrField L t) = fldSig L := by
  intro L
  induction L with
  | nil => rfl
  | cons l r ih =>
      obtain ⟨n, e, v⟩ := l
      by_cases hn : n = t
      · rw [clearStrField_head_eq hn]
        cases v <;> rfl
      · have hcl : clearStrField ((n, e, v) :: r) t = (n, e, v) :: clearStrField r t := by
          simp [clearStrField, hn]
        rw [hcl]
        simp only [fldSig, List.map_cons] at ih ⊢
        rw [ih]

theorem clear_len (t : String) (L : List (String × Bool × GoVal)) :
    (clearStrField L t).length = L.length := by
  have := congrArg List.length (fldSig_clear t L)
  simpa [fldSig] using this

theorem sig_get {L M : List (String × Bool × GoVal)} (h : fldSig M = fldSig L)
    {j : Nat} {n : String} {e : Bool} {w : GoVal} (hL : L[j]? = some (n, e, w)) :
    ∃ m, M[j]? = some (n, e, m) := by
  have hm := congrArg (fun l => l[j]?) h
  simp only [fldSig, List.getElem?_map, hL, Option.map_some'] at hm
  cases hM : M[j]? with
  | none => rw [hM] at hm; simp at hm
  | some f =>
      obtain ⟨a, b, c⟩ := f
      rw [hM] at hm
      simp only [Option.map_some', Option.some.injEq, Prod.mk.injEq] at hm
      exact ⟨c, by simp [hM, hm.1, hm.2]⟩

theorem sig_get_none {L M : List (String × Bool × GoVal)} (h : fldSig M = fldSig L)
    {j : Nat} (hL : L[j]? = none) : M[j]? = none := by
  have hm := congrArg (fun l => l[j]?) h
  simp only [fldSig, List.getElem?_map, hL, Option.map_none'] at hm
  exact Option.map_eq_none'.1 hm

theorem fields_ext {L M : List (String × Bool × GoVal)} (h : fldSig M = fldSig L)
    (hv : ∀ (j : Nat) (n : String) (e : Bool) (w m : GoVal),
      L[j]? = some (n, e, w) → M[j]? = some (n, e, m) → m = w) : M = L := by
  refine List.ext_getElem? fun j => ?_
  cases hL : L[j]? with
  | none => rw [sig_get_none h hL]
  | some f =>
      obtain ⟨n, e, w⟩ := f
      obtain ⟨m, hM⟩ := sig_get h hL
      rw [hM, hv j n e w m hL hM]

theorem setFile_ident (opts : Fields) (file : String) (fuel : Nat) (st : St) (adr : Bool)
    {v : GoVal} (h : isStrish v = true) :
    setFile opts file (fuel + 1) st adr v = some (st, v) := by
  cases v with
  | str p s => simp [setFile, isNilV]
  | strSlice es => simp [setFile, isNilV]
  | _ => simp [isStrish] at h

theorem setFile_bd_go {opts : Fields} {file : String} {fuel : Nat} {st : St} {adr : Bool}
    {v v' : GoVal} {st' : St}
    (h : setFile opts file fuel st adr v = some (st', v')) : bdV v' = bdV v := by
  cases fuel with
  | zero => simp [setFile] at h
  | succ n =>
      simp only [setFile] at h
      split at h
      · cases h; rfl
      · split at h
        · split at h
          · cases h; rfl
          · split at h
            · exact absurd h (by simp)
            · cases h; rfl
        · split at h
          · exact absurd h (by simp)
          · cases h; rfl
        · split at h
          · exact absurd h (by simp)
          · cases h; rfl
        · split at h
          · exact absurd h (by simp)
          · cases h; rfl
        · split at h
          · exact absurd h (by simp)
          · cases h; rfl
        · cases h; rfl

/-- The frame property of the rewrite walk: addresses already visited at
entry are never written again (the only heap write is the write-back at a
FRESH pointer descent). -/
theorem setFile_frame (opts : Fields) (file : String) : ∀ fuel : Nat,
    (∀ st adr v st' v', setFile opts file fuel st adr v = some (st', v') →
      ∀ a ∈ st.seen, st'.heap a = st.heap a) ∧
    (∀ st adr n flds i st' flds',
      setFileFields opts file fuel st adr n flds i = some (st', flds') →
      ∀ a ∈ st.seen, st'.heap a = st.heap a) ∧
    (∀ st es st' es', setFileList opts file fuel st es = some (st', es') →
      ∀ a ∈ st.seen, st'.heap a = st.heap a) ∧
    (∀ st es st' es', setFileEntries opts file fuel st es = some (st', es') →
      ∀ a ∈ st.seen, st'.heap a = st.heap a) := by
  intro fuel
  induction fuel with
  | zero =>
      refine ⟨?_, ?_, ?_, ?_⟩ <;> intro st <;> intros <;> simp_all [setFile, setFileFields,
        setFileList, setFileEntries]
  | succ n ih =>
      obtain ⟨ihGo, ihF, ihL, ihE⟩ := ih
      have mGo : ∀ st adr v st' v', setFile opts file n st adr v = some (st', v') →
          st.seen ⊆ st'.seen := fun st adr v st' v' h =>
        ((setFile_state opts file n).1 st adr v st' v' h).1
      have mF : ∀ st adr nm flds i st' flds',
          setFileFields opts file n st adr nm flds i = some (st', flds') →
          st.seen ⊆ st'.seen := fun st adr nm flds i st' flds' h =>
        ((setFile_state opts file n).2.1 st adr nm flds i st' flds' h).1
      refine ⟨?_, ?_, ?_, ?_⟩
      · intro st adr v st' v' h
        simp only [setFile] at h
        split at h
        · cases h; intro a _; rfl
        · split at h
          · rename_i a0 _
            split at h
            · cases h; intro a _; rfl
            · rename_i hfresh
              split at h
              · exact absurd h (by simp)
              · rename_i heq
                cases h
                intro a ha
                have hne : a ≠ a0 := fun hc => hfresh (hc ▸ ha)
                show Function.update _ a0 _ a = _
                rw [Function.update_noteq hne]
                exact ihGo _ _ _ _ _ heq a (Finset.mem_insert_of_mem ha)
          · split at h
            · exact absurd h (by simp)
            · rename_i heq
              cases h; exact ihF _ _ _ _ _ _ _ heq
          · split at h
            · exact absurd h (by simp)
            · rename_i heq
              cases h; exact ihE _ _ _ _ heq
          · split at h
            · exact absurd h (by simp)
            · rename_i heq
              cases h; exact ihL _ _ _ _ heq
          · split at h
            · exact absurd h (by simp)
            · rename_i heq
              cases h; exact ihGo _ _ _ _ _ heq
          · cases h; intro a _; rfl
      · intro st adr n' flds i st' flds' h
        simp only [setFileFields] at h
        split at h
        · cases h; intro a _; rfl
        · split at h
          · exact ihF _ _ _ _ _ _ _ h
          · split at h
            · exact ihF _ _ _ _ _ _ _ h
            · split at h
              · exact ihF _ _ _ _ _ _ _ h
              · split at h
                · exact absurd h (by simp)
                · rename_i heq
                  intro a ha
                  rw [ihF _ _ _ _ _ _ _ h a (mGo _ _ _ _ _ heq ha)]
                  exact ihGo _ _ _ _ _ heq a ha
      · intro st es st' es' h
        cases es with
        | nil => simp only [setFileList] at h; cases h; intro a _; rfl
        | cons v r =>
            simp only [setFileList] at h
            split at h
            · exact absurd h (by simp)
            · rename_i heq
              split at h
              · exact absurd h (by simp)
              · rename_i heq2
                cases h
                intro a ha
                rw [ihL _ _ _ _ heq2 a (mGo _ _ _ _ _ heq ha)]
                exact ihGo _ _ _ _ _ heq a ha
      · intro st es st' es' h
        cases es with
        | nil => simp only [setFileEntries] at h; cases h; intro a _; rfl
        | cons kv r =>
            obtain ⟨k, v⟩ := kv
            simp only [setFileEntries] at h
            split at h
            · exact absurd h (by simp)
            · rename_i heq
              split at h
              · exact absurd h (by simp)
              · rename_i heq2
                split at h
                · exact absurd h (by simp)
                · rename_i heq3
                  cases h
                  intro a ha
                  rw [ihE _ _ _ _ heq3 a
                    (mGo _ _ _ _ _ heq2 (mGo _ _ _ _ _ heq ha))]
                  rw [ihGo _ _ _ _ _ heq2 a (mGo _ _ _ _ _ heq ha)]
                  exact ihGo _ _ _ _ _ heq a ha

theorem strFlag_none_of_not_strish {w : GoVal} (h : isStrish w = false) : strFlag w = none := by
  cases w <;> first | rfl | simp [isStrish] at h

theorem isStrSlice_false_of_not_strish {w : GoVal} (h : isStrish w = false) :
    w.isStrSlice = false := by
  cases w <;> first | rfl | simp [isStrish] at h

theorem plainStr_shape {v : GoVal} (h : v.isPlainStr = true) : ∃ s, v = .str true s := by
  rw [isPlainStr_flag] at h
  have h2 : strFlag v = some true := of_decide_eq_true h
  cases v <;> simp [strFlag] at h2
  case str p s => exact ⟨s, by rw [h2]⟩

theorem strSlice_shape {v : GoVal} (h : v.isStrSlice = true) : ∃ es, v = .strSlice es := by
  cases v <;> first | exact ⟨_, rfl⟩ | simp [GoVal.isStrSlice] at h

/-- The struct loop preserves every position's name, exported flag and
branch-deciding data: only values change, and a string stays a string of
the same declaredness, a `[]string` stays a `[]string`. -/
theorem setFileFields_bd (opts : Fields) (file : String) : ∀ (fuel : Nat) (st : St)
    (adr : Bool) (nm : String) (flds : List (String × Bool × GoVal)) (i : Nat)
    (st' : St) (flds' : List (String × Bool × GoVal)),
    setFileFields opts file fuel st adr nm flds i = some (st', flds') →
    fldSig flds' = fldSig flds ∧
    ∀ (j : Nat) (n : String) (e : Bool) (w : GoVal), flds[j]? = some (n, e, w) →
      ∃ w', flds'[j]? = some (n, e, w') ∧ bdV w' = bdV w := by
  intro fuel
  induction fuel with
  | zero => intro st adr nm flds i st' flds' h; simp [setFileFields] at h
  | succ fl ih =>
      intro st adr nm flds i st' flds' h
      cases hgi : flds[i]? with
      | none =>
          simp only [setFileFields, hgi] at h
          cases h
          exact ⟨rfl, fun j n e w hj => ⟨w, hj, rfl⟩⟩
      | some f =>
          obtain ⟨fname, fexp, fval⟩ := f
          have hilt : i < flds.length := (List.getElem?_eq_some.1 hgi).1
          simp only [setFileFields, hgi] at h
          by_cases hskip : (!(adr && fexp) || opts.excludes ⟨nm, fname⟩) = true
          · rw [if_pos hskip] at h
            exact ih _ _ _ _ _ _ _ h
          · rw [if_neg hskip] at h
            by_cases hsing :
                (fval.isPlainStr && (hasSuffixStr fname "File" ||
                  opts.includes ⟨nm, fname⟩)) = true
            · rw [if_pos hsing] at h
              obtain ⟨hsig1, hpt1⟩ := ih _ _ _ _ _ _ _ h
              have hplain : fval.isPlainStr = true := by
                simp only [Bool.and_eq_true] at hsing; exact hsing.1
              obtain ⟨s0, hfv⟩ : ∃ s0, fval = .str true s0 := plainStr_shape hplain
              obtain ⟨cv, hci⟩ : ∃ cv,
                  (clearStrField flds (trimSuffixStr fname "File"))[i]? =
                    some (fname, fexp, cv) := by
                rw [clear_get]
                split
                · exact ⟨clearVal fval, by rw [hgi]; rfl⟩
                · exact ⟨fval, hgi⟩
              have hclt : i < (clearStrField flds (trimSuffixStr fname "File")).length :=
                (List.getElem?_eq_some.1 hci).1
              have hsig2 : fldSig ((clearStrField flds (trimSuffixStr fname "File")).set i
                  (fname, fexp, .str true file)) = fldSig flds := by
                rw [fldSig_set_eq hclt, fldSig_clear]
                · rw [(List.getElem?_eq_some.1 hci).2]
                · rw [(List.getElem?_eq_some.1 hci).2]
              refine ⟨hsig1.trans hsig2, ?_⟩
              intro j n e w hj
              by_cases hji : j = i
              · subst hji
                have hw : (n, e, w) = (fname, fexp, fval) := by
                  rw [hj] at hgi; exact Option.some.injEq _ _ ▸ hgi ▸ rfl
                obtain ⟨w', hw', hbd⟩ := hpt1 j n e (.str true file)
                  (by rw [List.getElem?_set_self hclt]
                      cases hw
                      rfl)
                refine ⟨w', hw', ?_⟩
                rw [hbd]
                cases hw
                rw [hfv]
                rfl
              · obtain ⟨w1, hw1, hbd1⟩ : ∃ w1,
                    ((clearStrField flds (trimSuffixStr fname "File")).set i
                      (fname, fexp, .str true file))[j]? = some (n, e, w1) ∧
                      bdV w1 = bdV w := by
                  rw [List.getElem?_set_ne (fun hc => hji hc.symm)]
                  rw [clear_get]
                  split
                  · rw [hj]
                    exact ⟨clearVal w, rfl, by
                      simp [bdV, clearVal_strFlag, clearVal_isStrSlice]⟩
                  · exact ⟨w, hj, rfl⟩
                obtain ⟨w', hw', hbd⟩ := hpt1 j n e w1 hw1
                exact ⟨w', hw', hbd.trans hbd1⟩
            · rw [if_neg hsing] at h
              by_cases hplu :
                  (fval.isStrSlice && (hasSuffixStr fname "Files" ||
                    opts.includes ⟨nm, fname⟩)) = true
              · rw [if_pos hplu] at h
                obtain ⟨hsig1, hpt1⟩ := ih _ _ _ _ _ _ _ h
                have hsl : fval.isStrSlice = true := by
                  simp only [Bool.and_eq_true] at hplu; exact hplu.1
                obtain ⟨es0, hfv⟩ : ∃ es0, fval = .strSlice es0 := strSlice_shape hsl
                have hsig2 : fldSig (flds.set i (fname, fexp, .strSlice [file])) =
                    fldSig flds := by
                  rw [fldSig_set_eq hilt]
                  · rw [(List.getElem?_eq_some.1 hgi).2]
                  · rw [(List.getElem?_eq_some.1 hgi).2]
                refine ⟨hsig1.trans hsig2, ?_⟩
                intro j n e w hj
                by_cases hji : j = i
                · subst hji
                  have hw : (n, e, w) = (fname, fexp, fval) := by
                    rw [hj] at hgi; exact Option.some.injEq _ _ ▸ hgi ▸ rfl
                  obtain ⟨w', hw', hbd⟩ := hpt1 j n e (.strSlice [file])
                    (by rw [List.getElem?_set_self hilt]
                        cases hw
                        rfl)
                  refine ⟨w', hw', ?_⟩
                  rw [hbd]
                  cases hw
                  rw [hfv]
                  rfl
                · obtain ⟨w', hw', hbd⟩ := hpt1 j n e w
                    (by rw [List.getElem?_set_ne (fun hc => hji hc.symm)]; exact hj)
                  exact ⟨w', hw', hbd⟩
              · rw [if_neg hplu] at h
                cases hrec : setFile opts file fl st adr fval with
                | none => rw [hrec] at h; simp at h
                | some p =>
                    obtain ⟨st2, fval'⟩ := p
                    rw [hrec] at h
                    obtain ⟨hsig1, hpt1⟩ := ih _ _ _ _ _ _ _ h
                    have hbdv : bdV fval' = bdV fval := setFile_bd_go hrec
                    have hsig2 : fldSig (flds.set i (fname, fexp, fval')) = fldSig flds := by
                      rw [fldSig_set_eq hilt]
                      · rw [(List.getElem?_eq_some.1 hgi).2]
                      · rw [(List.getElem?_eq_some.1 hgi).2]
                    refine ⟨hsig1.trans hsig2, ?_⟩
                    intro j n e w hj
                    by_cases hji : j = i
                    · subst hji
                      have hw : (n, e, w) = (fname, fexp, fval) := by
                        rw [hj] at hgi; exact Option.some.injEq _ _ ▸ hgi ▸ rfl
                      obtain ⟨w', hw', hbd⟩ := hpt1 j n e fval'
                        (by rw [List.getElem?_set_self hilt]
                            cases hw
                            rfl)
                      refine ⟨w', hw', ?_⟩
                      rw [hbd, hbdv]
                      cases hw
                      rfl
                    · obtain ⟨w', hw', hbd⟩ := hpt1 j n e w
                        (by rw [List.getElem?_set_ne (fun hc => hji hc.symm)]; exact hj)
                      exact ⟨w', hw', hbd⟩

/-- Positions the loop has already passed and that are not of string kind
or `[]string` type are never written again: a later iteration writes only
at its own index (which is ahead) or at a sibling of string kind. -/
theorem setFileFields_lowpres (opts : Fields) (file : String) : ∀ (fuel : Nat) (st : St)
    (adr : Bool) (nm : String) (flds : List (String × Bool × GoVal)) (i : Nat)
    (st' : St) (flds' : List (String × Bool × GoVal)),
    setFileFields opts file fuel st adr nm flds i = some (st', flds') →
    ∀ (j : Nat) (n : String) (e : Bool) (w : GoVal), j < i →
      flds[j]? = some (n, e, w) → isStrish w = false → flds'[j]? = some (n, e, w) := by
  intro fuel
  induction fuel with
  | zero => intro st adr nm flds i st' flds' h; simp [setFileFields] at h
  | succ fl ih =>
      intro st adr nm flds i st' flds' h j n e w hji hj hns
      cases hgi : flds[i]? with
      | none =>
          simp only [setFileFields, hgi] at h
          cases h
          exact hj
      | some f =>
          obtain ⟨fname, fexp, fval⟩ := f
          have hilt : i < flds.length := (List.getElem?_eq_some.1 hgi).1
          simp only [setFileFields, hgi] at h
          by_cases hskip : (!(adr && fexp) || opts.excludes ⟨nm, fname⟩) = true
          · rw [if_pos hskip] at h
            exact ih _ _ _ _ _ _ _ h j n e w (by omega) hj hns
          · rw [if_neg hskip] at h
            by_cases hsing :
                (fval.isPlainStr && (hasSuffixStr fname "File" ||
                  opts.includes ⟨nm, fname⟩)) = true
            · rw [if_pos hsing] at h
              refine ih _ _ _ _ _ _ _ h j n e w (by omega) ?_ hns
              rw [List.getElem?_set_ne (by omega)]
              rw [clear_get]
              split
              · rw [hj, Option.map_some']
                rw [clearVal_nonstr (strFlag_none_of_not_strish hns)]
              · exact hj
            · rw [if_neg hsing] at h
              by_cases hplu :
                  (fval.isStrSlice && (hasSuffixStr fname "Files" ||
                    opts.includes ⟨nm, fname⟩)) = true
              · rw [if_pos hplu] at h
                refine ih _ _ _ _ _ _ _ h j n e w (by omega) ?_ hns
                rw [List.getElem?_set_ne (by omega)]
                exact hj
              · rw [if_neg hplu] at h
                cases hrec : setFile opts file fl st adr fval with
                | none => rw [hrec] at h; simp at h
                | some p =>
                    obtain ⟨st2, fval'⟩ := p
                    rw [hrec] at h
                    refine ih _ _ _ _ _ _ _ h j n e w (by omega) ?_ hns
                    rw [List.getElem?_set_ne (by omega)]
                    exact hj

theorem strFlag_shape {v : GoVal} {p : Bool} (h : strFlag v = some p) : ∃ s, v = .str p s := by
  cases v <;> simp [strFlag] at h
  case str q s => exact ⟨s, by rw [h]⟩

theorem fldSig_clear_set {L : List (String × Bool × GoVal)} {i : Nat} {fname : String}
    {fexp : Bool} {w0 : GoVal} (t : String) (v : GoVal)
    (hLi : L[i]? = some (fname, fexp, w0)) :
    fldSig ((clearStrField L t).set i (fname, fexp, v)) = fldSig L := by
  obtain ⟨cv, hci⟩ : ∃ cv, (clearStrField L t)[i]? = some (fname, fexp, cv) := by
    rw [clear_get]
    split
    · rw [hLi]; exact ⟨clearVal w0, rfl⟩
    · exact ⟨w0, hLi⟩
  have hclt : i < (clearStrField L t).length := (List.getElem?_eq_some.1 hci).1
  rw [fldSig_set_eq hclt, fldSig_clear]
  · rw [(List.getElem?_eq_some.1 hci).2]
  · rw [(List.getElem?_eq_some.1 hci).2]

theorem fldSig_set_of_get {L : List (String × Bool × GoVal)} {i : Nat} {fname : String}
    {fexp : Bool} {w0 : GoVal} (v : GoVal) (hLi : L[i]? = some (fname, fexp, w0)) :
    fldSig (L.set i (fname, fexp, v)) = fldSig L := by
  have hilt : i < L.length := (List.getElem?_eq_some.1 hLi).1
  rw [fldSig_set_eq hilt]
  · rw [(List.getElem?_eq_some.1 hLi).2]
  · rw [(List.getElem?_eq_some.1 hLi).2]

theorem hfresh_split_left {st s1 st' : St} {g : Heap} (hF : HFresh st st' g)
    (hmono : s1.seen ⊆ st'.seen)
    (hframe : ∀ b ∈ s1.seen, st'.heap b = s1.heap b) : HFresh st s1 g :=
  fun b hb hnb => by rw [← hframe b hb]; exact hF b (hmono hb) hnb

theorem hfresh_split_right {st s1 st' : St} {g : Heap} (hF : HFresh st st' g)
    (hmono : st.seen ⊆ s1.seen) : HFresh s1 st' g :=
  fun b hb hnb => hF b hb fun hc => hnb (hmono hc)

theorem setFile_replay (opts : Fields) (file : String) : ∀ fuel : Nat,
    (∀ st adr v st' v', setFile opts file fuel st adr v = some (st', v') →
      ∀ g, HFresh st st' g → ∀ u, u.seen = st.seen → u.heap = g →
      ∃ u', setFile opts file fuel u adr v' = some (u', v') ∧
        u'.seen = st'.seen ∧ u'.heap = g) ∧
    (∀ st adr nm flds i st' flds',
      setFileFields opts file fuel st adr nm flds i = some (st', flds') →
      ∀ g, HFresh st st' g → ∀ u, u.seen = st.seen → u.heap = g →
      ∀ M, RelF flds flds' M →
      ∃ u' M', setFileFields opts file fuel u adr nm M i = some (u', M') ∧
        u'.seen = st'.seen ∧ u'.heap = g ∧ M' = flds') ∧
    (∀ st es st' es', setFileList opts file fuel st es = some (st', es') →
      ∀ g, HFresh st st' g → ∀ u, u.seen = st.seen → u.heap = g →
      ∃ u', setFileList opts file fuel u es' = some (u', es') ∧
        u'.seen = st'.seen ∧ u'.heap = g) ∧
    (∀ st es st' es', setFileEntries opts file fuel st es = some (st', es') →
      ∀ g, HFresh st st' g → ∀ u, u.seen = st.seen → u.heap = g →
      ∃ u', setFileEntries opts file fuel u es' = some (u', es') ∧
        u'.seen = st'.seen ∧ u'.heap = g) ∧
    (∀ st adr v st' v', setFile opts file fuel st adr v = some (st', v') →
      ∀ g, HFresh st st' g → ∀ u, u.seen = st.seen → u.heap = g →
      ∃ u' v2, setFile opts file fuel u adr v = some (u', v2) ∧
        u'.seen = st'.seen ∧ u'.heap = g) ∧
    (∀ st adr nm flds i st' flds',
      setFileFields opts file fuel st adr nm flds i = some (st', flds') →
      ∀ g, HFresh st st' g → ∀ u, u.seen = st.seen → u.heap = g →
      ∀ M, Rel2F i flds M →
      ∃ u' M', setFileFields opts file fuel u adr nm M i = some (u', M') ∧
        u'.seen = st'.seen ∧ u'.heap = g) ∧
    (∀ st es st' es', setFileList opts file fuel st es = some (st', es') →
      ∀ g, HFresh st st' g → ∀ u, u.seen = st.seen → u.heap = g →
      ∃ u' es2, setFileList opts file fuel u es = some (u', es2) ∧
        u'.seen = st'.seen ∧ u'.heap = g) ∧
    (∀ st es st' es', setFileEntries opts file fuel st es = some (st', es') →
      ∀ g, HFresh st st' g → ∀ u, u.seen = st.seen → u.heap = g →
      ∃ u' es2, setFileEntries opts file fuel u es = some (u', es2) ∧
        u'.seen = st'.seen ∧ u'.heap = g) := by
  intro fuel
  induction fuel with
  | zero =>
      refine ⟨?_, ?_, ?_, ?_, ?_, ?_, ?_, ?_⟩ <;> intro st <;> intros <;>
        simp_all [setFile, setFileFields, setFileList, setFileEntries]
  | succ fl ih =>
      obtain ⟨ih1, ih2, ih3, ih4, ih5, ih6, ih7, ih8⟩ := ih
      have mGo : ∀ st adr v st' v', setFile opts file fl st adr v = some (st', v') →
          st.seen ⊆ st'.seen := fun st adr v st' v' h =>
        ((setFile_state opts file fl).1 st adr v st' v' h).1
      have mF : ∀ st adr nm flds i st' flds',
          setFileFields opts file fl st adr nm flds i = some (st', flds') →
          st.seen ⊆ st'.seen := fun st adr nm flds i st' flds' h =>
        ((setFile_state opts file fl).2.1 st adr nm flds i st' flds' h).1
      have mL : ∀ st es st' es', setFileList opts file fl st es = some (st', es') →
          st.seen ⊆ st'.seen := fun st es st' es' h =>
        ((setFile_state opts file fl).2.2.1 st es st' es' h).1
      have mE : ∀ st es st' es', setFileEntries opts file fl st es = some (st', es') →
          st.seen ⊆ st'.seen := fun st es st' es' h =>
        ((setFile_state opts file fl).2.2.2 st es st' es' h).1
      have fGo : ∀ st adr v st' v', setFile opts file fl st adr v = some (st', v') →
          ∀ a ∈ st.seen, st'.heap a = st.heap a :=
        (setFile_frame opts file fl).1
      have fF : ∀ st adr nm flds i st' flds',
          setFileFields opts file fl st adr nm flds i = some (st', flds') →
          ∀ a ∈ st.seen, st'.heap a = st.heap a :=
        (setFile_frame opts file fl).2.1
      have fL : ∀ st es st' es', setFileList opts file fl st es = some (st', es') →
          ∀ a ∈ st.seen, st'.heap a = st.heap a :=
        (setFile_frame opts file fl).2.2.1
      have fE : ∀ st es st' es', setFileEntries opts file fl st es = some (st', es') →
          ∀ a ∈ st.seen, st'.heap a = st.heap a :=
        (setFile_frame opts file fl).2.2.2
      refine ⟨?_, ?_, ?_, ?_, ?_, ?_, ?_, ?_⟩
      · intro st adr v st' v' h g hF u hus huh
        cases v with
        | str p s =>
            simp only [setFile] at h
            rw [if_neg (by simp [isNilV])] at h
            cases h
            exact ⟨u, by simp only [setFile]; rw [if_neg (by simp [isNilV])], hus, huh⟩
        | boolV b =>
            simp only [setFile] at h
            rw [if_neg (by simp [isNilV])] at h
            cases h
            exact ⟨u, by simp only [setFile]; rw [if_neg (by simp [isNilV])], hus, huh⟩
        | strSlice es =>
            simp only [setFile] at h
            rw [if_neg (by simp [isNilV])] at h
            cases h
            exact ⟨u, by simp only [setFile]; rw [if_neg (by simp [isNilV])], hus, huh⟩
        | ptr oa =>
            cases oa with
            | none =>
                simp only [setFile] at h
                rw [if_pos (by simp [isNilV])] at h
                cases h
                exact ⟨u, by simp only [setFile]; rw [if_pos (by simp [isNilV])], hus, huh⟩
            | some a =>
                simp only [setFile] at h
                rw [if_neg (by simp [isNilV])] at h
                split at h
                · rename_i hmem
                  cases h
                  refine ⟨u, ?_, hus, huh⟩
                  simp only [setFile]
                  rw [if_neg (by simp [isNilV]), if_pos (by rw [hus]; exact hmem)]
                · rename_i hfresh
                  split at h
                  · exact absurd h (by simp)
                  · rename_i st2 c heq
                    cases h
                    have hmono2 : insert a st.seen ⊆ st2.seen := mGo _ _ _ _ _ heq
                    have hain : a ∈ st2.seen := hmono2 (Finset.mem_insert_self a _)
                    have hga : g a = c := by
                      have h1 := hF a hain hfresh
                      rw [show ({ st2 with heap := Function.update st2.heap a c } : St).heap
                        = Function.update st2.heap a c from rfl] at h1
                      rw [Function.update_same] at h1
                      exact h1.symm
                    have hF2 : HFresh
                        { st with seen := insert a st.seen, visits := st.visits ++ [a] }
                        st2 g := by
                      intro b hb hnb
                      simp only [Finset.mem_insert, not_or] at hnb
                      have h1 := hF b hb hnb.2
                      rw [show ({ st2 with heap := Function.update st2.heap a c } : St).heap
                        = Function.update st2.heap a c from rfl] at h1
                      rw [Function.update_noteq hnb.1] at h1
                      exact h1
                    obtain ⟨u2', hsub2, hseen2, hheap2⟩ := ih1 _ _ _ _ _ heq g hF2
                      { u with seen := insert a u.seen, visits := u.visits ++ [a] }
                      (by simp [hus]) huh
                    refine ⟨{ u2' with heap := Function.update u2'.heap a c }, ?_, ?_, ?_⟩
                    · simp only [setFile]
                      rw [if_neg (by simp [isNilV]), if_neg (by rw [hus]; exact hfresh)]
                      have hscrut : setFile opts file fl
                          { u with seen := insert a u.seen, visits := u.visits ++ [a] }
                          true (u.heap a) = some (u2', c) := by
                        rw [show u.heap a = c from by rw [huh]; exact hga]
                        exact hsub2
                      rw [hscrut]
                    · exact hseen2
                    · show Function.update u2'.heap a c = g
                      rw [hheap2, ← hga, Function.update_eq_self]
        | strukt n2 hs2 flds0 =>
            simp only [setFile] at h
            rw [if_neg (by simp [isNilV])] at h
            split at h
            · exact absurd h (by simp)
            · rename_i stf fldsf heq
              cases h
              obtain ⟨hsig, -⟩ := setFileFields_bd opts file fl _ _ _ _ _ _ _ heq
              have hrel : RelF flds0 fldsf fldsf := by
                refine ⟨hsig, ?_⟩
                intro j n e w wf m hL hLf hM
                have hmw : wf = m := by rw [hLf] at hM; simpa using hM
                exact ⟨Or.inr hmw.symm, fun _ => hmw.symm⟩
              obtain ⟨u', M', hrun, hseen', hheap', hM'⟩ :=
                ih2 _ _ _ _ _ _ _ heq g hF u hus huh fldsf hrel
              refine ⟨u', ?_, hseen', hheap'⟩
              simp only [setFile]
              rw [if_neg (by simp [isNilV]), hrun, hM']
        | sliceV es =>
            simp only [setFile] at h
            rw [if_neg (by simp [isNilV])] at h
            split at h
            · exact absurd h (by simp)
            · rename_i stl esl heq
              cases h
              obtain ⟨u', hrun, hseen', hheap'⟩ := ih3 _ _ _ _ heq g hF u hus huh
              refine ⟨u', ?_, hseen', hheap'⟩
              simp only [setFile]
              rw [if_neg (by simp [isNilV]), hrun]
        | mapV entries =>
            simp only [setFile] at h
            rw [if_neg (by simp [isNilV])] at h
            split at h
            · exact absurd h (by simp)
            · rename_i stm esm heq
              cases h
              obtain ⟨u', hrun, hseen', hheap'⟩ := ih4 _ _ _ _ heq g hF u hus huh
              refine ⟨u', ?_, hseen', hheap'⟩
              simp only [setFile]
              rw [if_neg (by simp [isNilV]), hrun]
        | iface ow =>
            cases ow with
            | none =>
                simp only [setFile] at h
                rw [if_pos (by simp [isNilV])] at h
                cases h
                exact ⟨u, by simp only [setFile]; rw [if_pos (by simp [isNilV])], hus, huh⟩
            | some w =>
                simp only [setFile] at h
                rw [if_neg (by simp [isNilV])] at h
                split at h
                · exact absurd h (by simp)
                · rename_i st2 w2 heq
                  cases h
                  obtain ⟨u', hrun, hseen', hheap'⟩ := ih1 _ _ _ _ _ heq g hF u hus huh
                  refine ⟨u', ?_, hseen', hheap'⟩
                  simp only [setFile]
                  rw [if_neg (by simp [isNilV]), hrun]
      · intro st adr nm flds i st' flds' h g hF u hus huh M hrel
        obtain ⟨hsigM, hrelp⟩ := hrel
        have horig := h
        obtain ⟨hsigLf, hbdLf⟩ := setFileFields_bd opts file (fl + 1) _ _ _ _ _ _ _ horig
        cases hgi : flds[i]? with
        | none =>
            simp only [setFileFields, hgi] at h
            cases h
            have hMi : M[i]? = none := sig_get_none hsigM hgi
            have hMeq : M = flds := by
              refine fields_ext hsigM ?_
              intro j n e w m hL hM
              have hR := hrelp j n e w w m hL hL hM
              rcases hR.1 with h1 | h1 <;> exact h1
            refine ⟨u, M, ?_, hus, huh, hMeq⟩
            simp only [setFileFields, hMi]
        | some f0 =>
            obtain ⟨fname, fexp, fval⟩ := f0
            have hilt : i < flds.length := (List.getElem?_eq_some.1 hgi).1
            simp only [setFileFields, hgi] at h
            obtain ⟨m_i, hMi⟩ := sig_get hsigM hgi
            obtain ⟨wf_i, hLfi⟩ := sig_get hsigLf hgi
            have hRPi := hrelp i fname fexp fval wf_i m_i hgi hLfi hMi
            have hbdwf_i : bdV wf_i = bdV fval := by
              obtain ⟨w', hw', hbd⟩ := hbdLf i fname fexp fval hgi
              rw [hLfi] at hw'
              have hxx : wf_i = w' := by simpa using hw'
              rw [hxx]; exact hbd
            have hbdmi : bdV m_i = bdV fval := by
              rcases hRPi.1 with h1 | h1
              · rw [h1]
              · rw [h1]; exact hbdwf_i
            by_cases hskip : (!(adr && fexp) || opts.excludes ⟨nm, fname⟩) = true
            · rw [if_pos hskip] at h
              obtain ⟨u', M', hrun, hseen', hheap', hM'⟩ :=
                ih2 _ _ _ _ _ _ _ h g hF u hus huh M ⟨hsigM, hrelp⟩
              refine ⟨u', M', ?_, hseen', hheap', hM'⟩
              simp only [setFileFields, hMi]
              rw [if_pos hskip]
              exact hrun
            · rw [if_neg hskip] at h
              by_cases hsing : (fval.isPlainStr && (hasSuffixStr fname "File" ||
                  opts.includes ⟨nm, fname⟩)) = true
              · rw [if_pos hsing] at h
                have hrel1 : RelF ((clearStrField flds (trimSuffixStr fname "File")).set i
                    (fname, fexp, .str true file)) flds'
                    ((clearStrField M (trimSuffixStr fname "File")).set i
                    (fname, fexp, .str true file)) := by
                  constructor
                  · rw [fldSig_clear_set _ _ hMi, fldSig_clear_set _ _ hgi, hsigM]
                  · intro j n e w' wf m' hL1 hLf1 hM1
                    by_cases hji : j = i
                    · subst hji
                      have hclen : j < (clearStrField flds (trimSuffixStr fname "File")).length := by
                        rw [clear_len]; exact hilt
                      have hclenM : j < (clearStrField M (trimSuffixStr fname "File")).length := by
                        rw [clear_len]; exact (List.getElem?_eq_some.1 hMi).1
                      rw [List.getElem?_set_self hclen] at hL1
                      rw [List.getElem?_set_self hclenM] at hM1
                      simp only [Option.some.injEq, Prod.mk.injEq] at hL1 hM1
                      obtain ⟨rfl, rfl, hw'⟩ := hL1
                      obtain ⟨-, -, hm'⟩ := hM1
                      rw [← hw', ← hm']
                      exact ⟨Or.inl rfl, fun habs => by simp [isStrish] at habs⟩
                    · rw [List.getElem?_set_ne (show i ≠ j from fun hc => hji hc.symm)] at hL1 hM1
                      rw [clear_get] at hL1 hM1
                      simp only [fldIdx_sig _ hsigM] at hM1
                      by_cases hidx : fldIdx flds (trimSuffixStr fname "File") = some j
                      · rw [if_pos hidx] at hL1 hM1
                        cases hfj : flds[j]? with
                        | none => rw [hfj] at hL1; simp at hL1
                        | some f1 =>
                            obtain ⟨n0, e0, w0⟩ := f1
                            rw [hfj] at hL1
                            simp only [Option.map_some', Option.some.injEq,
                              Prod.mk.injEq] at hL1
                            obtain ⟨rfl, rfl, hw'⟩ := hL1
                            cases hMj : M[j]? with
                            | none => rw [hMj] at hM1; simp at hM1
                            | some f2 =>
                                obtain ⟨n1, e1, m0⟩ := f2
                                rw [hMj] at hM1
                                simp only [Option.map_some', Option.some.injEq,
                                  Prod.mk.injEq] at hM1
                                obtain ⟨hn1, he1, hm'⟩ := hM1
                                rw [hn1, he1] at hMj
                                have hRPj := hrelp j n0 e0 w0 wf m0 hfj hLf1 hMj
                                have hbdwfj : bdV wf = bdV w0 := by
                                  obtain ⟨wx, hwx, hbdx⟩ := hbdLf j n0 e0 w0 hfj
                                  rw [hLf1] at hwx
                                  have hxx : wf = wx := by simpa using hwx
                                  rw [hxx]; exact hbdx
                                have hflagwf : strFlag wf = strFlag w0 := by
                                  have hh := congrArg Prod.fst hbdwfj
                                  simpa [bdV] using hh
                                rw [← hw', ← hm']
                                constructor
                                · rcases hRPj.1 with h1 | h1
                                  · rw [h1]; exact Or.inl rfl
                                  · cases hsf : strFlag w0 with
                                    | some p =>
                                        obtain ⟨s0, rfl⟩ := strFlag_shape hsf
                                        have hfwf : strFlag wf = some p := by
                                          rw [hflagwf, hsf]
                                        obtain ⟨s1, rfl⟩ := strFlag_shape hfwf
                                        rw [h1]
                                        exact Or.inl rfl
                                    | none =>
                                        have hwfn : strFlag wf = none := by rw [hflagwf, hsf]
                                        rw [h1, clearVal_nonstr hwfn]
                                        exact Or.inr rfl
                                · intro habs
                                  rw [clearVal_isStrish] at habs
                                  have hm0wf : m0 = wf := hRPj.2 habs
                                  have hfl0 : strFlag w0 = none := strFlag_none_of_not_strish habs
                                  have hflwf : strFlag wf = none := by rw [hflagwf, hfl0]
                                  rw [hm0wf, clearVal_nonstr hflwf]
                      · rw [if_neg hidx] at hL1 hM1
                        exact hrelp j n e w' wf m' hL1 hLf1 hM1
                obtain ⟨u', M', hrun, hseen', hheap', hM'⟩ :=
                  ih2 _ _ _ _ _ _ _ h g hF u hus huh
                    ((clearStrField M (trimSuffixStr fname "File")).set i
                      (fname, fexp, .str true file)) hrel1
                have hsing2 : (m_i.isPlainStr && (hasSuffixStr fname "File" ||
                    opts.includes ⟨nm, fname⟩)) = true := by
                  rw [isPlainStr_of_bd hbdmi]; exact hsing
                refine ⟨u', M', ?_, hseen', hheap', hM'⟩
                simp only [setFileFields, hMi]
                rw [if_neg hskip, if_pos hsing2]
                exact hrun
              · rw [if_neg hsing] at h
                by_cases hplu : (fval.isStrSlice && (hasSuffixStr fname "Files" ||
                    opts.includes ⟨nm, fname⟩)) = true
                · rw [if_pos hplu] at h
                  have hrel1 : RelF (flds.set i (fname, fexp, .strSlice [file])) flds'
                      (M.set i (fname, fexp, .strSlice [file])) := by
                    constructor
                    · rw [fldSig_set_of_get _ hMi, fldSig_set_of_get _ hgi, hsigM]
                    · intro j n e w' wf m' hL1 hLf1 hM1
                      by_cases hji : j = i
                      · subst hji
                        rw [List.getElem?_set_self hilt] at hL1
                        rw [List.getElem?_set_self (List.getElem?_eq_some.1 hMi).1] at hM1
                        simp only [Option.some.injEq, Prod.mk.injEq] at hL1 hM1
                        obtain ⟨rfl, rfl, hw'⟩ := hL1
                        obtain ⟨-, -, hm'⟩ := hM1
                        rw [← hw', ← hm']
                        exact ⟨Or.inl rfl, fun habs => by simp [isStrish] at habs⟩
                      · rw [List.getElem?_set_ne (show i ≠ j from fun hc => hji hc.symm)] at hL1 hM1
                        exact hrelp j n e w' wf m' hL1 hLf1 hM1
                  obtain ⟨u', M', hrun, hseen', hheap', hM'⟩ :=
                    ih2 _ _ _ _ _ _ _ h g hF u hus huh
                      (M.set i (fname, fexp, .strSlice [file])) hrel1
                  have hplu2 : (m_i.isStrSlice && (hasSuffixStr fname "Files" ||
                      opts.includes ⟨nm, fname⟩)) = true := by
                    rw [isStrSlice_of_bd hbdmi]; exact hplu
                  refine ⟨u', M', ?_, hseen', hheap', hM'⟩
                  simp only [setFileFields, hMi]
                  rw [if_neg hskip,
                    if_neg (show ¬ _ = true from by rw [isPlainStr_of_bd hbdmi]; exact hsing),
                    if_pos hplu2]
                  exact hrun
                · rw [if_neg hplu] at h
                  cases hrec : setFile opts file fl st adr fval with
                  | none => rw [hrec] at h; simp at h
                  | some pr =>
                      obtain ⟨st2, fval'⟩ := pr
                      rw [hrec] at h
                      have hbdv' : bdV fval' = bdV fval := setFile_bd_go hrec
                      by_cases hstr : isStrish fval = true
                      · cases fl with
                        | zero => simp [setFile] at hrec
                        | succ q =>
                            have hident := setFile_ident opts file q st adr hstr
                            rw [hident] at hrec
                            have hst2 : st = st2 ∧ fval = fval' := by simpa using hrec
                            obtain ⟨he1, he2⟩ := hst2
                            subst he1
                            subst he2
                            have hstrm : isStrish m_i = true := by
                              rw [isStrish_of_bd hbdmi]; exact hstr
                            have hident2 := setFile_ident opts file q u adr hstrm
                            have hrel1 : RelF (flds.set i (fname, fexp, fval)) flds'
                                (M.set i (fname, fexp, m_i)) := by
                              constructor
                              · rw [fldSig_set_of_get _ hMi, fldSig_set_of_get _ hgi, hsigM]
                              · intro j n e w' wf m' hL1 hLf1 hM1
                                by_cases hji : j = i
                                · subst hji
                                  rw [List.getElem?_set_self hilt] at hL1
                                  rw [List.getElem?_set_self
                                    (List.getElem?_eq_some.1 hMi).1] at hM1
                                  simp only [Option.some.injEq, Prod.mk.injEq] at hL1 hM1
                                  obtain ⟨rfl, rfl, hw'⟩ := hL1
                                  obtain ⟨-, -, hm'⟩ := hM1
                                  have hwfe : wf = wf_i := by
                                    rw [hLf1] at hLfi
                                    simpa using hLfi
                                  rw [← hw', ← hm', hwfe]
                                  exact hRPi
                                · rw [List.getElem?_set_ne
                                    (show i ≠ j from fun hc => hji hc.symm)] at hL1 hM1
                                  exact hrelp j n e w' wf m' hL1 hLf1 hM1
                            obtain ⟨u', M', hrun, hseen', hheap', hM'⟩ :=
                              ih2 _ _ _ _ _ _ _ h g hF u hus huh
                                (M.set i (fname, fexp, m_i)) hrel1
                            refine ⟨u', M', ?_, hseen', hheap', hM'⟩
                            simp only [setFileFields, hMi]
                            rw [if_neg hskip,
                              if_neg (show ¬ _ = true from by
                                rw [isPlainStr_of_bd hbdmi]; exact hsing),
                              if_neg (show ¬ _ = true from by
                                rw [isStrSlice_of_bd hbdmi]; exact hplu),
                              hident2]
                            exact hrun
                      · have hstrf : isStrish fval = false := by simpa using hstr
                        have hmi_wf : m_i = wf_i := hRPi.2 hstrf
                        have hlow := setFileFields_lowpres opts file fl _ _ _ _ _ _ _ h
                          i fname fexp fval' (by omega)
                          (by rw [List.getElem?_set_self hilt])
                          (by rw [isStrish_of_bd hbdv']; exact hstrf)
                        have hwf_eq : wf_i = fval' := by
                          rw [hlow] at hLfi
                          have hx : fval' = wf_i := by simpa using hLfi
                          exact hx.symm
                        have hF2 : HFresh st st2 g :=
                          hfresh_split_left hF (mF _ _ _ _ _ _ _ h) (fF _ _ _ _ _ _ _ h)
                        have hF3 : HFresh st2 st' g :=
                          hfresh_split_right hF (mGo _ _ _ _ _ hrec)
                        obtain ⟨u2, hsub2, hseen2, hheap2⟩ := ih1 _ _ _ _ _ hrec g hF2 u hus huh
                        have hrel1 : RelF (flds.set i (fname, fexp, fval')) flds'
                            (M.set i (fname, fexp, fval')) := by
                          constructor
                          · rw [fldSig_set_of_get _ hMi, fldSig_set_of_get _ hgi, hsigM]
                          · intro j n e w' wf m' hL1 hLf1 hM1
                            by_cases hji : j = i
                            · subst hji
                              rw [List.getElem?_set_self hilt] at hL1
                              rw [List.getElem?_set_self
                                (List.getElem?_eq_some.1 hMi).1] at hM1
                              simp only [Option.some.injEq, Prod.mk.injEq] at hL1 hM1
                              obtain ⟨rfl, rfl, hw'⟩ := hL1
                              obtain ⟨-, -, hm'⟩ := hM1
                              have hwfe : fval' = wf := by
                                rw [hlow] at hLf1
                                simpa using hLf1
                              rw [← hw', ← hm']
                              exact ⟨Or.inl rfl, fun _ => hwfe⟩
                            · rw [List.getElem?_set_ne
                                (show i ≠ j from fun hc => hji hc.symm)] at hL1 hM1
                              exact hrelp j n e w' wf m' hL1 hLf1 hM1
                        obtain ⟨u', M', hrun, hseen', hheap', hM'⟩ :=
                          ih2 _ _ _ _ _ _ _ h g hF3 u2 hseen2 hheap2
                            (M.set i (fname, fexp, fval')) hrel1
                        refine ⟨u', M', ?_, hseen', hheap', hM'⟩
                        simp only [setFileFields, hMi]
                        rw [if_neg hskip,
                          if_neg (show ¬ _ = true from by
                            rw [isPlainStr_of_bd hbdmi]; exact hsing),
                          if_neg (show ¬ _ = true from by
                            rw [isStrSlice_of_bd hbdmi]; exact hplu),
                          hmi_wf, hwf_eq, hsub2]
                        exact hrun
      · intro st es st' es' h g hF u hus huh
        cases es with
        | nil =>
            simp only [setFileList] at h
            cases h
            exact ⟨u, by simp [setFileList], hus, huh⟩
        | cons v r =>
            simp only [setFileList] at h
            split at h
            · exact absurd h (by simp)
            · rename_i s1 v1 heq
              split at h
              · exact absurd h (by simp)
              · rename_i s2 r1 heq2
                cases h
                have hF1 : HFresh st s1 g :=
                  hfresh_split_left hF (mL _ _ _ _ heq2) (fL _ _ _ _ heq2)
                have hF2 : HFresh s1 st' g :=
                  hfresh_split_right hF (mGo _ _ _ _ _ heq)
                obtain ⟨u1, hrun1, hseen1, hheap1⟩ := ih1 _ _ _ _ _ heq g hF1 u hus huh
                obtain ⟨u2, hrun2, hseen2, hheap2⟩ := ih3 _ _ _ _ heq2 g hF2 u1 hseen1 hheap1
                refine ⟨u2, ?_, hseen2, hheap2⟩
                simp only [setFileList, hrun1, hrun2]
      · intro st es st' es' h g hF u hus huh
        cases es with
        | nil =>
            simp only [setFileEntries] at h
            cases h
            exact ⟨u, by simp [setFileEntries], hus, huh⟩
        | cons kv r =>
            obtain ⟨k, v⟩ := kv
            simp only [setFileEntries] at h
            split at h
            · exact absurd h (by simp)
            · rename_i s1 k1 heqk
              split at h
              · exact absurd h (by simp)
              · rename_i s2 v1 heqv
                split at h
                · exact absurd h (by simp)
                · rename_i s3 r1 heqr
                  cases h
                  have hFk : HFresh st s1 g :=
                    hfresh_split_left hF
                      (fun b hb => mE _ _ _ _ heqr (mGo _ _ _ _ _ heqv hb))
                      (fun b hb => (fE _ _ _ _ heqr b (mGo _ _ _ _ _ heqv hb)).trans
                        (fGo _ _ _ _ _ heqv b hb))
                  have hFv : HFresh s1 s2 g :=
                    hfresh_split_left (hfresh_split_right hF (mGo _ _ _ _ _ heqk))
                      (mE _ _ _ _ heqr) (fE _ _ _ _ heqr)
                  have hFr : HFresh s2 st' g :=
                    hfresh_split_right hF
                      (fun b hb => mGo _ _ _ _ _ heqv (mGo _ _ _ _ _ heqk hb))
                  obtain ⟨uk, k2, hrunk, hseenk, hheapk⟩ :=
                    ih5 _ _ _ _ _ heqk g hFk u hus huh
                  obtain ⟨uv, hrunv, hseenv, hheapv⟩ :=
                    ih1 _ _ _ _ _ heqv g hFv uk hseenk hheapk
                  obtain ⟨ur, hrunr, hseenr, hheapr⟩ :=
                    ih4 _ _ _ _ heqr g hFr uv hseenv hheapv
                  refine ⟨ur, ?_, hseenr, hheapr⟩
                  simp only [setFileEntries, hrunk, hrunv, hrunr]
      · intro st adr v st' v' h g hF u hus huh
        cases v with
        | str p s =>
            simp only [setFile] at h
            rw [if_neg (by simp [isNilV])] at h
            cases h
            exact ⟨u, .str p s,
              by simp only [setFile]; rw [if_neg (by simp [isNilV])], hus, huh⟩
        | boolV b =>
            simp only [setFile] at h
            rw [if_neg (by simp [isNilV])] at h
            cases h
            exact ⟨u, .boolV b,
              by simp only [setFile]; rw [if_neg (by simp [isNilV])], hus, huh⟩
        | strSlice es =>
            simp only [setFile] at h
            rw [if_neg (by simp [isNilV])] at h
            cases h
            exact ⟨u, .strSlice es,
              by simp only [setFile]; rw [if_neg (by simp [isNilV])], hus, huh⟩
        | ptr oa =>
            cases oa with
            | none =>
                simp only [setFile] at h
                rw [if_pos (by simp [isNilV])] at h
                cases h
                exact ⟨u, .ptr none,
                  by simp only [setFile]; rw [if_pos (by simp [isNilV])], hus, huh⟩
            | some a =>
                simp only [setFile] at h
                rw [if_neg (by simp [isNilV])] at h
                split at h
                · rename_i hmem
                  cases h
                  refine ⟨u, .ptr (some a), ?_, hus, huh⟩
                  simp only [setFile]
                  rw [if_neg (by simp [isNilV]), if_pos (by rw [hus]; exact hmem)]
                · rename_i hfresh
                  split at h
                  · exact absurd h (by simp)
                  · rename_i st2 c heq
                    cases h
                    have hmono2 : insert a st.seen ⊆ st2.seen := mGo _ _ _ _ _ heq
                    have hain : a ∈ st2.seen := hmono2 (Finset.mem_insert_self a _)
                    have hga : g a = c := by
                      have h1 := hF a hain hfresh
                      rw [show ({ st2 with heap := Function.update st2.heap a c } : St).heap
                        = Function.update st2.heap a c from rfl] at h1
                      rw [Function.update_same] at h1
                      exact h1.symm
                    have hF2 : HFresh
                        { st with seen := insert a st.seen, visits := st.visits ++ [a] }
                        st2 g := by
                      intro b hb hnb
                      simp only [Finset.mem_insert, not_or] at hnb
                      have h1 := hF b hb hnb.2
                      rw [show ({ st2 with heap := Function.update st2.heap a c } : St).heap
                        = Function.update st2.heap a c from rfl] at h1
                      rw [Function.update_noteq hnb.1] at h1
                      exact h1
                    obtain ⟨u2', hsub2, hseen2, hheap2⟩ := ih1 _ _ _ _ _ heq g hF2
                      { u with seen := insert a u.seen, visits := u.visits ++ [a] }
                      (by simp [hus]) huh
                    refine ⟨{ u2' with heap := Function.update u2'.heap a c },
                      .ptr (some a), ?_, ?_, ?_⟩
                    · simp only [setFile]
                      rw [if_neg (by simp [isNilV]), if_neg (by rw [hus]; exact hfresh)]
                      have hscrut : setFile opts file fl
                          { u with seen := insert a u.seen, visits := u.visits ++ [a] }
                          true (u.heap a) = some (u2', c) := by
                        rw [show u.heap a = c from by rw [huh]; exact hga]
                        exact hsub2
                      rw [hscrut]
                    · exact hseen2
                    · show Function.update u2'.heap a c = g
                      rw [hheap2, ← hga, Function.update_eq_self]
        | strukt n2 hs2 flds0 =>
            simp only [setFile] at h
            rw [if_neg (by simp [isNilV])] at h
            split at h
            · exact absurd h (by simp)
            · rename_i stf fldsf heq
              cases h
              have hrel2 : Rel2F 0 flds0 flds0 := by
                refine ⟨rfl, ?_⟩
                intro j n e w m hL hM hc
                rw [hL] at hM
                have hx : w = m := by simpa using hM
                exact hx.symm
              obtain ⟨u', M', hrun, hseen', hheap'⟩ :=
                ih6 _ _ _ _ _ _ _ heq g hF u hus huh flds0 hrel2
              refine ⟨u', .strukt n2 hs2 M', ?_, hseen', hheap'⟩
              simp only [setFile]
              rw [if_neg (by simp [isNilV]), hrun]
        | sliceV es =>
            simp only [setFile] at h
            rw [if_neg (by simp [isNilV])] at h
            split at h
            · exact absurd h (by simp)
            · rename_i stl esl heq
              cases h
              obtain ⟨u', es2, hrun, hseen', hheap'⟩ := ih7 _ _ _ _ heq g hF u hus huh
              refine ⟨u', .sliceV es2, ?_, hseen', hheap'⟩
              simp only [setFile]
              rw [if_neg (by simp [isNilV]), hrun]
        | mapV entries =>
            simp only [setFile] at h
            rw [if_neg (by simp [isNilV])] at h
            split at h
            · exact absurd h (by simp)
            · rename_i stm esm heq
              cases h
              obtain ⟨u', es2, hrun, hseen', hheap'⟩ := ih8 _ _ _ _ heq g hF u hus huh
              refine ⟨u', .mapV es2, ?_, hseen', hheap'⟩
              simp only [setFile]
              rw [if_neg (by simp [isNilV]), hrun]
        | iface ow =>
            cases ow with
            | none =>
                simp only [setFile] at h
                rw [if_pos (by simp [isNilV])] at h
                cases h
                exact ⟨u, .iface none,
                  by simp only [setFile]; rw [if_pos (by simp [isNilV])], hus, huh⟩
            | some w =>
                simp only [setFile] at h
                rw [if_neg (by simp [isNilV])] at h
                split at h
                · exact absurd h (by simp)
                · rename_i st2 w2 heq
                  cases h
                  obtain ⟨u', v2, hrun, hseen', hheap'⟩ := ih5 _ _ _ _ _ heq g hF u hus huh
                  refine ⟨u', .iface (some v2), ?_, hseen', hheap'⟩
                  simp only [setFile]
                  rw [if_neg (by simp [isNilV]), hrun]
      · intro st adr nm flds i st' flds' h g hF u hus huh M hrel
        obtain ⟨hsigM, hrelp⟩ := hrel
        cases hgi : flds[i]? with
        | none =>
            simp only [setFileFields, hgi] at h
            cases h
            have hMi : M[i]? = none := sig_get_none hsigM hgi
            refine ⟨u, M, ?_, hus, huh⟩
            simp only [setFileFields, hMi]
        | some f0 =>
            obtain ⟨fname, fexp, fval⟩ := f0
            have hilt : i < flds.length := (List.getElem?_eq_some.1 hgi).1
            simp only [setFileFields, hgi] at h
            obtain ⟨m_i, hMi⟩ := sig_get hsigM hgi
            have hmi : m_i = fval := hrelp i fname fexp fval m_i hgi hMi (Or.inr le_rfl)
            subst m_i
            by_cases hskip : (!(adr && fexp) || opts.excludes ⟨nm, fname⟩) = true
            · rw [if_pos hskip] at h
              have hrel2 : Rel2F (i + 1) flds M :=
                ⟨hsigM, fun j n e w m hL hM hc =>
                  hrelp j n e w m hL hM (hc.imp id fun hj => by omega)⟩
              obtain ⟨u', M', hrun, hseen', hheap'⟩ :=
                ih6 _ _ _ _ _ _ _ h g hF u hus huh M hrel2
              refine ⟨u', M', ?_, hseen', hheap'⟩
              simp only [setFileFields, hMi]
              rw [if_pos hskip]
              exact hrun
            · rw [if_neg hskip] at h
              by_cases hsing : (fval.isPlainStr && (hasSuffixStr fname "File" ||
                  opts.includes ⟨nm, fname⟩)) = true
              · rw [if_pos hsing] at h
                have hrel2 : Rel2F (i + 1)
                    ((clearStrField flds (trimSuffixStr fname "File")).set i
                      (fname, fexp, .str true file))
                    ((clearStrField M (trimSuffixStr fname "File")).set i
                      (fname, fexp, .str true file)) := by
                  constructor
                  · rw [fldSig_clear_set _ _ hMi, fldSig_clear_set _ _ hgi, hsigM]
                  · intro j n e w m hL1 hM1 hc
                    by_cases hji : j = i
                    · subst hji
                      have hclen : j < (clearStrField flds (trimSuffixStr fname "File")).length := by
                        rw [clear_len]; exact hilt
                      have hclenM : j < (clearStrField M (trimSuffixStr fname "File")).length := by
                        rw [clear_len]; exact (List.getElem?_eq_some.1 hMi).1
                      rw [List.getElem?_set_self hclen] at hL1
                      rw [List.getElem?_set_self hclenM] at hM1
                      simp only [Option.some.injEq, Prod.mk.injEq] at hL1 hM1
                      obtain ⟨rfl, rfl, hw⟩ := hL1
                      obtain ⟨-, -, hm⟩ := hM1
                      rw [← hw, ← hm]
                    · rw [List.getElem?_set_ne
                        (show i ≠ j from fun hc2 => hji hc2.symm)] at hL1 hM1
                      rw [clear_get] at hL1 hM1
                      simp only [fldIdx_sig _ hsigM] at hM1
                      by_cases hidx : fldIdx flds (trimSuffixStr fname "File") = some j
                      · rw [if_pos hidx] at hL1 hM1
                        cases hfj : flds[j]? with
                        | none => rw [hfj] at hL1; simp at hL1
                        | some f1 =>
                            obtain ⟨n0, e0, w0⟩ := f1
                            rw [hfj] at hL1
                            simp only [Option.map_some', Option.some.injEq,
                              Prod.mk.injEq] at hL1
                            obtain ⟨rfl, rfl, hw⟩ := hL1
                            cases hMj : M[j]? with
                            | none => rw [hMj] at hM1; simp at hM1
                            | some f2 =>
                                obtain ⟨n1, e1, m0⟩ := f2
                                rw [hMj] at hM1
                                simp only [Option.map_some', Option.some.injEq,
                                  Prod.mk.injEq] at hM1
                                obtain ⟨hn1, he1, hm⟩ := hM1
                                rw [hn1, he1] at hMj
                                have hcond0 : isStrish w0 = true ∨ i ≤ j := by
                                  rcases hc with hc1 | hc1
                                  · left
                                    rw [← hw, clearVal_isStrish] at hc1
                                    exact hc1
                                  · right; omega
                                have hm0 : m0 = w0 := hrelp j n0 e0 w0 m0 hfj hMj hcond0
                                rw [← hw, ← hm, hm0]
                      · rw [if_neg hidx] at hL1 hM1
                        exact hrelp j n e w m hL1 hM1
                          (hc.imp id fun hj => by omega)
                obtain ⟨u', M', hrun, hseen', hheap'⟩ :=
                  ih6 _ _ _ _ _ _ _ h g hF u hus huh
                    ((clearStrField M (trimSuffixStr fname "File")).set i
                      (fname, fexp, .str true file)) hrel2
                refine ⟨u', M', ?_, hseen', hheap'⟩
                simp only [setFileFields, hMi]
                rw [if_neg hskip, if_pos hsing]
                exact hrun
              · rw [if_neg hsing] at h
                by_cases hplu : (fval.isStrSlice && (hasSuffixStr fname "Files" ||
                    opts.includes ⟨nm, fname⟩)) = true
                · rw [if_pos hplu] at h
                  have hrel2 : Rel2F (i + 1) (flds.set i (fname, fexp, .strSlice [file]))
                      (M.set i (fname, fexp, .strSlice [file])) := by
                    constructor
                    · rw [fldSig_set_of_get _ hMi, fldSig_set_of_get _ hgi, hsigM]
                    · intro j n e w m hL1 hM1 hc
                      by_cases hji : j = i
                      · subst hji
                        rw [List.getElem?_set_self hilt] at hL1
                        rw [List.getElem?_set_self (List.getElem?_eq_some.1 hMi).1] at hM1
                        simp only [Option.some.injEq, Prod.mk.injEq] at hL1 hM1
                        obtain ⟨rfl, rfl, hw⟩ := hL1
                        obtain ⟨-, -, hm⟩ := hM1
                        rw [← hw, ← hm]
                      · rw [List.getElem?_set_ne
                          (show i ≠ j from fun hc2 => hji hc2.symm)] at hL1 hM1
                        exact hrelp j n e w m hL1 hM1 (hc.imp id fun hj => by omega)
                  obtain ⟨u', M', hrun, hseen', hheap'⟩ :=
                    ih6 _ _ _ _ _ _ _ h g hF u hus huh
                      (M.set i (fname, fexp, .strSlice [file])) hrel2
                  refine ⟨u', M', ?_, hseen', hheap'⟩
                  simp only [setFileFields, hMi]
                  rw [if_neg hskip, if_neg hsing, if_pos hplu]
                  exact hrun
                · rw [if_neg hplu] at h
                  cases hrec : setFile opts file fl st adr fval with
                  | none => rw [hrec] at h; simp at h
                  | some pr =>
                      obtain ⟨st2, fval'⟩ := pr
                      rw [hrec] at h
                      have hbdv' : bdV fval' = bdV fval := setFile_bd_go hrec
                      by_cases hstr : isStrish fval = true
                      · cases fl with
                        | zero => simp [setFile] at hrec
                        | succ q =>
                            have hident := setFile_ident opts file q st adr hstr
                            rw [hident] at hrec
                            have hst2 : st = st2 ∧ fval = fval' := by simpa using hrec
                            obtain ⟨he1, he2⟩ := hst2
                            subst he1
                            subst he2
                            have hident2 := setFile_ident opts file q u adr hstr
                            have hrel2 : Rel2F (i + 1) (flds.set i (fname, fexp, fval))
                                (M.set i (fname, fexp, fval)) := by
                              constructor
                              · rw [fldSig_set_of_get _ hMi, fldSig_set_of_get _ hgi, hsigM]
                              · intro j n e w m hL1 hM1 hc
                                by_cases hji : j = i
                                · subst hji
                                  rw [List.getElem?_set_self hilt] at hL1
                                  rw [List.getElem?_set_self
                                    (List.getElem?_eq_some.1 hMi).1] at hM1
                                  simp only [Option.some.injEq, Prod.mk.injEq] at hL1 hM1
                                  obtain ⟨rfl, rfl, hw⟩ := hL1
                                  obtain ⟨-, -, hm⟩ := hM1
                                  rw [← hw, ← hm]
                                · rw [List.getElem?_set_ne
                                    (show i ≠ j from fun hc2 => hji hc2.symm)] at hL1 hM1
                                  exact hrelp j n e w m hL1 hM1
                                    (hc.imp id fun hj => by omega)
                            obtain ⟨u', M', hrun, hseen', hheap'⟩ :=
                              ih6 _ _ _ _ _ _ _ h g hF u hus huh
                                (M.set i (fname, fexp, fval)) hrel2
                            refine ⟨u', M', ?_, hseen', hheap'⟩
                            simp only [setFileFields, hMi]
                            rw [if_neg hskip, if_neg hsing, if_neg hplu, hident2]
                            exact hrun
                      · have hstrf : isStrish fval = false := by simpa using hstr
                        have hF2 : HFresh st st2 g :=
                          hfresh_split_left hF (mF _ _ _ _ _ _ _ h) (fF _ _ _ _ _ _ _ h)
                        have hF3 : HFresh st2 st' g :=
                          hfresh_split_right hF (mGo _ _ _ _ _ hrec)
                        obtain ⟨u2, v2, hsub2, hseen2, hheap2⟩ :=
                          ih5 _ _ _ _ _ hrec g hF2 u hus huh
                        have hrel2 : Rel2F (i + 1) (flds.set i (fname, fexp, fval'))
                            (M.set i (fname, fexp, v2)) := by
                          constructor
                          · rw [fldSig_set_of_get _ hMi, fldSig_set_of_get _ hgi, hsigM]
                          · intro j n e w m hL1 hM1 hc
                            by_cases hji : j = i
                            · subst hji
                              rw [List.getElem?_set_self hilt] at hL1
                              rw [List.getElem?_set_self
                                (List.getElem?_eq_some.1 hMi).1] at hM1
                              simp only [Option.some.injEq, Prod.mk.injEq] at hL1 hM1
                              obtain ⟨rfl, rfl, hw⟩ := hL1
                              rcases hc with hc1 | hc1
                              · rw [← hw, isStrish_of_bd hbdv'] at hc1
                                rw [hstrf] at hc1
                                cases hc1
                              · exact absurd hc1 (by omega)
                            · rw [List.getElem?_set_ne
                                (show i ≠ j from fun hc2 => hji hc2.symm)] at hL1 hM1
                              exact hrelp j n e w m hL1 hM1
                                (hc.imp id fun hj => by omega)
                        obtain ⟨u', M', hrun, hseen', hheap'⟩ :=
                          ih6 _ _ _ _ _ _ _ h g hF3 u2 hseen2 hheap2
                            (M.set i (fname, fexp, v2)) hrel2
                        refine ⟨u', M', ?_, hseen', hheap'⟩
                        simp only [setFileFields, hMi]
                        rw [if_neg hskip, if_neg hsing, if_neg hplu, hsub2]
                        exact hrun
      · intro st es st' es' h g hF u hus huh
        cases es with
        | nil =>
            simp only [setFileList] at h
            cases h
            exact ⟨u, [], by simp [setFileList], hus, huh⟩
        | cons v r =>
            simp only [setFileList] at h
            split at h
            · exact absurd h (by simp)
            · rename_i s1 v1 heq
              split at h
              · exact absurd h (by simp)
              · rename_i s2 r1 heq2
                cases h
                have hF1 : HFresh st s1 g :=
                  hfresh_split_left hF (mL _ _ _ _ heq2) (fL _ _ _ _ heq2)
                have hF2 : HFresh s1 st' g :=
                  hfresh_split_right hF (mGo _ _ _ _ _ heq)
                obtain ⟨u1, v2, hrun1, hseen1, hheap1⟩ := ih5 _ _ _ _ _ heq g hF1 u hus huh
                obtain ⟨u2, es2, hrun2, hseen2, hheap2⟩ :=
                  ih7 _ _ _ _ heq2 g hF2 u1 hseen1 hheap1
                refine ⟨u2, v2 :: es2, ?_, hseen2, hheap2⟩
                simp only [setFileList, hrun1, hrun2]
      · intro st es st' es' h g hF u hus huh
        cases es with
        | nil =>
            simp only [setFileEntries] at h
            cases h
            exact ⟨u, [], by simp [setFileEntries], hus, huh⟩
        | cons kv r =>
            obtain ⟨k, v⟩ := kv
            simp only [setFileEntries] at h
            split at h
            · exact absurd h (by simp)
            · rename_i s1 k1 heqk
              split at h
              · exact absurd h (by simp)
              · rename_i s2 v1 heqv
                split at h
                · exact absurd h (by simp)
                · rename_i s3 r1 heqr
                  cases h
                  have hFk : HFresh st s1 g :=
                    hfresh_split_left hF
                      (fun b hb => mE _ _ _ _ heqr (mGo _ _ _ _ _ heqv hb))
                      (fun b hb => (fE _ _ _ _ heqr b (mGo _ _ _ _ _ heqv hb)).trans
                        (fGo _ _ _ _ _ heqv b hb))
                  have hFv : HFresh s1 s2 g :=
                    hfresh_split_left (hfresh_split_right hF (mGo _ _ _ _ _ heqk))
                      (mE _ _ _ _ heqr) (fE _ _ _ _ heqr)
                  have hFr : HFresh s2 st' g :=
                    hfresh_split_right hF
                      (fun b hb => mGo _ _ _ _ _ heqv (mGo _ _ _ _ _ heqk hb))
                  obtain ⟨uk, k2, hrunk, hseenk, hheapk⟩ :=
                    ih5 _ _ _ _ _ heqk g hFk u hus huh
                  obtain ⟨uv, v2, hrunv, hseenv, hheapv⟩ :=
                    ih5 _ _ _ _ _ heqv g hFv uk hseenk hheapk
                  obtain ⟨ur, r2, hrunr, hseenr, hheapr⟩ :=
                    ih8 _ _ _ _ heqr g hFr uv hseenv hheapv
                  refine ⟨ur, (k, v2) :: r2, ?_, hseenr, hheapr⟩
                  simp only [setFileEntries, hrunk, hrunv, hrunr]

/-- C8: the rewrite is idempotent.  If `SetFile` maps the graph
`(h, root)` to `(st1.heap, v1)`, then running `SetFile` again with the
same constant on that output graph succeeds (with the same fuel, since
the second run replays the first run's traversal step for step) and
changes nothing: the root value and every heap cell come out unchanged. -/
theorem setFile_idem (options : List FieldOption) (file : String) (fuel : Nat)
    (h : Heap) (root : GoVal) (st1 : St) (v1 : GoVal)
    (h1 : SetFileT options file fuel h root = some (st1, v1)) :
    ∃ st2, SetFileT options file fuel st1.heap v1 = some (st2, v1) ∧
      st2.heap = st1.heap := by
  have hF : HFresh (initSt h) st1 st1.heap := fun a _ _ => rfl
  obtain ⟨u', hrun, hseen, hheap⟩ :=
    (setFile_replay (mkFields options) file fuel).1 _ _ _ _ _ h1 st1.heap hF
      (initSt st1.heap) rfl rfl
  exact ⟨u', hrun, hheap⟩

theorem setFile_idem_witness :
    ∃ st2, SetFileT [] "f.yml" 9
        ((⟨Function.update (fun _ => GoVal.strukt "fooSetter" true
            [("Foo", true, GoVal.str false "secret"),
              ("FooFile", true, GoVal.str true "old")]) 0
            (GoVal.strukt "fooSetter" true
              [("Foo", true, GoVal.str false ""),
                ("FooFile", true, GoVal.str true "f.yml")]),
          insert 0 ∅, [0], [], []⟩ : St).heap)
        (GoVal.ptr (some 0)) = some (st2, GoVal.ptr (some 0)) ∧
      st2.heap = (⟨Function.update (fun _ => GoVal.strukt "fooSetter" true
            [("Foo", true, GoVal.str false "secret"),
              ("FooFile", true, GoVal.str true "old")]) 0
            (GoVal.strukt "fooSetter" true
              [("Foo", true, GoVal.str false ""),
                ("FooFile", true, GoVal.str true "f.yml")]),
          insert 0 ∅, [0], [], []⟩ : St).heap :=
  setFile_idem [] "f.yml" 9
    (fun _ => GoVal.strukt "fooSetter" true
      [("Foo", true, GoVal.str false "secret"), ("FooFile", true, GoVal.str true "old")])
    (GoVal.ptr (some 0)) _ (GoVal.ptr (some 0)) rfl
